import Mathlib

/-!
# libtinyhtm: HTM id-range enumeration and tree index loader

Shallow embedding of `src/htm/htm_s2circle_ids.cxx` and `src/tree.c`.
-/

namespace TinyHTM

/-! ## Common types -/

/-- Error codes (`enum htm_errcode`). -/
inductive htm_errcode
  | HTM_OK | HTM_ENULLPTR | HTM_EINV | HTM_EIO | HTM_EMMAN | HTM_ENOMEM | HTM_ELEVEL | HTM_ETREE
  deriving DecidableEq, Repr

deriving instance DecidableEq for Except

/-- Outcome of classifying an HTM triangle against a region (`enum _htm_cov`). -/
inductive htm_cov
  | HTM_DISJOINT | HTM_INTERSECT | HTM_CONTAINS | HTM_INSIDE
  deriving DecidableEq, Repr

/-- A C `double`: a finite value `m * 2 ^ e`, an infinity, or a NaN. -/
inductive Dbl
  | fin (m : Int) (e : Int)
  | pinf
  | ninf
  | nan
  deriving DecidableEq, Repr

/-- The comparison `d < 0.0`. -/
def Dbl.ltZero : Dbl → Bool
  | .fin m _ => decide (m < 0)
  | .pinf => false
  | .ninf => true
  | .nan => false

/-- The comparison `d >= 180.0`. -/
def Dbl.ge180 : Dbl → Bool
  | .fin m e => if 0 ≤ e then decide (180 ≤ m * 2 ^ e.toNat) else decide (180 * 2 ^ (-e).toNat ≤ m)
  | .pinf => true
  | .ninf => false
  | .nan => false

/-- A point of the unit sphere (`struct htm_v3`). -/
structure htm_v3 where
  x : Dbl
  y : Dbl
  z : Dbl
  deriving DecidableEq, Repr

/-- A closed range of HTM ids as the walk holds it (`struct htm_range`, fields
`int64_t min, max`): the ids the walk writes are not negative. -/
structure htm_range where
  min : Nat
  max : Nat
  deriving DecidableEq, Repr

/-- Modelled from the spec: the constant `HTM_MAX_LEVEL` of the absent header `tinyhtm/htm.h`
("maximum supported level is `HTM_MAX_LEVEL` (commonly 20)"). -/
def HTM_MAX_LEVEL : Nat := 20

/-- Modelled from the spec: the enumerators of `enum htm_root` of the absent header
`tinyhtm/htm.h` (eight roots numbered S0..S3, N0..N3; root `r` has id `8 + r`). -/
def HTM_S0 : Nat := 0

/-- Modelled from the spec: last root `N3` of `enum htm_root` (absent header `tinyhtm/htm.h`). -/
def HTM_N3 : Nat := 7

/-- Modelled from the spec: `HTM_NROOTS`, the number of roots (absent header `tinyhtm/htm.h`). -/
def HTM_NROOTS : Nat := 8

/-- The largest `size_t`, the cap that never triggers. -/
def SIZE_MAX : Nat := 2 ^ 64 - 1

/-! ## The id-range list -/

/-- What the allocator can give: whether `_htm_ids_init` succeeds, and for how many ranges
storage can be obtained in all. -/
structure Alloc where
  initOk : Bool
  limit : Nat
  deriving DecidableEq, Repr

/-- Modelled from the spec: `_htm_ids_add` of the absent header `_htm_ids_add.hxx`. The range
`[min_id, max_id]` goes to the end of the list; when it is adjacent to the last range
(`min_id = last.max + 1`) the last range is extended instead, so that "adjacent intervals are
coalesced". This is the list part, storage apart. -/
def ids_push : List htm_range → Nat → Nat → List htm_range
  | [], min_id, max_id => [⟨min_id, max_id⟩]
  | [r], min_id, max_id =>
      if min_id = r.max + 1 then [⟨r.min, max_id⟩] else [r, ⟨min_id, max_id⟩]
  | r :: r2 :: rest, min_id, max_id => r :: ids_push (r2 :: rest) min_id max_id

/-- Modelled from the spec: `_htm_ids_add` of the absent header `_htm_ids_add.hxx`, storage
included: it returns `none` (NULL, "allocation failure during range enumeration") when the list
would grow beyond what the allocator can give. -/
def _htm_ids_add (alloc : Alloc) (ids : List htm_range) (min_id max_id : Nat) :
    Option (List htm_range) :=
  let out := ids_push ids min_id max_id
  if out.length ≤ alloc.limit then some out else none

/-- Modelled from the spec: the merge pass of `_htm_simplify_ids` ("re-merges
adjacent/overlapping intervals"): `cur` is the interval being grown. -/
def ids_merge (cur : htm_range) : List htm_range → List htm_range
  | [] => [cur]
  | r :: rest =>
      if r.min ≤ cur.max + 1 then ids_merge ⟨cur.min, max cur.max r.max⟩ rest
      else cur :: ids_merge r rest

/-- Modelled from the spec: one range of the list seen `n` levels coarser. Each endpoint is
shifted right by `2 n` bits; the list keeps level-`L` ids (every emit writes level-`L` ids), so
the coarse triangle `min >> 2n` starts at `(min >> 2n) << 2n` and the coarse triangle
`max >> 2n` ends at `(((max >> 2n) + 1) << 2n) - 1`. -/
def range_coarsen (n : Nat) (r : htm_range) : htm_range :=
  ⟨(r.min >>> (2 * n)) <<< (2 * n), (((r.max >>> (2 * n)) + 1) <<< (2 * n)) - 1⟩

/-- Modelled from the spec: `_htm_simplify_ids` of the absent header `_htm_simplify_ids.hxx`
("right-shifts each endpoint by `2g` bits then re-merges adjacent/overlapping intervals"). -/
def _htm_simplify_ids (ids : List htm_range) (n : Nat) : List htm_range :=
  match ids.map (range_coarsen n) with
  | [] => []
  | r :: rest => ids_merge r rest

/-! ## The node path -/

/-- A node of the path (`struct _htm_node`): the triangle id and the index of the next child to
make. The vertices, midpoints and edges only feed the classification, which is a parameter. -/
structure _htm_node where
  id : Nat
  child : Nat
  deriving DecidableEq, Repr

/-- Modelled from the spec: `_htm_path_root` of the absent header: the path holds the root
triangle, of id `8 + root`, with no child made yet. -/
def _htm_path_root (root : Nat) : List _htm_node := [⟨8 + root, 0⟩]

/-- Modelled from the spec: `_htm_node_make0` .. `_htm_node_make3` of the absent header
(`_htm_node_prep*` computes midpoints only): child `j` of `node` gets id `(node.id << 2) + j`
and no child of its own, and `node.child` becomes `j + 1`. The result is the new top of the path
followed by the updated node. -/
def _htm_node_make (j : Nat) (node : _htm_node) : List _htm_node :=
  [⟨(node.id <<< 2) + j, 0⟩, ⟨node.id, j + 1⟩]

/-! ## `htm_s2circle_ids` -/

/-- State at the head of the `while (1)` loop (line 75): the `for` variable `root`, the path from
`curnode` (head) down to `path.node[0]` (so `curlevel + 1` is its length), `efflevel` and the
list. -/
structure Walk where
  root : Nat
  path : List _htm_node
  efflevel : Nat
  ids : List htm_range
  deriving DecidableEq, Repr

/-- Result of one turn of the `while (1)` loop. -/
inductive Next
  | loop (w : Walk)
  | ret (ids : List htm_range)
  | nomem
  deriving DecidableEq, Repr

/-- Lines 127-130: `while (curlevel >= 0 && curnode->child == 4) { --curnode; --curlevel; }`. -/
def popDone : List _htm_node → List _htm_node
  | [] => []
  | n :: rest => if n.child = 4 then popDone rest else n :: rest

/-- Lines 124-146 and the `for` header: ascend towards the root and go to the next sibling;
when the root is finished, go to the next root or return. `path` is the path at the `break` of
the switch, `curnode` included. -/
def ascend (root : Nat) (path : List _htm_node) (efflevel : Nat) (ids : List htm_range) : Next :=
  match popDone path.tail with
  | [] =>
      if root + 1 ≤ HTM_N3 then .loop ⟨root + 1, _htm_path_root (root + 1), efflevel, ids⟩
      else .ret ids
  | n :: rest =>
      if n.child = 1 then .loop ⟨root, _htm_node_make 1 n ++ rest, efflevel, ids⟩
      else if n.child = 2 then .loop ⟨root, _htm_node_make 2 n ++ rest, efflevel, ids⟩
      else .loop ⟨root, _htm_node_make 3 n ++ rest, efflevel, ids⟩

/-- Lines 109-118: `while (ids->n > maxranges && efflevel != 0)`, by recursion on `efflevel`.
Returns the new `efflevel`, path and list. -/
def reduce (level maxranges : Nat) :
    Nat → List _htm_node → List htm_range → Nat × List _htm_node × List htm_range
  | 0, path, ids => (0, path, ids)
  | e + 1, path, ids =>
      if ids.length > maxranges then
        let path1 := if path.length - 1 > e then path.drop (path.length - 1 - e) else path
        reduce level maxranges e path1 (_htm_simplify_ids ids (level - e))
      else (e + 1, path, ids)

/-- Lines 95-119 followed by the ascent: append the range of `curnode` and coarsen while the
list is too long. -/
def emit (alloc : Alloc) (level maxranges : Nat) (root : Nat) (path : List _htm_node)
    (curid : Nat) (efflevel : Nat) (ids : List htm_range) : Next :=
  let curlevel := path.length - 1
  let id := curid <<< ((level - curlevel) * 2)
  let n := 1 <<< ((level - curlevel) * 2)
  match _htm_ids_add alloc ids id (id + n - 1) with
  | none => .nomem
  | some ids1 =>
      match reduce level maxranges efflevel path ids1 with
      | (efflevel1, path1, ids2) => ascend root path1 efflevel1 ids2

/-- Lines 85-94 and on: subdivide while above `efflevel`, else emit. -/
def intersect (alloc : Alloc) (level maxranges : Nat) (root : Nat) (cur : _htm_node)
    (rest : List _htm_node) (efflevel : Nat) (ids : List htm_range) : Next :=
  if rest.length < efflevel then
    .loop ⟨root, _htm_node_make 0 cur ++ rest, efflevel, ids⟩
  else emit alloc level maxranges root (cur :: rest) cur.id efflevel ids

/-- Lines 77-83: the pruning done for `HTM_CONTAINS`: at level 0 the `for` variable jumps to
`HTM_N3`, below it `curnode[-1].child = 4`. -/
def prune (root : Nat) (rest : List _htm_node) : Nat × List _htm_node :=
  match rest with
  | [] => (HTM_N3, [])
  | p :: up => (root, ⟨p.id, 4⟩ :: up)

/-- One turn of the `while (1)` loop (lines 74-146), the `for` header included. -/
def step (cov : Nat → htm_cov) (alloc : Alloc) (level maxranges : Nat) (w : Walk) : Next :=
  match w.path with
  | [] => .ret w.ids
  | cur :: rest =>
      match cov cur.id with
      | .HTM_CONTAINS =>
          intersect alloc level maxranges (prune w.root rest).1 cur (prune w.root rest).2
            w.efflevel w.ids
      | .HTM_INTERSECT => intersect alloc level maxranges w.root cur rest w.efflevel w.ids
      | .HTM_INSIDE => emit alloc level maxranges w.root (cur :: rest) cur.id w.efflevel w.ids
      | .HTM_DISJOINT => ascend w.root (cur :: rest) w.efflevel w.ids

/-- The loops of lines 69-147, run for at most `fuel` turns; `none` when the turns run out. -/
def run (cov : Nat → htm_cov) (alloc : Alloc) (level maxranges : Nat) :
    Nat → Walk → Option (Except htm_errcode (List htm_range))
  | 0, _ => none
  | fuel + 1, w =>
      match step cov alloc level maxranges w with
      | .loop w1 => run cov alloc level maxranges fuel w1
      | .ret ids => some (.ok ids)
      | .nomem => some (.error .HTM_ENOMEM)

/-- Number of triangles of a subtree of depth `d`: a bound on the turns it can take. -/
def subtreeSize : Nat → Nat
  | 0 => 1
  | d + 1 => 4 * subtreeSize d + 1

/-- A range as the caller reads it in `struct htm_ids`: the fields `int64_t min, max` of
`struct htm_range` as integers. The walk writes ids, which are not negative; the whole-sky
branch writes what its `int` shifts give. -/
structure raw_range where
  min : Int
  max : Int
  deriving DecidableEq, Repr

/-- A range of the walk as the caller reads it. -/
def htm_range.raw (r : htm_range) : raw_range := ⟨r.min, r.max⟩

/-- The low 32 bits of an integer, read as an `int` (two's complement). -/
def toInt32 (x : Int) : Int := (x + 2 ^ 31) % 2 ^ 32 - 2 ^ 31

/-- The shift `a << s` done in `int` (32 bits). When the count is below the width and the
value fits, it is the value. Otherwise the C++ standard gives the shift no value and the result
is the `int` the machine computes, `ovf a s`. -/
def int_shl (ovf : Nat → Nat → Int) (a s : Nat) : Int :=
  if s < 32 ∧ a * 2 ^ s ≤ 2 ^ 31 - 1 then ((a <<< s : Nat) : Int) else toInt32 (ovf a s)

/-- The difference `a - b` done in `int`: the value when it fits, else its low 32 bits. -/
def int_sub (a b : Int) : Int := toInt32 (a - b)

/-- The shift of a machine that masks the count to five bits, as the 32-bit shift instructions
of x86-64 and AArch64 do; `int_shl` keeps its low 32 bits. -/
def wrapShl (a s : Nat) : Int := ((a * 2 ^ (s % 32) : Nat) : Int)

/-- Modelled from the spec: `_htm_ids_add` of the absent header `_htm_ids_add.hxx` on the empty
list (`ids->n = 0`), with the `int64_t` ends as given: the list of the one range, or `none`
(NULL) without storage for it. -/
def _htm_ids_add_first (alloc : Alloc) (min_id max_id : Int) : Option (List raw_range) :=
  if 1 ≤ alloc.limit then some [⟨min_id, max_id⟩] else none

/-- The function `htm_s2circle_ids` (lines 8-152). `cov center radius` stands for
`_htm_s2circle_htmcov (node, center, dist2)` as a function of the triangle id; `ids` and
`center` are `none` for NULL; `ovf` is what the machine makes of an `int` shift that
overflows. `none` is returned only when the turns given to the walk run out, which they never
do. -/
def htm_s2circle_ids (ovf : Nat → Nat → Int) (cov : htm_v3 → Dbl → Nat → htm_cov)
    (alloc : Alloc) (ids : Option (List raw_range)) (center : Option htm_v3) (radius : Dbl)
    (level : Int) (maxranges : Nat) : Option (Except htm_errcode (List raw_range)) :=
  match center with
  | none => some (.error .HTM_ENULLPTR)
  | some c =>
      if level < 0 ∨ level > HTM_MAX_LEVEL then some (.error .HTM_ELEVEL)
      else if ids.isNone ∧ alloc.initOk = false then some (.error .HTM_ENOMEM)
      else if radius.ltZero then some (.ok [])
      else if radius.ge180 then
        let min_id := int_shl ovf (8 + HTM_S0) (level.toNat * 2)
        let max_id := int_sub (int_shl ovf (8 + HTM_NROOTS) (level.toNat * 2)) 1
        match _htm_ids_add_first alloc min_id max_id with
        | some out => some (.ok out)
        | none => some (.error .HTM_ENOMEM)
      else
        match run (cov c radius) alloc level.toNat maxranges (8 * subtreeSize level.toNat + 1)
          ⟨HTM_S0, _htm_path_root HTM_S0, level.toNat, []⟩ with
        | some (.ok out) => some (.ok (out.map htm_range.raw))
        | some (.error e) => some (.error e)
        | none => none

/-! ## The tree index (`tree.c`) -/

/-- The value `(void *) -1` that `mmap` returns on failure; addresses are integers, those of
mapped memory between 0 and `2 ^ 64`. -/
def MAP_FAILED : Int := -1

/-- The struct `htm_tree` (declared in the absent header `tinyhtm/tree.h`; the fields are those
`tree.c` reads and writes). Pointers into the index are `none` for NULL, else an address. -/
structure htm_tree where
  leafthresh : Nat
  count : Nat
  root : List (Option Int)
  entries : Int
  index : Int
  indexsz : Nat
  datasz : Nat
  indexfd : Int
  datafd : Int
  element_types : Option (List Nat)
  element_names : Option (List (Option String))
  offset : Nat
  entry_size : Nat
  num_elements_per_entry : Nat
  deriving DecidableEq, Repr

/-- A call that acquires or releases a resource, in the order the code makes them. -/
inductive Action
  | openFd (fd : Int)
  | mmap (addr : Int) (len : Nat)
  | munmap (addr : Int) (len : Nat)
  | close (fd : Int)
  | freeName (i : Nat)
  | freeNames
  | freeTypes
  deriving DecidableEq, Repr

/-- The varint codec of the absent header `tinyhtm/varint.h`, taken as a parameter:
`nfollow b` is `htm_varint_nfollow (b)`, the number of bytes that follow the leading byte `b`,
and `value bytes` is what `htm_varint_decode` makes of the `1 + nfollow` bytes of a varint. -/
structure Varint where
  nfollow : Nat → Nat
  value : List Nat → Nat

/-- What `htm_tree_init` gets from the operating system and from HDF5: the outcome of each call
it makes, in the order of the code. File descriptors are `-1` and mappings `MAP_FAILED` on
failure. `index` holds the bytes of the tree file. -/
structure Env where
  statData : Bool
  h5Fopen : Bool
  h5Dopen : Bool
  offset : Nat
  datasz : Nat
  entry_size : Nat
  nmembers : Nat
  mallocTypes : Bool
  mallocNames : Bool
  memberClass : Nat → Nat
  memberName : Nat → Option String
  openData : Int
  mmapData : Int
  madviseData : Bool
  pagesz : Nat
  statIndex : Option Nat
  openIndex : Int
  mmapIndex : Int
  madviseIndex : Bool
  index : List Nat

/-- The byte at position `pos` of the index mapping: the bytes of the file, then the zero fill
of its last page (the header, ten varints, lies within the first page). -/
def byteAt (index : List Nat) (pos : Nat) : Nat := index.getD pos 0

/-- The call `htm_varint_decode (index + pos)`, a `uint64_t`. -/
def htm_varint_decode (vi : Varint) (index : List Nat) (pos : Nat) : Nat :=
  vi.value ((List.range (1 + vi.nfollow (byteAt index pos))).map
    (fun j => byteAt index (pos + j))) % 2 ^ 64

/-- The call `htm_varint_nfollow (index[pos])`. -/
def htm_varint_nfollow (vi : Varint) (index : List Nat) (pos : Nat) : Nat :=
  vi.nfollow (byteAt index pos)

/-- The function `htm_tree_destroy` (lines 208-251) on a non-NULL tree: the tree it leaves and
the release calls it makes. The pointers `element_names` and `element_types` keep their value
after `free`. -/
def htm_tree_destroy (tree : htm_tree) : htm_tree × List Action :=
  let a1 := if tree.entries - tree.offset ≠ MAP_FAILED
    then [Action.munmap (tree.entries - tree.offset) tree.datasz] else []
  let entries := if tree.entries - tree.offset ≠ MAP_FAILED then MAP_FAILED else tree.entries
  let a2 := if tree.datafd ≠ -1 then [Action.close tree.datafd] else []
  let a3 := if tree.index ≠ MAP_FAILED then [Action.munmap tree.index tree.indexsz] else []
  let a4 := if tree.indexfd ≠ -1 then [Action.close tree.indexfd] else []
  let a5 := match tree.element_names with
    | none => []
    | some names =>
        ((List.range tree.num_elements_per_entry).filter
            (fun i => (names.getD i none).isSome)).map Action.freeName ++ [Action.freeNames]
  let a6 := match tree.element_types with
    | none => []
    | some _ => [Action.freeTypes]
  ({ tree with
      entries := entries
      datasz := 0
      datafd := -1
      index := MAP_FAILED
      indexsz := 0
      indexfd := -1
      leafthresh := 0
      count := 0
      root := List.replicate 8 none },
   a1 ++ a2 ++ a3 ++ a4 ++ a5 ++ a6)

/-- Pointer arithmetic `p + n` with 64-bit addresses: the address modulo `2 ^ 64`, as the
machine computes it also where the sum leaves the mapping; the address 0 is NULL (`none`). -/
def ptr_add (p : Int) (n : Nat) : Option Int :=
  if (p + n) % 2 ^ 64 = 0 then none else some ((p + n) % 2 ^ 64)

/-- Lines 186-194: the loop over the root offsets, `n` roots left, `s` the position of the
next offset in the index, `base` the address of the mapping. Returns the root pointers and the
position after the last offset. -/
def parseRoots (vi : Varint) (index : List Nat) (base : Int) : Nat → Nat → List (Option Int) × Nat
  | 0, s => ([], s)
  | n + 1, s =>
      let off := htm_varint_decode vi index s
      let s1 := s + (1 + htm_varint_nfollow vi index s)
      let r : Option Int := if off = 0 then none else ptr_add (base + s1) (off - 1)
      let rest := parseRoots vi index base n s1
      (r :: rest.1, rest.2)

/-- The label `cleanup` (lines 202-204): destroy the tree and return the error. -/
def cleanup (err : htm_errcode) (tree : htm_tree) (acts : List Action) :
    Option (htm_errcode × htm_tree × List Action) :=
  some (err, (htm_tree_destroy tree).1, acts ++ (htm_tree_destroy tree).2)

/-- Lines 154-157 of `htm_tree_init`: the size of the tree file rounded up to the page size. -/
def pageRound (pagesz st_size : Nat) : Nat :=
  if st_size % pagesz ≠ 0 then st_size + (pagesz - st_size % pagesz) else st_size

/-- Lines 175-200 of `htm_tree_init`: parse the tree file header. `tree` is the tree with both
files mapped, `count` the number of entries of the data file, `st_size` the size of the tree
file. -/
def init_header (vi : Varint) (env : Env) (tree : htm_tree) (acts : List Action)
    (count st_size : Nat) : Option (htm_errcode × htm_tree × List Action) :=
  let leafthresh := htm_varint_decode vi env.index 0
  let s1 := 1 + htm_varint_nfollow vi env.index 0
  let hcount := htm_varint_decode vi env.index s1
  let s2 := s1 + (1 + htm_varint_nfollow vi env.index s1)
  if hcount ≠ count then
    cleanup .HTM_ETREE { tree with leafthresh := leafthresh, count := hcount } acts
  else
    let roots := parseRoots vi env.index env.mmapIndex 8 s2
    if roots.2 ≥ st_size then
      cleanup .HTM_ETREE { tree with leafthresh := leafthresh, count := hcount, root := roots.1 }
        acts
    else
      some (.HTM_OK, { tree with leafthresh := leafthresh, count := hcount, root := roots.1 },
        acts)

/-- Lines 145-173 of `htm_tree_init` and on: memory map the tree file, if there is one.
`tree` is the tree with the data file mapped. -/
def init_index (vi : Varint) (env : Env) (tree : htm_tree) (acts : List Action) (count : Nat)
    (treefile : Option String) : Option (htm_errcode × htm_tree × List Action) :=
  if treefile.isNone then some (.HTM_OK, { tree with count := count }, acts)
  else
    match env.statIndex with
    | none => cleanup htm_errcode.HTM_EIO tree acts
    | some st_size =>
        if env.pagesz = 0 then none
        else
          let indexsz := pageRound env.pagesz st_size
          if env.openIndex = -1 then
            cleanup htm_errcode.HTM_EIO { tree with indexsz := indexsz, indexfd := env.openIndex } acts
          else if env.mmapIndex = MAP_FAILED then
            cleanup .HTM_EMMAN
              { tree with indexsz := indexsz, indexfd := env.openIndex, index := env.mmapIndex }
              (acts ++ [Action.openFd env.openIndex])
          else if !env.madviseIndex then
            cleanup .HTM_EMMAN
              { tree with indexsz := indexsz, indexfd := env.openIndex, index := env.mmapIndex }
              (acts ++ [Action.openFd env.openIndex, Action.mmap env.mmapIndex indexsz])
          else
            init_header vi env
              { tree with indexsz := indexsz, indexfd := env.openIndex, index := env.mmapIndex }
              (acts ++ [Action.openFd env.openIndex, Action.mmap env.mmapIndex indexsz])
              count st_size

/-- Lines 112-143 of `htm_tree_init` and on: open and memory map the data file. `tree` is the
tree after the HDF5 calls. -/
def init_data (vi : Varint) (env : Env) (tree : htm_tree) (treefile : Option String) :
    Option (htm_errcode × htm_tree × List Action) :=
  if env.openData = -1 then cleanup htm_errcode.HTM_EIO { tree with datafd := env.openData } []
  else if tree.entry_size = 0 then none
  else if tree.datasz % tree.entry_size ≠ 0 ∨ tree.datasz = 0 then
    cleanup .HTM_EINV { tree with datafd := env.openData } [Action.openFd env.openData]
  else if env.mmapData = MAP_FAILED then
    cleanup .HTM_EMMAN
      { tree with datafd := env.openData, entries := env.mmapData + tree.offset }
      [Action.openFd env.openData]
  else if !env.madviseData then
    cleanup .HTM_EMMAN
      { tree with datafd := env.openData, entries := env.mmapData + tree.offset }
      [Action.openFd env.openData, Action.mmap env.mmapData (tree.datasz + tree.offset)]
  else
    init_index vi env
      { tree with datafd := env.openData, entries := env.mmapData + tree.offset }
      [Action.openFd env.openData, Action.mmap env.mmapData (tree.datasz + tree.offset)]
      (tree.datasz / tree.entry_size) treefile

/-- The function `htm_tree_init` (lines 27-205) on a non-NULL `tree` whose previous contents
are `t0`; `treefile` and `datafile` are `none` for NULL. Returns the error code, the tree and
the resource calls made; `none` where the C code has no defined result (division by an
`entry_size` or a page size of zero). -/
def htm_tree_init (vi : Varint) (env : Env) (t0 : htm_tree) (treefile datafile : Option String) :
    Option (htm_errcode × htm_tree × List Action) :=
  -- set defaults
  let t1 : htm_tree := { t0 with
    leafthresh := 0, count := 0, root := List.replicate 8 none, entries := MAP_FAILED,
    index := MAP_FAILED, indexsz := 0, datasz := 0, indexfd := -1, datafd := -1,
    element_types := none, element_names := none }
  if datafile.isNone then some (.HTM_ENULLPTR, t1, [])
  else if !env.statData then some ( htm_errcode.HTM_EIO, t1, [])
  else if !env.h5Fopen then some ( htm_errcode.HTM_EIO, t1, [])
  else if !env.h5Dopen then some ( htm_errcode.HTM_EIO, t1, [])
  else
    let t2 : htm_tree := { t1 with
      offset := env.offset, datasz := env.datasz, entry_size := env.entry_size,
      num_elements_per_entry := env.nmembers }
    if !env.mallocTypes then some (.HTM_ENOMEM, t2, [])
    else if !env.mallocNames then some (.HTM_ENOMEM, { t2 with element_types := some [] }, [])
    else
      init_data vi env
        { t2 with
          element_types := some ((List.range env.nmembers).map env.memberClass),
          element_names := some ((List.range env.nmembers).map env.memberName) }
        treefile

/-- The conversion `(int64_t) x` of a `uint64_t`. -/
def toInt64 (x : Nat) : Int :=
  if x % 2 ^ 64 < 2 ^ 63 then (x % 2 ^ 64 : Nat) else (x % 2 ^ 64 : Nat) - 2 ^ 64

/-- The function `htm_tree_s2circle_scan` (lines 273-302): the value returned and the error
written to `*err`, if any. `inCircle center radius i` stands for the floating-point test
`htm_v3_dist2 (center, entry i) <= dist2`. -/
def htm_tree_s2circle_scan (inCircle : htm_v3 → Dbl → Nat → Bool) (tree : Option htm_tree)
    (center : Option htm_v3) (radius : Dbl) : Int × Option htm_errcode :=
  match tree, center with
  | some t, some c =>
      if radius.ltZero then (0, none)
      else if radius.ge180 then (toInt64 t.count, none)
      else (((List.range t.count).countP (fun i => inCircle c radius i) : Nat), none)
  | _, _ => (-1, some .HTM_ENULLPTR)


/-- Position of the first byte of the varint of root offset `i` in the index header: the
offsets follow the varints of `leafthresh` and `count`. -/
def rootFieldPos (vi : Varint) (index : List Nat) : Nat → Nat
  | 0 =>
      (1 + htm_varint_nfollow vi index 0) +
        (1 + htm_varint_nfollow vi index (1 + htm_varint_nfollow vi index 0))
  | i + 1 => rootFieldPos vi index i + (1 + htm_varint_nfollow vi index (rootFieldPos vi index i))

/-- Modelled from the spec: a varint codec for the examples, of the shape the spec gives (the
leading byte tells how
many bytes follow, the value is read big-endian): the number of leading one bits of the leading
byte is the number of bytes that follow. -/
def sampleVarint : Varint where
  nfollow := fun b =>
    if b < 128 then 0 else if b < 192 then 1 else if b < 224 then 2 else if b < 240 then 3
    else if b < 248 then 4 else if b < 252 then 5 else if b < 254 then 6 else if b < 255 then 7
    else 8
  value := fun bytes =>
    match bytes with
    | [] => 0
    | b :: rest => rest.foldl (fun acc x => acc * 256 + x) (b % 2 ^ (8 - bytes.length))

/-- An environment in which every call succeeds: a data set of 4 entries of 24 bytes at offset
2048, and the given tree file. -/
def sampleEnv (index : List Nat) : Env where
  statData := true
  h5Fopen := true
  h5Dopen := true
  offset := 2048
  datasz := 96
  entry_size := 24
  nmembers := 3
  mallocTypes := true
  mallocNames := true
  memberClass := fun _ => 1
  memberName := fun i => some (if i = 0 then "x" else if i = 1 then "y" else "z")
  openData := 3
  mmapData := 1048576
  madviseData := true
  pagesz := 4096
  statIndex := some index.length
  openIndex := 4
  mmapIndex := 2097152
  madviseIndex := true
  index := index

/-- A tree before its first `htm_tree_init`. -/
def blankTree : htm_tree where
  leafthresh := 0
  count := 0
  root := []
  entries := 0
  index := 0
  indexsz := 0
  datasz := 0
  indexfd := 0
  datafd := 0
  element_types := none
  element_names := none
  offset := 0
  entry_size := 0
  num_elements_per_entry := 0

/-- Every call `htm_tree_init` makes on the data file and on the tree file succeeds. -/
def Env.allCallsSucceed (env : Env) : Bool :=
  env.statData && env.h5Fopen && env.h5Dopen && env.mallocTypes && env.mallocNames &&
  decide (env.openData ≠ -1) && decide (env.mmapData ≠ MAP_FAILED) && env.madviseData &&
  decide (env.pagesz ≠ 0) && env.statIndex.isSome && decide (env.openIndex ≠ -1) &&
  decide (env.mmapIndex ≠ MAP_FAILED) && env.madviseIndex

/-- A tree file for the examples: `leafthresh = 2`, `count = 4`, root offset 9 for root 0, no
roots 1..6, and a two-byte varint (value 8197) for root 7, followed by seven more bytes. -/
def sampleIndex : List Nat := [2, 4, 9, 0, 0, 0, 0, 0, 0, 160, 5, 77, 1, 1, 1, 1, 1, 1, 1]

/-- The sample tree file with a header count of 5 where the data file has 4 entries. -/
def sampleBadIndex : List Nat := [2, 5, 9, 0, 0, 0, 0, 0, 0, 160, 5, 77, 1, 1, 1, 1, 1, 1, 1]


/-- The sample environment with the corrupted tree file and the data set at offset 8192 of its
file, so that the data file is mapped on `96 + 8192` bytes, three pages of 4096 bytes. -/
def sampleFarEnv : Env := { sampleEnv sampleBadIndex with offset := 8192 }

/-- A tree file whose offset of root 0 is the nine-byte varint of value `2 ^ 64 - 20`, at
positions 2 to 10; the roots 1..7 are empty and the header ends at position 18 of 20. -/
def wrapIndex : List Nat :=
  [2, 4, 255, 255, 255, 255, 255, 255, 255, 255, 236, 0, 0, 0, 0, 0, 0, 0, 77, 1]
/-! ## Invariants of the walk -/

/-- The id `x` lies in some range of the list. -/
def covers (ids : List htm_range) (x : Nat) : Prop := ∃ r ∈ ids, r.min ≤ x ∧ x ≤ r.max

/-- The integer `x` lies in some range of the list the caller reads. -/
def rawCovers (ids : List raw_range) (x : Int) : Prop := ∃ r ∈ ids, r.min ≤ x ∧ x ≤ r.max

/-- A path is well linked: `path.node[0]` is a root with id between 8 and `8 + root`, every
other node is one of the four children of the node below it, made already
(`child` index above it), and no `child` index exceeds 4. -/
def PathInv (root : Nat) : List _htm_node → Prop
  | [] => False
  | [n] => 8 ≤ n.id ∧ n.id ≤ 8 + root
  | c :: p :: rest =>
      c.id / 4 = p.id ∧ c.id % 4 < p.child ∧ p.child ≤ 4 ∧ PathInv root (p :: rest)

/-- The shape of a state at the head of the loop: a linked path ending above `efflevel`. -/
structure StructInv (L : Nat) (w : Walk) : Prop where
  root_le : w.root ≤ 7
  path : PathInv w.root w.path
  lev : w.path.length ≤ w.efflevel + 1
  eff : w.efflevel ≤ L

/-- Turns still due to the siblings not yet made, for the nodes below `curnode`. -/
def restWork (L : Nat) : List _htm_node → Nat
  | [] => 0
  | p :: up => (4 - p.child) * subtreeSize (L - up.length - 1) + restWork L up

/-- A bound on the turns the loops still take from a state. -/
def work (L : Nat) (w : Walk) : Nat :=
  subtreeSize (L - (w.path.length - 1)) + restWork L w.path.tail + (7 - w.root) * subtreeSize L

/-- First level-`L` id below the top of the path. -/
def startPos (L : Nat) : List _htm_node → Nat
  | [] => 0
  | n :: rest => n.id * 4 ^ (L - rest.length)

/-- One past the last level-`L` id below the top of the path. -/
def endPos (L : Nat) : List _htm_node → Nat
  | [] => 0
  | n :: rest => (n.id + 1) * 4 ^ (L - rest.length)

/-- One range is well formed for blocks of `B` ids: not empty, made of whole blocks, and
inside `[lo, F)`. -/
def RangeOK (B lo F : Nat) (r : htm_range) : Prop :=
  r.min ≤ r.max ∧ B ∣ r.min ∧ B ∣ r.max + 1 ∧ lo ≤ r.min ∧ r.max < F

/-- The list is sorted with a gap between any two ranges, and every range is made of whole
triangles of level `e`, at or after the first root and before the frontier `F`. -/
structure IdsInv (L e F : Nat) (ids : List htm_range) : Prop where
  sorted : ids.Pairwise (fun a b => a.max + 1 < b.min)
  each : ∀ r ∈ ids, RangeOK (4 ^ (L - e)) (8 * 4 ^ L) F r

/-- A property of the result of one turn: `P` for the next state, `Q` for the list returned. -/
def Next.holds (P : Walk → Prop) (Q : List htm_range → Prop) : Next → Prop
  | .loop w => P w
  | .ret ids => Q ids
  | .nomem => True

/-- The list at the head of the loop: sorted and coalesced, made of triangles of level
`efflevel`, all before `curnode`, and within the cap unless `efflevel` is down to 0. -/
structure IdsWalkInv (L K : Nat) (w : Walk) : Prop where
  ids : IdsInv L w.efflevel (startPos L w.path) w.ids
  cap : w.ids.length ≤ K ∨ w.efflevel = 0

/-- The list returned: sorted and coalesced, made of triangles of some level `e`, within the
eight roots, and within the cap unless `e` is 0. -/
def IdsFinal (L K : Nat) (ids : List htm_range) : Prop :=
  ∃ e, IdsInv L e (16 * 4 ^ L) ids ∧ (ids.length ≤ K ∨ e = 0)

/-! ## What the walk without a cap covers -/

/-- None of the triangles `base + i`, `lo ≤ i < hi`, is classified `HTM_CONTAINS`. -/
def noContains (cov : Nat → htm_cov) (base lo hi : Nat) : Prop :=
  ∀ i, lo ≤ i → i < hi → cov (base + i) ≠ .HTM_CONTAINS

/-- The level-`L` id `x`, below the triangle `a` that has `d` levels below it, is emitted by
the walk without a cap once it visits `a`: `a` is `HTM_INSIDE`, or it is subdivided (or a leaf)
and the child above `x` is reached (no child before it is `HTM_CONTAINS`) and emits `x`. -/
def specVisit (cov : Nat → htm_cov) : Nat → Nat → Nat → Prop
  | 0, a, _ => cov a ≠ .HTM_DISJOINT
  | d + 1, a, x =>
      cov a = .HTM_INSIDE ∨
        ((cov a = .HTM_INTERSECT ∨ cov a = .HTM_CONTAINS) ∧
          noContains cov (4 * a) 0 (x / 4 ^ d % 4) ∧ specVisit cov d (x / 4 ^ d) x)

/-- The level-`L` id `x` is emitted by the walk without a cap: its root is reached (no root
before it is `HTM_CONTAINS`) and emits it. -/
def specCover (cov : Nat → htm_cov) (L x : Nat) : Prop :=
  8 ≤ x / 4 ^ L ∧ x / 4 ^ L ≤ 15 ∧ noContains cov 8 0 (x / 4 ^ L - 8) ∧
    specVisit cov L (x / 4 ^ L) x

/-- The id `x` is below a child of `a` that is still to be made (child index `j` or more),
reached and emitting `x`; the children have `d` levels below them. -/
def pendChild (cov : Nat → htm_cov) (d a j x : Nat) : Prop :=
  x / 4 ^ (d + 1) = a ∧ j ≤ x / 4 ^ d % 4 ∧ noContains cov (4 * a) j (x / 4 ^ d % 4) ∧
    specVisit cov d (x / 4 ^ d) x

/-- The id `x` is still to be emitted below a sibling to be made, for the nodes below
`curnode`. -/
def pendRest (cov : Nat → htm_cov) (L : Nat) : List _htm_node → Nat → Prop
  | [], _ => False
  | p :: up, x => pendChild cov (L - up.length - 1) p.id p.child x ∨ pendRest cov L up x

/-- The id `x` is still to be emitted below a root after `root`. -/
def pendRoots (cov : Nat → htm_cov) (L root x : Nat) : Prop :=
  8 + root + 1 ≤ x / 4 ^ L ∧ x / 4 ^ L ≤ 15 ∧ noContains cov 8 (root + 1) (x / 4 ^ L - 8) ∧
    specVisit cov L (x / 4 ^ L) x

/-- The id `x` is below the top of the path. -/
def inSub (L : Nat) : List _htm_node → Nat → Prop
  | [], _ => False
  | c :: rest, x => x / 4 ^ (L - rest.length) = c.id

/-- The id `x` is still to be emitted from a state at the head of the loop: below `curnode`,
or below a sibling or a root still to come once `curnode` is classified. -/
def headPending (cov : Nat → htm_cov) (L root : Nat) : List _htm_node → Nat → Prop
  | [], _ => False
  | cur :: rest, x =>
      (inSub L (cur :: rest) x ∧ specVisit cov (L - rest.length) cur.id x) ∨
        (if cov cur.id = .HTM_CONTAINS then
          pendRest cov L (prune root rest).2 x ∨ pendRoots cov L (prune root rest).1 x
        else pendRest cov L rest x ∨ pendRoots cov L root x)

/-- The ids covered by the list or still to be emitted, at the head of the loop. -/
def headCover (cov : Nat → htm_cov) (L : Nat) (w : Walk) (x : Nat) : Prop :=
  covers w.ids x ∨ headPending cov L w.root w.path x

/-- The ids covered by the list or still to be emitted, once `curnode` is done with. -/
def postCover (cov : Nat → htm_cov) (L root : Nat) (path : List _htm_node)
    (ids : List htm_range) (x : Nat) : Prop :=
  covers ids x ∨ pendRest cov L path.tail x ∨ pendRoots cov L root x

/-! ## The states of the walk -/

/-- The states the loops of `htm_s2circle_ids` go through at the head of `while (1)`, for the
target level `L` and the cap `K`. -/
inductive Reachable (cov : Nat → htm_cov) (alloc : Alloc) (L K : Nat) : Walk → Prop
  | init : Reachable cov alloc L K ⟨HTM_S0, _htm_path_root HTM_S0, L, []⟩
  | step {w w1 : Walk} : Reachable cov alloc L K w → step cov alloc L K w = .loop w1 →
      Reachable cov alloc L K w1

/-- The state `w2` comes after the state `w`, one turn of the loop or more later. -/
inductive Later (cov : Nat → htm_cov) (alloc : Alloc) (L K : Nat) (w : Walk) : Walk → Prop
  | next {w1 : Walk} : step cov alloc L K w = .loop w1 → Later cov alloc L K w w1
  | more {w1 w2 : Walk} : Later cov alloc L K w w1 → step cov alloc L K w1 = .loop w2 →
      Later cov alloc L K w w2

/-- After the children of the top of `S` are pruned: the walk is still strictly below a child
of that node (the path ends with `S`, two nodes or more above it), or it has left the
node for good (the frontier is past the end of `S`). -/
def PhaseInv (L : Nat) (S : List _htm_node) (w : Walk) : Prop :=
  (∃ t rest, w.path = t :: rest ∧ S <:+ rest ∧ S.length < rest.length) ∨
    endPos L S ≤ startPos L w.path

/-- After the other roots are pruned: the `for` variable is `HTM_N3` and the walk is below
the root. -/
def RootPhase (w : Walk) : Prop := w.root = HTM_N3 ∧ 2 ≤ w.path.length

/-! ## Sample inputs -/

/-- A classification for the examples, at level 2: root 8 intersects, with child 32 inside and
child 35 intersecting; root 10 is inside; root 13 contains, with child 53 intersecting and
grandchild 214 inside; root 15 is inside; every other triangle is disjoint. -/
def sampleCov : htm_v3 → Dbl → Nat → htm_cov := fun _ _ id =>
  if id = 8 then .HTM_INTERSECT else if id = 32 then .HTM_INSIDE
  else if id = 35 then .HTM_INTERSECT else if id = 10 then .HTM_INSIDE
  else if id = 13 then .HTM_CONTAINS else if id = 53 then .HTM_INTERSECT
  else if id = 214 then .HTM_INSIDE else if id = 15 then .HTM_INSIDE else .HTM_DISJOINT

/-- A classification for the examples: root 8 is `HTM_CONTAINS`, every other triangle is
disjoint. -/
def containsCov : htm_v3 → Dbl → Nat → htm_cov := fun _ _ id =>
  if id = 8 then .HTM_CONTAINS else .HTM_DISJOINT

/-- A centre for the examples. -/
def sampleCenter : htm_v3 := ⟨.fin 1 0, .fin 0 0, .fin 0 0⟩

/-- An allocator that never fails within one hundred ranges. -/
def sampleAlloc : Alloc := ⟨true, 100⟩

/-- A classification for the examples: the roots 8, 10, 12 and 14 intersect, their children 0
and 2 are inside, every other triangle is disjoint. -/
def manyCov : htm_v3 → Dbl → Nat → htm_cov := fun _ _ id =>
  if id = 8 ∨ id = 10 ∨ id = 12 ∨ id = 14 then .HTM_INTERSECT
  else if id = 32 ∨ id = 34 ∨ id = 40 ∨ id = 42 ∨ id = 48 ∨ id = 50 ∨ id = 56 ∨ id = 58 then
    .HTM_INSIDE
  else .HTM_DISJOINT

theorem ge180_not_ltZero (radius : Dbl) (h : radius.ge180 = true) : radius.ltZero = false := by
  cases radius with
  | fin m e =>
      simp only [Dbl.ge180] at h
      simp only [Dbl.ltZero, decide_eq_false_iff_not, not_lt]
      split_ifs at h with he
      · have h1 := of_decide_eq_true h
        by_contra hm
        have hm' : m < 0 := by omega
        have hp : (0 : Int) < 2 ^ e.toNat := by positivity
        have : m * 2 ^ e.toNat < 0 := Int.mul_neg_of_neg_of_pos hm' hp
        omega
      · have h1 := of_decide_eq_true h
        have hp : (0 : Int) < 2 ^ (-e).toNat := by positivity
        have : (0 : Int) ≤ 180 * 2 ^ (-e).toNat := by positivity
        omega
  | pinf => rfl
  | ninf => simp [Dbl.ge180] at h
  | nan => rfl

/-! ## Shape of the path and termination -/

theorem subtreeSize_pos (d : Nat) : 0 < subtreeSize d := by
  cases d <;> simp [subtreeSize]

theorem PathInv_ne_nil {root : Nat} {path : List _htm_node} (h : PathInv root path) :
    path ≠ [] := by
  intro e; subst e; exact h

theorem PathInv_top {root : Nat} {c : _htm_node} {rest : List _htm_node} (x : Nat)
    (h : PathInv root (c :: rest)) : PathInv root (⟨c.id, x⟩ :: rest) := by
  cases rest with
  | nil => exact h
  | cons p up => exact h

theorem PathInv_tail {root : Nat} {c p : _htm_node} {rest : List _htm_node}
    (h : PathInv root (c :: p :: rest)) : PathInv root (p :: rest) := h.2.2.2

theorem PathInv_mono {root root1 : Nat} (hr : root ≤ root1) :
    ∀ {path : List _htm_node}, PathInv root path → PathInv root1 path
  | [], h => h
  | [_], h => ⟨h.1, by have := h.2; omega⟩
  | _ :: p :: rest, h => ⟨h.1, h.2.1, h.2.2.1, @PathInv_mono root root1 hr (p :: rest) h.2.2.2⟩

theorem PathInv_drop {root : Nat} : ∀ (n : Nat) {path : List _htm_node},
    PathInv root path → n < path.length → PathInv root (path.drop n)
  | 0, _, h, _ => by simpa using h
  | n + 1, [], h, _ => absurd h (by simp [PathInv])
  | n + 1, [_], _, hn => by simp at hn
  | n + 1, _ :: p :: rest, h, hn => by
      simp only [List.drop_succ_cons]
      exact PathInv_drop n (PathInv_tail h) (by simpa using hn)

theorem make_append (j : Nat) (n : _htm_node) (up : List _htm_node) :
    _htm_node_make j n ++ up = ⟨(n.id <<< 2) + j, 0⟩ :: ⟨n.id, j + 1⟩ :: up := rfl

theorem PathInv_make {root : Nat} {n : _htm_node} {rest : List _htm_node} (j : Nat) (hj : j < 4)
    (h : PathInv root (n :: rest)) : PathInv root (_htm_node_make j n ++ rest) := by
  rw [make_append]
  refine ⟨?_, ?_, ?_, PathInv_top _ h⟩
  · simp only [Nat.shiftLeft_eq]; omega
  · simp only [Nat.shiftLeft_eq]; omega
  · simp only; omega

theorem restWork_drop (L : Nat) : ∀ (n : Nat) (path : List _htm_node),
    restWork L (path.drop n) ≤ restWork L path
  | 0, path => by simp
  | n + 1, [] => by simp
  | n + 1, p :: up => by
      simp only [List.drop_succ_cons, restWork]
      have := restWork_drop L n up
      omega

theorem restWork_tail_le (L : Nat) (path : List _htm_node) :
    restWork L path.tail ≤ restWork L path := by
  cases path with
  | nil => simp
  | cons p up => simp only [List.tail_cons, restWork]; omega

/-- What the loop of lines 127-130 leaves: a suffix of the path, empty or headed by a node that
still has a child to make. -/
theorem popDone_spec (root L : Nat) : ∀ (c : _htm_node) (rest : List _htm_node),
    PathInv root (c :: rest) →
    (popDone rest).length ≤ rest.length ∧ restWork L (popDone rest) ≤ restWork L rest ∧
    ∀ n up, popDone rest = n :: up →
      PathInv root (n :: up) ∧ 1 ≤ n.child ∧ n.child ≤ 3
  | c, [], _ => by simp [popDone]
  | c, p :: up, h => by
      simp only [popDone]
      split_ifs with h4
      · have ih := popDone_spec root L p up (PathInv_tail h)
        refine ⟨by simp only [List.length_cons]; omega, ?_, ih.2.2⟩
        simp only [restWork]; omega
      · refine ⟨le_refl _, le_refl _, ?_⟩
        intro n up1 e
        simp only [List.cons.injEq] at e
        obtain ⟨rfl, rfl⟩ := e
        have h1 := h.2.1
        have h2 := h.2.2.1
        exact ⟨PathInv_tail h, by omega, by omega⟩

theorem work_make (L j : Nat) (n : _htm_node) (up : List _htm_node) (root e : Nat)
    (ids : List htm_range) (hj : n.child = j) (h1 : 1 ≤ j) (h3 : j ≤ 3) :
    work L ⟨root, _htm_node_make j n ++ up, e, ids⟩
      = restWork L (n :: up) + (7 - root) * subtreeSize L := by
  rw [make_append]
  simp only [work, List.length_cons, List.tail_cons, restWork, hj, Nat.add_sub_cancel]
  have e1 : L - (up.length + 1) = L - up.length - 1 := by omega
  rw [e1]
  generalize subtreeSize (L - up.length - 1) = X
  have : (4 - j) * X = (4 - (j + 1)) * X + X := by
    have : 4 - j = (4 - (j + 1)) + 1 := by omega
    rw [this, Nat.add_mul]; simp
  omega

/-- The ascent keeps the shape of the state and does not add work. -/
theorem ascend_struct (L root e : Nat) (path : List _htm_node) (ids : List htm_range)
    (hroot : root ≤ 7) (hpath : PathInv root path) (hlev : path.length ≤ e + 1) (he : e ≤ L)
    (w1 : Walk) (h : ascend root path e ids = .loop w1) :
    StructInv L w1 ∧ work L w1 ≤ restWork L path.tail + (7 - root) * subtreeSize L ∧
      w1.efflevel = e ∧ w1.ids = ids := by
  cases path with
  | nil => exact absurd hpath (by simp [PathInv])
  | cons c rest =>
    obtain ⟨hlen, hwork, hpop⟩ := popDone_spec root L c rest hpath
    simp only [ascend, List.tail_cons] at h
    cases hp : popDone rest with
    | nil =>
        rw [hp] at h
        simp only [] at h
        split_ifs at h with hr
        simp only [Next.loop.injEq] at h
        subst h
        simp only [HTM_N3] at hr
        refine ⟨⟨by simpa using hr, ?_, ?_, he⟩, ?_, rfl, rfl⟩
        · simp only [_htm_path_root, PathInv]; omega
        · simp [_htm_path_root]
        · simp only [work, _htm_path_root, List.length_singleton, Nat.sub_self, Nat.sub_zero,
            List.tail_cons, restWork, List.tail_cons]
          have : (7 - root) * subtreeSize L
              = (7 - (root + 1)) * subtreeSize L + subtreeSize L := by
            have : 7 - root = (7 - (root + 1)) + 1 := by omega
            rw [this, Nat.add_mul]; simp
          omega
    | cons n up =>
        rw [hp] at h hlen hwork
        obtain ⟨hpi, hc1, hc3⟩ := hpop n up hp
        simp only [] at h
        simp only [List.length_cons] at hlen hlev
        have key : ∀ j, n.child = j → 1 ≤ j → j ≤ 3 →
            w1 = ⟨root, _htm_node_make j n ++ up, e, ids⟩ →
            StructInv L w1 ∧ work L w1 ≤ restWork L (c :: rest).tail + (7 - root) * subtreeSize L ∧
              w1.efflevel = e ∧ w1.ids = ids := by
          intro j hj h1 h3 hw
          subst hw
          refine ⟨⟨hroot, PathInv_make j (by omega) hpi, ?_, he⟩, ?_, rfl, rfl⟩
          · rw [make_append]
            simp only [List.length_cons]
            omega
          · rw [work_make L j n up root e ids hj h1 h3]
            simp only [List.tail_cons]
            omega
        split_ifs at h with h1 h2
        · exact key 1 h1 (by omega) (by omega) (by simpa using h.symm)
        · exact key 2 h2 (by omega) (by omega) (by simpa using h.symm)
        · exact key 3 (by omega) (by omega) (by omega) (by simpa using h.symm)

theorem restWork_drop_tail (L : Nat) (m : Nat) (path : List _htm_node) :
    restWork L (path.drop m).tail ≤ restWork L path.tail := by
  rw [List.tail_drop]
  cases path with
  | nil => simp
  | cons p up =>
      simp only [List.drop_succ_cons, List.tail_cons]
      exact restWork_drop L m up

/-- The loop of lines 109-118 pops the path to a suffix that ends at or above the new
`efflevel`. -/
theorem reduce_struct (L K : Nat) : ∀ (e : Nat) (path : List _htm_node) (ids : List htm_range),
    path ≠ [] → path.length ≤ e + 1 →
    ∃ m, (reduce L K e path ids).2.1 = path.drop m ∧ m < path.length ∧
      (reduce L K e path ids).2.1.length ≤ (reduce L K e path ids).1 + 1 ∧
      (reduce L K e path ids).1 ≤ e
  | 0, path, ids, hne, hlen => by
      refine ⟨0, by simp [reduce], ?_, by simpa [reduce] using hlen, by simp [reduce]⟩
      exact List.length_pos.mpr hne
  | e + 1, path, ids, hne, hlen => by
      have hpos : 0 < path.length := List.length_pos.mpr hne
      simp only [reduce]
      split_ifs with hK hpop
      · have hlen1 : (path.drop (path.length - 1 - e)).length ≤ e + 1 := by
          simp only [List.length_drop]; omega
        have hne1 : path.drop (path.length - 1 - e) ≠ [] := by
          apply List.ne_nil_of_length_pos
          simp only [List.length_drop]; omega
        obtain ⟨m, h1, h2, h3, h4⟩ :=
          reduce_struct L K e (path.drop (path.length - 1 - e))
            (_htm_simplify_ids ids (L - e)) hne1 hlen1
        refine ⟨path.length - 1 - e + m, ?_, ?_, h3, by omega⟩
        · rw [h1, List.drop_drop]
        · simp only [List.length_drop] at h2; omega
      · obtain ⟨m, h1, h2, h3, h4⟩ :=
          reduce_struct L K e path (_htm_simplify_ids ids (L - e)) hne (by omega)
        exact ⟨m, h1, h2, h3, by omega⟩
      · exact ⟨0, by simp, hpos, hlen, le_refl _⟩

/-- Emitting keeps the shape of the state and does not add work. -/
theorem emit_struct (alloc : Alloc) (L K root e curid : Nat) (path : List _htm_node)
    (ids : List htm_range) (hroot : root ≤ 7) (hpath : PathInv root path)
    (hlev : path.length ≤ e + 1) (he : e ≤ L) (w1 : Walk)
    (h : emit alloc L K root path curid e ids = .loop w1) :
    StructInv L w1 ∧ work L w1 ≤ restWork L path.tail + (7 - root) * subtreeSize L := by
  simp only [emit] at h
  split at h
  · exact absurd h (by simp)
  · rename_i ids1 hadd
    obtain ⟨m, h1, h2, h3, h4⟩ := reduce_struct L K e path ids1 (PathInv_ne_nil hpath) hlev
    generalize reduce L K e path ids1 = r at h h1 h3 h4
    obtain ⟨e1, path1, ids2⟩ := r
    simp only at h h1 h3 h4
    subst h1
    obtain ⟨hs, hw, -, -⟩ := ascend_struct L root e1 (path.drop m) ids2 hroot
      (PathInv_drop m hpath h2) h3 (by omega) w1 h
    refine ⟨hs, ?_⟩
    have := restWork_drop_tail L m path
    omega

theorem subtreeSize_succ_of_pos (d : Nat) (h : 0 < d) :
    subtreeSize d = 4 * subtreeSize (d - 1) + 1 := by
  cases d with
  | zero => omega
  | succ d => simp [subtreeSize]

/-- Subdividing or emitting keeps the shape of the state and takes work off. -/
theorem intersect_struct (alloc : Alloc) (L K root e : Nat) (cur : _htm_node)
    (rest : List _htm_node) (ids : List htm_range) (hroot : root ≤ 7)
    (hpath : PathInv root (cur :: rest)) (hlev : rest.length ≤ e) (he : e ≤ L) (w1 : Walk)
    (h : intersect alloc L K root cur rest e ids = .loop w1) :
    StructInv L w1 ∧
      work L w1 < subtreeSize (L - rest.length) + restWork L rest + (7 - root) * subtreeSize L := by
  simp only [intersect] at h
  split_ifs at h with hlt
  · simp only [Next.loop.injEq] at h
    subst h
    refine ⟨⟨hroot, PathInv_make 0 (by omega) hpath, ?_, he⟩, ?_⟩
    · rw [make_append]; simp only [List.length_cons]; omega
    · rw [make_append]
      simp only [work, List.length_cons, List.tail_cons, restWork, Nat.add_sub_cancel]
      rw [subtreeSize_succ_of_pos (L - rest.length) (by omega)]
      have e1 : L - (rest.length + 1) = L - rest.length - 1 := by omega
      rw [e1]
      generalize subtreeSize (L - rest.length - 1) = X
      omega
  · obtain ⟨hs, hw⟩ := emit_struct alloc L K root e cur.id (cur :: rest) ids hroot hpath
      (by simpa using hlev) he w1 h
    refine ⟨hs, ?_⟩
    have := subtreeSize_pos (L - rest.length)
    simp only [List.tail_cons] at hw
    omega

/-- The pruning of lines 77-83 keeps the path linked and takes work off. -/
theorem prune_struct (L root : Nat) (cur : _htm_node) (rest : List _htm_node) (hroot : root ≤ 7)
    (hpath : PathInv root (cur :: rest)) :
    (prune root rest).1 ≤ 7 ∧ root ≤ (prune root rest).1 ∧
      PathInv (prune root rest).1 (cur :: (prune root rest).2) ∧
      (prune root rest).2.length = rest.length ∧
      restWork L (prune root rest).2 + (7 - (prune root rest).1) * subtreeSize L
        ≤ restWork L rest + (7 - root) * subtreeSize L := by
  cases rest with
  | nil =>
      simp only [prune, HTM_N3]
      refine ⟨le_refl _, hroot, PathInv_mono hroot hpath, trivial, ?_⟩
      simp [restWork]
  | cons p up =>
      simp only [prune]
      refine ⟨hroot, le_refl _, ⟨hpath.1, ?_, le_refl _, PathInv_top 4 hpath.2.2.2⟩, rfl, ?_⟩
      · simp only; omega
      · simp only [restWork, Nat.sub_self, Nat.zero_mul, Nat.zero_add]
        omega

/-- One turn of the loop keeps the shape of the state and takes work off. -/
theorem step_struct (cov : Nat → htm_cov) (alloc : Alloc) (L K : Nat) (w w1 : Walk)
    (hw : StructInv L w) (h : step cov alloc L K w = .loop w1) :
    StructInv L w1 ∧ work L w1 < work L w := by
  obtain ⟨root, path, e, ids⟩ := w
  obtain ⟨hroot, hpath, hlev, he⟩ := hw
  simp only at hroot hpath hlev he
  cases path with
  | nil => exact absurd hpath (by simp [PathInv])
  | cons cur rest =>
    simp only [List.length_cons, Nat.add_le_add_iff_right] at hlev
    simp only [step] at h
    have hwork : work L ⟨root, cur :: rest, e, ids⟩
        = subtreeSize (L - rest.length) + restWork L rest + (7 - root) * subtreeSize L := by
      simp [work]
    rw [hwork]
    split at h
    · obtain ⟨p1, p2, p3, p4, p5⟩ := prune_struct L root cur rest hroot hpath
      obtain ⟨hs, hwk⟩ := intersect_struct alloc L K _ e cur _ ids p1 p3 (by omega) he w1 h
      refine ⟨hs, ?_⟩
      rw [p4] at hwk
      omega
    · exact intersect_struct alloc L K root e cur rest ids hroot hpath hlev he w1 h
    · obtain ⟨hs, hwk⟩ := emit_struct alloc L K root e cur.id (cur :: rest) ids hroot hpath
        (by simpa using hlev) he w1 h
      refine ⟨hs, ?_⟩
      have := subtreeSize_pos (L - rest.length)
      simp only [List.tail_cons] at hwk
      omega
    · obtain ⟨hs, hwk, -, -⟩ := ascend_struct L root e (cur :: rest) ids hroot hpath
        (by simpa using hlev) he w1 h
      refine ⟨hs, ?_⟩
      have := subtreeSize_pos (L - rest.length)
      simp only [List.tail_cons] at hwk
      omega

/-- The loops end: with more turns than the work bound, `run` returns. -/
theorem run_terminates (cov : Nat → htm_cov) (alloc : Alloc) (L K : Nat) :
    ∀ (fuel : Nat) (w : Walk), StructInv L w → work L w < fuel →
      run cov alloc L K fuel w ≠ none
  | 0, _, _, h => by omega
  | fuel + 1, w, hw, h => by
      simp only [run]
      split
      · rename_i w1 hstep
        obtain ⟨hs, hlt⟩ := step_struct cov alloc L K w w1 hw hstep
        exact run_terminates cov alloc L K fuel w1 hs (by omega)
      · simp
      · simp

theorem StructInv_init (L : Nat) : StructInv L ⟨HTM_S0, _htm_path_root HTM_S0, L, []⟩ :=
  ⟨by simp [HTM_S0], by simp [_htm_path_root, PathInv, HTM_S0], by simp [_htm_path_root],
    le_refl _⟩

theorem work_init (L : Nat) :
    work L ⟨HTM_S0, _htm_path_root HTM_S0, L, []⟩ = 8 * subtreeSize L := by
  simp only [work, _htm_path_root, HTM_S0, List.length_singleton, Nat.sub_self, Nat.sub_zero,
    List.tail_cons, restWork]
  omega

/-! ## The id-range list: `_htm_ids_add` and `_htm_simplify_ids` -/

theorem shl_two_mul (a d : Nat) : a <<< (d * 2) = a * 4 ^ d := by
  rw [Nat.shiftLeft_eq, Nat.pow_mul']

theorem range_coarsen_eq (n : Nat) (r : htm_range) :
    range_coarsen n r = ⟨r.min / 4 ^ n * 4 ^ n, (r.max / 4 ^ n + 1) * 4 ^ n - 1⟩ := by
  have h : 2 ^ (2 * n) = 4 ^ n := by rw [Nat.pow_mul]
  simp only [range_coarsen, Nat.shiftLeft_eq, Nat.shiftRight_eq_div_pow, h]

/-- The list `_htm_ids_add` makes: the new range is appended, or the last range is extended
when the new one starts right after it. -/
theorem ids_push_spec : ∀ (ids : List htm_range) (lo hi : Nat),
    (ids_push ids lo hi = ids ++ [⟨lo, hi⟩] ∧
      ∀ init last, ids = init ++ [last] → lo ≠ last.max + 1) ∨
    ∃ init last, ids = init ++ [last] ∧ lo = last.max + 1 ∧
      ids_push ids lo hi = init ++ [⟨last.min, hi⟩]
  | [], lo, hi => Or.inl ⟨rfl, fun init last h => by simp at h⟩
  | [r], lo, hi => by
      simp only [ids_push]
      split_ifs with h
      · exact Or.inr ⟨[], r, rfl, h, rfl⟩
      · refine Or.inl ⟨rfl, fun init last h1 => ?_⟩
        cases init with
        | nil =>
            simp only [List.nil_append, List.cons.injEq, and_true] at h1
            subst h1; exact h
        | cons a t =>
            have := congrArg List.length h1
            simp at this
  | r :: r2 :: rest, lo, hi => by
      simp only [ids_push]
      rcases ids_push_spec (r2 :: rest) lo hi with ⟨h, hne⟩ | ⟨init, last, h1, h2, h3⟩
      · left
        refine ⟨by rw [h]; rfl, fun init last h1 => ?_⟩
        cases init with
        | nil =>
            have := congrArg List.length h1
            simp at this
        | cons a t =>
            simp only [List.cons_append, List.cons.injEq] at h1
            exact hne t last h1.2
      · right
        refine ⟨r :: init, last, ?_, h2, ?_⟩
        · rw [h1]; rfl
        · rw [h3]; rfl

theorem ids_push_length (ids : List htm_range) (lo hi : Nat) :
    (ids_push ids lo hi).length ≤ ids.length + 1 := by
  rcases ids_push_spec ids lo hi with ⟨h, -⟩ | ⟨init, last, h1, -, h3⟩
  · rw [h]; simp
  · rw [h3, h1]; simp

theorem covers_ids_push (ids : List htm_range) (lo hi : Nat)
    (hids : ∀ r ∈ ids, r.min ≤ r.max) (hlo : lo ≤ hi) (x : Nat) :
    covers (ids_push ids lo hi) x ↔ covers ids x ∨ (lo ≤ x ∧ x ≤ hi) := by
  rcases ids_push_spec ids lo hi with ⟨h, -⟩ | ⟨init, last, h1, h2, h3⟩
  · rw [h]
    simp only [covers, List.mem_append, List.mem_singleton]
    constructor
    · rintro ⟨r, hr | hr, hx⟩
      · exact Or.inl ⟨r, hr, hx⟩
      · subst hr; exact Or.inr hx
    · rintro (⟨r, hr, hx⟩ | hx)
      · exact ⟨r, Or.inl hr, hx⟩
      · exact ⟨_, Or.inr rfl, hx⟩
  · have hlast : last.min ≤ last.max := hids last (by rw [h1]; simp)
    rw [h3, h1]
    simp only [covers, List.mem_append, List.mem_singleton]
    constructor
    · rintro ⟨r, hr | hr, hx⟩
      · exact Or.inl ⟨r, Or.inl hr, hx⟩
      · subst hr
        simp only at hx
        by_cases hc : x ≤ last.max
        · exact Or.inl ⟨last, Or.inr rfl, hx.1, hc⟩
        · exact Or.inr ⟨by omega, hx.2⟩
    · rintro (⟨r, hr | hr, hx⟩ | hx)
      · exact ⟨r, Or.inl hr, hx⟩
      · subst hr
        exact ⟨_, Or.inr rfl, hx.1, by simp only; omega⟩
      · exact ⟨_, Or.inr rfl, by simp only; omega, hx.2⟩

theorem IdsInv_mono {L e F F1 : Nat} {ids : List htm_range} (h : IdsInv L e F ids)
    (hF : F ≤ F1) : IdsInv L e F1 ids :=
  ⟨h.sorted, fun r hr => by
    obtain ⟨h1, h2, h3, h4, h5⟩ := h.each r hr
    exact ⟨h1, h2, h3, h4, by omega⟩⟩

/-- Adding a range that starts at or after the frontier keeps the list sorted and coalesced. -/
theorem IdsInv_push {L e F F1 : Nat} {ids : List htm_range} (lo hi : Nat)
    (h : IdsInv L e F ids) (hF : F ≤ lo)
    (hnew : RangeOK (4 ^ (L - e)) (8 * 4 ^ L) F1 ⟨lo, hi⟩) :
    IdsInv L e F1 (ids_push ids lo hi) := by
  obtain ⟨n1, n2, n3, n4, n5⟩ := hnew
  simp only at n1 n2 n3 n4 n5
  rcases ids_push_spec ids lo hi with ⟨hp, hne⟩ | ⟨init, last, h1, h2, h3⟩
  · rw [hp]
    constructor
    · rw [List.pairwise_append]
      refine ⟨h.sorted, List.pairwise_singleton _ _, ?_⟩
      intro a ha b hb
      simp only [List.mem_singleton] at hb
      subst hb
      simp only
      rcases List.eq_nil_or_concat ids with hnil | ⟨init, last, hcat⟩
      · subst hnil; simp at ha
      · rw [List.concat_eq_append] at hcat
        have hs := h.sorted
        rw [hcat, List.pairwise_append] at hs
        rw [hcat, List.mem_append, List.mem_singleton] at ha
        have hlast := h.each last (by rw [hcat]; simp)
        rcases ha with ha | ha
        · have := hs.2.2 a ha last (by simp)
          have := hlast.1
          have := hlast.2.2.2.2
          omega
        · subst ha
          have := hne init a hcat
          have := hlast.2.2.2.2
          omega
    · intro r hr
      rw [List.mem_append, List.mem_singleton] at hr
      rcases hr with hr | hr
      · obtain ⟨r1, r2, r3, r4, r5⟩ := h.each r hr
        exact ⟨r1, r2, r3, r4, by omega⟩
      · subst hr
        exact ⟨n1, n2, n3, n4, n5⟩
  · rw [h3]
    have hs := h.sorted
    rw [h1, List.pairwise_append] at hs
    have hlast := h.each last (by rw [h1]; simp)
    obtain ⟨l1, l2, l3, l4, l5⟩ := hlast
    constructor
    · rw [List.pairwise_append]
      refine ⟨hs.1, List.pairwise_singleton _ _, ?_⟩
      intro a ha b hb
      simp only [List.mem_singleton] at hb
      subst hb
      exact hs.2.2 a ha last (by simp)
    · intro r hr
      rw [List.mem_append, List.mem_singleton] at hr
      rcases hr with hr | hr
      · obtain ⟨r1, r2, r3, r4, r5⟩ := h.each r (by rw [h1]; simp [hr])
        exact ⟨r1, r2, r3, r4, by omega⟩
      · subst hr
        exact ⟨by simp only; omega, l2, n3, l4, n5⟩

theorem ids_merge_length : ∀ (rest : List htm_range) (cur : htm_range),
    (ids_merge cur rest).length ≤ rest.length + 1
  | [], cur => by simp [ids_merge]
  | r :: rest, cur => by
      simp only [ids_merge]
      split_ifs
      · have := ids_merge_length rest ⟨cur.min, max cur.max r.max⟩
        simp only [List.length_cons]; omega
      · have := ids_merge_length rest r
        simp only [List.length_cons]; omega

theorem simplify_length (ids : List htm_range) (n : Nat) :
    (_htm_simplify_ids ids n).length ≤ ids.length := by
  cases ids with
  | nil => simp [_htm_simplify_ids]
  | cons r rest =>
      simp only [_htm_simplify_ids, List.map_cons, List.length_cons]
      have := ids_merge_length (rest.map (range_coarsen n)) (range_coarsen n r)
      simpa using this

/-- The merge pass leaves a sorted list with a gap between any two ranges. -/
theorem ids_merge_inv (B lo F : Nat) : ∀ (rest : List htm_range) (cur : htm_range),
    RangeOK B lo F cur → (∀ r ∈ rest, RangeOK B lo F r) →
    rest.Pairwise (fun a b => a.min ≤ b.min) → (∀ r ∈ rest, cur.min ≤ r.min) →
    (ids_merge cur rest).Pairwise (fun a b => a.max + 1 < b.min) ∧
      ∀ x ∈ ids_merge cur rest, RangeOK B lo F x ∧ cur.min ≤ x.min
  | [], cur, hc, _, _, _ => by
      simp only [ids_merge, List.pairwise_singleton, List.mem_singleton, true_and]
      intro x hx; subst hx; exact ⟨hc, le_refl _⟩
  | r :: rest, cur, hc, hr, hp, hm => by
      have hrr := hr r (by simp)
      have hrest : ∀ x ∈ rest, RangeOK B lo F x := fun x hx => hr x (by simp [hx])
      rw [List.pairwise_cons] at hp
      simp only [ids_merge]
      split_ifs with hadj
      · have hc1 : RangeOK B lo F ⟨cur.min, max cur.max r.max⟩ := by
          obtain ⟨c1, c2, c3, c4, c5⟩ := hc
          obtain ⟨r1, r2, r3, r4, r5⟩ := hrr
          refine ⟨?_, c2, ?_, c4, ?_⟩
          · simp only; exact le_trans c1 (le_max_left _ _)
          · simp only
            rcases Nat.le_total cur.max r.max with h | h
            · rw [max_eq_right h]; exact r3
            · rw [max_eq_left h]; exact c3
          · simp only
            exact max_lt c5 r5
        exact ids_merge_inv B lo F rest _ hc1 hrest hp.2
          (fun x hx => hm x (by simp [hx]))
      · obtain ⟨ih1, ih2⟩ := ids_merge_inv B lo F rest r hrr hrest hp.2 hp.1
        constructor
        · rw [List.pairwise_cons]
          refine ⟨fun x hx => ?_, ih1⟩
          have := (ih2 x hx).2
          omega
        · intro x hx
          rw [List.mem_cons] at hx
          rcases hx with hx | hx
          · subst hx; exact ⟨hc, le_refl _⟩
          · have := (ih2 x hx).2
            have := hm r (by simp)
            exact ⟨(ih2 x hx).1, by omega⟩

theorem coarsen_ok (B lo F F1 : Nat) (hB : 0 < B) (hlo : B ∣ lo) (hF1 : B ∣ F1) (hF : F ≤ F1)
    (r : htm_range) (h1 : r.min ≤ r.max) (h2 : lo ≤ r.min) (h3 : r.max < F) :
    RangeOK B lo F1 ⟨r.min / B * B, (r.max / B + 1) * B - 1⟩ := by
  have e1 : r.min / B * B ≤ r.min := Nat.div_mul_le_self _ _
  have e2 : r.max < (r.max / B + 1) * B := by
    rw [Nat.add_mul, Nat.one_mul]; exact Nat.lt_div_mul_add hB
  have e3 : 0 < (r.max / B + 1) * B := by omega
  refine ⟨by simp only; omega, Nat.dvd_mul_left _ _, ?_, ?_, ?_⟩
  · simp only
    rw [Nat.sub_add_cancel e3]; exact Nat.dvd_mul_left _ _
  · simp only
    obtain ⟨t, rfl⟩ := hlo
    have : t ≤ r.min / B := by
      rw [Nat.le_div_iff_mul_le hB]; rw [Nat.mul_comm]; exact h2
    calc B * t = t * B := Nat.mul_comm _ _
      _ ≤ r.min / B * B := Nat.mul_le_mul_right _ this
  · simp only
    obtain ⟨t, rfl⟩ := hF1
    have : r.max / B < t := by
      rw [Nat.div_lt_iff_lt_mul hB]; rw [Nat.mul_comm]; omega
    have : (r.max / B + 1) * B ≤ t * B := Nat.mul_le_mul_right _ this
    rw [Nat.mul_comm B t]
    omega

/-- Coarsening by `n` levels leaves a sorted, coalesced list of whole blocks of `4 ^ n` ids. -/
theorem simplify_inv (n lo F F1 : Nat) (ids : List htm_range) (hlo : 4 ^ n ∣ lo)
    (hF1 : 4 ^ n ∣ F1) (hF : F ≤ F1) (hs : ids.Pairwise (fun a b => a.max + 1 < b.min))
    (he : ∀ r ∈ ids, r.min ≤ r.max ∧ lo ≤ r.min ∧ r.max < F) :
    (_htm_simplify_ids ids n).Pairwise (fun a b => a.max + 1 < b.min) ∧
      ∀ x ∈ _htm_simplify_ids ids n, RangeOK (4 ^ n) lo F1 x := by
  have hB : 0 < 4 ^ n := by positivity
  cases ids with
  | nil => simp [_htm_simplify_ids]
  | cons r rest =>
      simp only [_htm_simplify_ids, List.map_cons]
      have hok : ∀ x ∈ r :: rest, RangeOK (4 ^ n) lo F1 (range_coarsen n x) := by
        intro x hx
        rw [range_coarsen_eq]
        obtain ⟨x1, x2, x3⟩ := he x hx
        exact coarsen_ok _ lo F F1 hB hlo hF1 hF x x1 x2 x3
      have hmono : ∀ a ∈ r :: rest, ∀ b ∈ r :: rest, a.max + 1 < b.min →
          (range_coarsen n a).min ≤ (range_coarsen n b).min := by
        intro a ha b _ hab
        rw [range_coarsen_eq, range_coarsen_eq]
        simp only
        have := (he a ha).1
        exact Nat.mul_le_mul_right _ (Nat.div_le_div_right (by omega))
      rw [List.pairwise_cons] at hs
      have h := ids_merge_inv (4 ^ n) lo F1 (rest.map (range_coarsen n)) (range_coarsen n r)
        (hok r (by simp))
        (by
          intro x hx
          rw [List.mem_map] at hx
          obtain ⟨y, hy, rfl⟩ := hx
          exact hok y (by simp [hy]))
        (by
          rw [List.pairwise_map]
          exact hs.2.imp_of_mem (fun {a b} ha hb hab =>
            hmono a (by simp [ha]) b (by simp [hb]) hab))
        (by
          intro x hx
          rw [List.mem_map] at hx
          obtain ⟨y, hy, rfl⟩ := hx
          exact hmono r (by simp) y (by simp [hy]) (hs.1 y hy))
      exact ⟨h.1, fun x hx => (h.2 x hx).1⟩

/-! ## The list along the walk -/

theorem level_bound {root : Nat} (hroot : root ≤ 7) : ∀ (c : _htm_node) (rest : List _htm_node),
    PathInv root (c :: rest) → 8 * 4 ^ rest.length ≤ c.id ∧ c.id < 16 * 4 ^ rest.length
  | c, [], h => by
      simp only [PathInv] at h
      simp only [List.length_nil, pow_zero]
      omega
  | c, p :: up, h => by
      obtain ⟨h1, h2⟩ := level_bound hroot p up (PathInv_tail h)
      have := h.1
      simp only [List.length_cons, pow_succ]
      generalize 4 ^ up.length = X at h1 h2 ⊢
      omega

theorem endPos_tail_le {root L : Nat} {c p : _htm_node} {up : List _htm_node}
    (h : PathInv root (c :: p :: up)) (hL : up.length + 1 ≤ L) :
    endPos L (c :: p :: up) ≤ endPos L (p :: up) := by
  simp only [endPos, List.length_cons]
  have e1 : L - up.length = (L - (up.length + 1)) + 1 := by omega
  rw [e1, pow_succ]
  generalize 4 ^ (L - (up.length + 1)) = X
  have h1 := h.1
  have : c.id + 1 ≤ (p.id + 1) * 4 := by omega
  calc (c.id + 1) * X ≤ ((p.id + 1) * 4) * X := Nat.mul_le_mul_right _ this
    _ = (p.id + 1) * (X * 4) := by ring

theorem endPos_drop_le {root L : Nat} : ∀ (m : Nat) (path : List _htm_node),
    PathInv root path → path.length ≤ L + 1 → m < path.length →
    endPos L path ≤ endPos L (path.drop m)
  | 0, path, _, _, _ => by simp
  | m + 1, [], _, _, hm => by simp at hm
  | m + 1, [_], _, _, hm => by simp at hm
  | m + 1, c :: p :: up, h, hl, hm => by
      simp only [List.drop_succ_cons]
      simp only [List.length_cons] at hl hm
      have h1 := endPos_tail_le h (L := L) (by omega)
      have h2 := @endPos_drop_le root L m (p :: up) (PathInv_tail h) (by simp only [List.length_cons]; omega)
        (by simp only [List.length_cons]; omega)
      omega

theorem startPos_make_zero (L : Nat) (cur : _htm_node) (rest : List _htm_node)
    (h : rest.length < L) :
    startPos L (_htm_node_make 0 cur ++ rest) = startPos L (cur :: rest) := by
  rw [make_append]
  simp only [startPos, List.length_cons, Nat.shiftLeft_eq, Nat.add_zero]
  have e1 : L - rest.length = (L - (rest.length + 1)) + 1 := by omega
  rw [e1, pow_succ]
  ring

/-- Where the ascent lands lies after everything below the node just left. -/
theorem popDone_frontier (root L : Nat) : ∀ (c : _htm_node) (rest : List _htm_node),
    PathInv root (c :: rest) → rest.length ≤ L →
    (popDone rest = [] → endPos L (c :: rest) ≤ (8 + root + 1) * 4 ^ L) ∧
    ∀ n up, popDone rest = n :: up →
      endPos L (c :: rest) ≤ (n.id * 4 + n.child) * 4 ^ (L - (up.length + 1))
  | c, [], h, _ => by
      simp only [PathInv] at h
      refine ⟨fun _ => ?_, fun n up e => by simp [popDone] at e⟩
      simp only [endPos, List.length_nil, Nat.sub_zero]
      exact Nat.mul_le_mul_right _ (by omega)
  | c, p :: up, h, hl => by
      simp only [List.length_cons] at hl
      have htl := endPos_tail_le h (L := L) (by omega)
      simp only [popDone]
      split_ifs with h4
      · obtain ⟨ih1, ih2⟩ := popDone_frontier root L p up (PathInv_tail h) (by omega)
        exact ⟨fun e => le_trans htl (ih1 e), fun n up1 e => le_trans htl (ih2 n up1 e)⟩
      · refine ⟨fun e => by simp at e, fun n up1 e => ?_⟩
        simp only [List.cons.injEq] at e
        obtain ⟨rfl, rfl⟩ := e
        simp only [endPos, List.length_cons]
        have h1 := h.1
        have h2 := h.2.1
        exact Nat.mul_le_mul_right _ (by omega)

/-- The ascent keeps the list before the node it lands on. -/
theorem ascend_ids (L K root e : Nat) (path : List _htm_node) (ids : List htm_range)
    (hroot : root ≤ 7) (hpath : PathInv root path) (hlev : path.length ≤ e + 1) (he : e ≤ L)
    (hids : IdsInv L e (endPos L path) ids) (hcap : ids.length ≤ K ∨ e = 0) :
    (ascend root path e ids).holds (IdsWalkInv L K) (IdsFinal L K) := by
  cases path with
  | nil => exact absurd hpath (by simp [PathInv])
  | cons c rest =>
    simp only [List.length_cons] at hlev
    obtain ⟨f1, f2⟩ := popDone_frontier root L c rest hpath (by omega)
    obtain ⟨hlen, -, hpop⟩ := popDone_spec root L c rest hpath
    simp only [ascend, List.tail_cons]
    cases hp : popDone rest with
    | nil =>
        simp only []
        have hf := f1 hp
        split_ifs with hr
        · simp only [Next.holds]
          refine ⟨IdsInv_mono hids ?_, hcap⟩
          simp only [_htm_path_root, startPos, List.length_nil, Nat.sub_zero]
          have : 8 + root + 1 = 8 + (root + 1) := by omega
          rw [← this]; exact hf
        · simp only [Next.holds]
          refine ⟨e, IdsInv_mono hids (le_trans hf ?_), hcap⟩
          exact Nat.mul_le_mul_right _ (by omega)
    | cons n up =>
        simp only []
        have hf := f2 n up hp
        obtain ⟨-, hc1, hc3⟩ := hpop n up hp
        have key : ∀ j, n.child = j →
            IdsWalkInv L K ⟨root, _htm_node_make j n ++ up, e, ids⟩ := by
          intro j hj
          refine ⟨IdsInv_mono hids ?_, hcap⟩
          rw [make_append]
          simp only [startPos, List.length_cons, Nat.shiftLeft_eq]
          rw [hj] at hf
          exact hf
        split_ifs with h1 h2
        · exact key 1 h1
        · exact key 2 h2
        · exact key 3 (by omega)

theorem pow_dvd_endPos (L k : Nat) (path : List _htm_node) (h : path.length ≤ k + 1) :
    4 ^ (L - k) ∣ endPos L path := by
  cases path with
  | nil => simp [endPos]
  | cons c rest =>
      simp only [List.length_cons] at h
      simp only [endPos]
      exact Dvd.dvd.mul_left (pow_dvd_pow 4 (by omega)) _

theorem pow_dvd_first_root (L k : Nat) : 4 ^ (L - k) ∣ 8 * 4 ^ L :=
  Dvd.dvd.mul_left (pow_dvd_pow 4 (by omega)) _

/-- The loop of lines 109-118 keeps the list sorted and coalesced, before the end of the node
it pops to, and leaves it within the cap unless `efflevel` reaches 0. -/
theorem reduce_ids (L K root : Nat) : ∀ (e : Nat) (path : List _htm_node) (ids : List htm_range),
    PathInv root path → path.length ≤ e + 1 → e ≤ L → IdsInv L e (endPos L path) ids →
    IdsInv L (reduce L K e path ids).1 (endPos L (reduce L K e path ids).2.1)
        (reduce L K e path ids).2.2 ∧
      ((reduce L K e path ids).2.2.length ≤ K ∨ (reduce L K e path ids).1 = 0)
  | 0, path, ids, _, _, _, hids => by
      simp only [reduce]
      exact ⟨hids, Or.inr trivial⟩
  | e + 1, path, ids, hpath, hlen, he, hids => by
      have hne := PathInv_ne_nil hpath
      have hpos : 0 < path.length := List.length_pos.mpr hne
      simp only [reduce]
      have hsimp : ∀ path1 : List _htm_node, path1.length ≤ e + 1 →
          endPos L path ≤ endPos L path1 →
          IdsInv L e (endPos L path1) (_htm_simplify_ids ids (L - e)) := by
        intro path1 hl1 hle
        obtain ⟨s1, s2⟩ := simplify_inv (L - e) (8 * 4 ^ L) (endPos L path) (endPos L path1) ids
          (pow_dvd_first_root L e) (pow_dvd_endPos L e path1 hl1) hle hids.sorted
          (fun r hr => by
            obtain ⟨r1, -, -, r4, r5⟩ := hids.each r hr
            exact ⟨r1, r4, r5⟩)
        exact ⟨s1, s2⟩
      split_ifs with hK hpop
      · have hl1 : (path.drop (path.length - 1 - e)).length ≤ e + 1 := by
          simp only [List.length_drop]; omega
        have hp1 : PathInv root (path.drop (path.length - 1 - e)) :=
          PathInv_drop _ hpath (by omega)
        have hle := @endPos_drop_le root L (path.length - 1 - e) path hpath
          (by omega) (by omega)
        exact reduce_ids L K root e _ _ hp1 hl1 (by omega) (hsimp _ hl1 hle)
      · exact reduce_ids L K root e path _ hpath (by omega) (by omega)
          (hsimp path (by omega) (le_refl _))
      · exact ⟨hids, Or.inl (by simp only; omega)⟩

theorem ids_add_some (alloc : Alloc) (ids ids1 : List htm_range) (lo hi : Nat)
    (h : _htm_ids_add alloc ids lo hi = some ids1) : ids1 = ids_push ids lo hi := by
  simp only [_htm_ids_add] at h
  split_ifs at h
  simp only [Option.some.injEq] at h
  exact h.symm

/-- The range of `curnode` is well formed at level `efflevel`. -/
theorem emit_range_ok (L e root : Nat) (cur : _htm_node) (rest : List _htm_node)
    (hroot : root ≤ 7) (hpath : PathInv root (cur :: rest)) (hlev : rest.length ≤ e)
    (he : e ≤ L) :
    RangeOK (4 ^ (L - e)) (8 * 4 ^ L) (endPos L (cur :: rest))
      ⟨startPos L (cur :: rest), startPos L (cur :: rest) + 4 ^ (L - rest.length) - 1⟩ := by
  have hB : 0 < 4 ^ (L - rest.length) := by positivity
  obtain ⟨b1, -⟩ := level_bound hroot cur rest hpath
  have hd : 4 ^ (L - e) ∣ 4 ^ (L - rest.length) := pow_dvd_pow 4 (by omega)
  have hend : endPos L (cur :: rest) = startPos L (cur :: rest) + 4 ^ (L - rest.length) := by
    simp only [endPos, startPos]; ring
  refine ⟨by simp only; omega, ?_, ?_, ?_, ?_⟩
  · simp only [startPos]
    exact Dvd.dvd.mul_left hd _
  · simp only
    rw [Nat.sub_add_cancel (by omega), ← hend]
    simp only [endPos]
    exact Dvd.dvd.mul_left hd _
  · simp only [startPos]
    have e1 : 4 ^ L = 4 ^ rest.length * 4 ^ (L - rest.length) := by
      rw [← pow_add]; congr 1; omega
    rw [e1, ← Nat.mul_assoc]
    exact Nat.mul_le_mul_right _ b1
  · simp only
    rw [hend]; omega

theorem emit_bounds (L : Nat) (cur : _htm_node) (rest : List _htm_node) :
    cur.id <<< ((L - ((cur :: rest).length - 1)) * 2) = startPos L (cur :: rest) ∧
    1 <<< ((L - ((cur :: rest).length - 1)) * 2) = 4 ^ (L - rest.length) := by
  simp only [List.length_cons, Nat.add_sub_cancel, shl_two_mul, startPos, Nat.one_mul, and_self]

/-- Emitting keeps the list sorted and coalesced, before the node the walk goes to next. -/
theorem emit_ids (alloc : Alloc) (L K root e : Nat) (cur : _htm_node) (rest : List _htm_node)
    (ids : List htm_range) (hroot : root ≤ 7) (hpath : PathInv root (cur :: rest))
    (hlev : rest.length ≤ e) (he : e ≤ L) (hids : IdsInv L e (startPos L (cur :: rest)) ids) :
    (emit alloc L K root (cur :: rest) cur.id e ids).holds (IdsWalkInv L K) (IdsFinal L K) := by
  simp only [emit]
  obtain ⟨b1, b2⟩ := emit_bounds L cur rest
  rw [b1, b2]
  split
  · trivial
  · rename_i ids1 hadd
    have h1 := ids_add_some _ _ _ _ _ hadd
    have hi1 : IdsInv L e (endPos L (cur :: rest)) ids1 := by
      rw [h1]
      exact IdsInv_push _ _ hids (le_refl _) (emit_range_ok L e root cur rest hroot hpath hlev he)
    have hlen : (cur :: rest).length ≤ e + 1 := by simpa using hlev
    obtain ⟨m, r1, r2, r3, r4⟩ :=
      reduce_struct L K e (cur :: rest) ids1 (by simp) hlen
    obtain ⟨q1, q2⟩ := reduce_ids L K root e (cur :: rest) ids1 hpath hlen he hi1
    generalize reduce L K e (cur :: rest) ids1 = r at r1 r3 r4 q1 q2
    obtain ⟨e1, path1, ids2⟩ := r
    simp only at r1 r3 r4 q1 q2 ⊢
    exact ascend_ids L K root e1 path1 ids2 hroot (by rw [r1]; exact PathInv_drop m hpath r2)
      r3 (by omega) q1 q2

/-- Subdividing or emitting keeps the list sorted and coalesced, before the next node. -/
theorem intersect_ids (alloc : Alloc) (L K root e : Nat) (cur : _htm_node)
    (rest : List _htm_node) (ids : List htm_range) (hroot : root ≤ 7)
    (hpath : PathInv root (cur :: rest)) (hlev : rest.length ≤ e) (he : e ≤ L)
    (hids : IdsInv L e (startPos L (cur :: rest)) ids) (hcap : ids.length ≤ K ∨ e = 0) :
    (intersect alloc L K root cur rest e ids).holds (IdsWalkInv L K) (IdsFinal L K) := by
  simp only [intersect]
  split_ifs with hlt
  · simp only [Next.holds]
    refine ⟨?_, hcap⟩
    simp only
    rw [startPos_make_zero L cur rest (by omega)]
    exact hids
  · exact emit_ids alloc L K root e cur rest ids hroot hpath hlev he hids

theorem startPos_length (L : Nat) (cur : _htm_node) (rest rest1 : List _htm_node)
    (h : rest1.length = rest.length) : startPos L (cur :: rest1) = startPos L (cur :: rest) := by
  simp only [startPos, h]

/-- One turn of the loop keeps the list sorted and coalesced, before the next node. -/
theorem step_ids (cov : Nat → htm_cov) (alloc : Alloc) (L K : Nat) (w : Walk)
    (hw : StructInv L w) (hi : IdsWalkInv L K w) :
    (step cov alloc L K w).holds (IdsWalkInv L K) (IdsFinal L K) := by
  obtain ⟨root, path, e, ids⟩ := w
  obtain ⟨hroot, hpath, hlev, he⟩ := hw
  obtain ⟨hids, hcap⟩ := hi
  simp only at hroot hpath hlev he hids hcap
  cases path with
  | nil => exact absurd hpath (by simp [PathInv])
  | cons cur rest =>
    simp only [List.length_cons, Nat.add_le_add_iff_right] at hlev
    simp only [step]
    split
    · obtain ⟨p1, p2, p3, p4, -⟩ := prune_struct L root cur rest hroot hpath
      exact intersect_ids alloc L K _ e cur _ ids p1 p3 (by omega) he
        (by rw [startPos_length L cur rest _ p4]; exact hids) hcap
    · exact intersect_ids alloc L K root e cur rest ids hroot hpath hlev he hids hcap
    · exact emit_ids alloc L K root e cur rest ids hroot hpath hlev he hids
    · refine ascend_ids L K root e (cur :: rest) ids hroot hpath (by simpa using hlev) he
        (IdsInv_mono hids ?_) hcap
      simp only [startPos, endPos]
      exact Nat.mul_le_mul_right _ (by omega)

/-- Every list `run` returns is sorted and coalesced, within the roots and within the cap
unless `efflevel` went down to 0. -/
theorem run_ids (cov : Nat → htm_cov) (alloc : Alloc) (L K : Nat) :
    ∀ (fuel : Nat) (w : Walk), StructInv L w → IdsWalkInv L K w →
      ∀ ids, run cov alloc L K fuel w = some (.ok ids) → IdsFinal L K ids
  | 0, _, _, _, ids, h => by simp [run] at h
  | fuel + 1, w, hw, hi, ids, h => by
      have hs := step_ids cov alloc L K w hw hi
      simp only [run] at h
      split at h
      · rename_i w1 hstep
        rw [hstep] at hs
        exact run_ids cov alloc L K fuel w1 (step_struct cov alloc L K w w1 hw hstep).1 hs ids h
      · rename_i ids1 hstep
        rw [hstep] at hs
        simp only [Option.some.injEq, Except.ok.injEq] at h
        subst h
        exact hs
      · simp at h

theorem IdsWalkInv_init (L K : Nat) :
    IdsWalkInv L K ⟨HTM_S0, _htm_path_root HTM_S0, L, []⟩ :=
  ⟨⟨List.Pairwise.nil, fun r hr => by simp at hr⟩, Or.inl (by simp)⟩

/-! ## `htm_s2circle_ids`: the list returned -/

/-- Sorted blocks of `B` ids with a gap between any two, from block `m` to block 15: at most
`(17 - m) / 2` of them. -/
theorem blocks_length (B : Nat) (hB : 0 < B) : ∀ (ids : List htm_range) (m : Nat), m ≤ 17 →
    ids.Pairwise (fun a b => a.max + 1 < b.min) →
    (∀ r ∈ ids, RangeOK B (m * B) (16 * B) r) → 2 * ids.length ≤ 17 - m
  | [], m, hm, _, _ => by simp
  | a :: l, m, hm, hs, he => by
      rw [List.pairwise_cons] at hs
      obtain ⟨a1, a2, a3, a4, a5⟩ := he a (by simp)
      have hm16 : m < 16 := by
        by_contra hc
        have : 16 * B ≤ m * B := Nat.mul_le_mul_right _ (by omega)
        omega
      have hamax : (m + 1) * B ≤ a.max + 1 := by
        obtain ⟨t, ht⟩ := a3
        rw [ht]
        have : m < t := by
          by_contra hc
          have : B * t ≤ B * m := Nat.mul_le_mul_left _ (by omega)
          rw [Nat.mul_comm B m] at this
          omega
        rw [Nat.mul_comm B t]
        exact Nat.mul_le_mul_right _ (by omega)
      have ih := blocks_length B hB l (m + 2) (by omega) hs.2 (fun r hr => by
        obtain ⟨r1, r2, r3, r4, r5⟩ := he r (by simp [hr])
        refine ⟨r1, r2, r3, ?_, r5⟩
        have hgap := hs.1 r hr
        obtain ⟨t, ht⟩ := r2
        rw [ht]
        have : m + 1 < t := by
          by_contra hc
          have : B * t ≤ B * (m + 1) := Nat.mul_le_mul_left _ (by omega)
          rw [Nat.mul_comm B (m + 1)] at this
          omega
        rw [Nat.mul_comm B t]
        exact Nat.mul_le_mul_right _ (by omega))
      simp only [List.length_cons]
      omega

/-- A list made of whole roots has at most four ranges. -/
theorem IdsInv_zero_length (L : Nat) (ids : List htm_range) (h : IdsInv L 0 (16 * 4 ^ L) ids) :
    ids.length ≤ 4 := by
  have := blocks_length (4 ^ L) (by positivity) ids 8 (by omega) h.sorted
    (fun r hr => by simpa using h.each r hr)
  omega

/-- Ranges with a gap between any two, all within `[lo, hi)`: at most `hi - lo` of them. -/
theorem gap_length (hi : Nat) : ∀ (ids : List htm_range) (lo : Nat),
    ids.Pairwise (fun a b => a.max + 1 < b.min) →
    (∀ r ∈ ids, r.min ≤ r.max ∧ lo ≤ r.min ∧ r.max < hi) → ids.length ≤ hi - lo
  | [], lo, _, _ => by simp
  | a :: l, lo, hs, he => by
      rw [List.pairwise_cons] at hs
      obtain ⟨a1, a2, a3⟩ := he a (by simp)
      have ih := gap_length hi l (lo + 1) hs.2 (fun r hr => by
        obtain ⟨r1, r2, r3⟩ := he r (by simp [hr])
        have := hs.1 r hr
        exact ⟨r1, by omega, r3⟩)
      simp only [List.length_cons]
      omega

theorem IdsFinal_sorted {L K : Nat} {ids : List htm_range} (h : IdsFinal L K ids) :
    ids.Chain' (fun a b => a.max + 1 < b.min) ∧ ∀ r ∈ ids, r.min ≤ r.max := by
  obtain ⟨e, hi, -⟩ := h
  exact ⟨List.Pairwise.chain' hi.sorted, fun r hr => (hi.each r hr).1⟩

theorem IdsFinal_length {L K : Nat} {ids : List htm_range} (h : IdsFinal L K ids)
    (hK : 4 ≤ K) : ids.length ≤ K := by
  obtain ⟨e, hi, hc | hc⟩ := h
  · exact hc
  · subst hc
    have := IdsInv_zero_length L ids hi
    omega

/-- The three ways `htm_s2circle_ids` returns a list: the empty circle, the whole sky, and the
walk over the eight roots. -/
theorem htm_s2circle_ids_ok_inv (ovf : Nat → Nat → Int) (cov : htm_v3 → Dbl → Nat → htm_cov)
    (alloc : Alloc) (ids0 : Option (List raw_range)) (center : Option htm_v3) (radius : Dbl)
    (level : Int) (maxranges : Nat) (out : List raw_range)
    (h : htm_s2circle_ids ovf cov alloc ids0 center radius level maxranges = some (.ok out)) :
    ∃ (c : htm_v3) (L : Nat), center = some c ∧ level = (L : Int) ∧ L ≤ HTM_MAX_LEVEL ∧
      ((radius.ltZero = true ∧ out = []) ∨
       (radius.ltZero = false ∧ radius.ge180 = true ∧
          out = [⟨int_shl ovf (8 + HTM_S0) (L * 2),
            int_sub (int_shl ovf (8 + HTM_NROOTS) (L * 2)) 1⟩]) ∨
       (radius.ltZero = false ∧ radius.ge180 = false ∧
          ∃ outN, run (cov c radius) alloc L maxranges (8 * subtreeSize L + 1)
            ⟨HTM_S0, _htm_path_root HTM_S0, L, []⟩ = some (.ok outN) ∧
            out = outN.map htm_range.raw)) := by
  unfold htm_s2circle_ids at h
  cases center with
  | none => simp at h
  | some c =>
    simp only [] at h
    have hl : ¬ (level < 0 ∨ level > HTM_MAX_LEVEL) → level = (level.toNat : Int) ∧
        level.toNat ≤ HTM_MAX_LEVEL := by
      intro h1
      simp only [HTM_MAX_LEVEL] at h1 ⊢
      omega
    split_ifs at h with h1 h2 h3 h4
    · simp at h
    · simp at h
    · simp only [Option.some.injEq, Except.ok.injEq] at h
      exact ⟨c, level.toNat, rfl, (hl h1).1, (hl h1).2, Or.inl ⟨h3, h.symm⟩⟩
    · refine ⟨c, level.toNat, rfl, (hl h1).1, (hl h1).2, Or.inr (Or.inl ?_)⟩
      simp only [_htm_ids_add_first] at h
      split_ifs at h
      · simp only [Option.some.injEq, Except.ok.injEq] at h
        exact ⟨by simpa using h3, h4, h.symm⟩
      · simp at h
    · refine ⟨c, level.toNat, rfl, (hl h1).1, (hl h1).2, Or.inr (Or.inr
        ⟨by simpa using h3, by simpa using h4, ?_⟩)⟩
      split at h
      · rename_i outN hrun
        simp only [Option.some.injEq, Except.ok.injEq] at h
        exact ⟨outN, hrun, h.symm⟩
      · simp at h
      · simp at h

/-- The function `htm_s2circle_ids` has a result for every input: the walk ends within the
turns it is given. -/
theorem htm_s2circle_ids_defined (ovf : Nat → Nat → Int) (cov : htm_v3 → Dbl → Nat → htm_cov)
    (alloc : Alloc) (ids0 : Option (List raw_range)) (center : Option htm_v3) (radius : Dbl)
    (level : Int) (maxranges : Nat) :
    htm_s2circle_ids ovf cov alloc ids0 center radius level maxranges ≠ none := by
  intro h
  unfold htm_s2circle_ids at h
  cases center with
  | none => simp at h
  | some c =>
    simp only [] at h
    split_ifs at h with h1 h2 h3 h4
    · simp only [_htm_ids_add_first] at h
      split_ifs at h
    · split at h
      · simp at h
      · simp at h
      · rename_i hrun
        exact absurd hrun (run_terminates _ alloc _ maxranges _ _ (StructInv_init _)
          (by rw [work_init]; omega))

/-- An integer lies in a range of the list the caller reads exactly when it is an id that lies
in a range of the list of the walk. -/
theorem rawCovers_map (ids : List htm_range) (x : Int) :
    rawCovers (ids.map htm_range.raw) x ↔ ∃ n : Nat, x = (n : Int) ∧ covers ids n := by
  constructor
  · rintro ⟨r, hr, h1, h2⟩
    obtain ⟨a, ha, rfl⟩ := List.mem_map.mp hr
    simp only [htm_range.raw] at h1 h2
    refine ⟨x.toNat, by omega, a, ha, ?_, ?_⟩ <;> omega
  · rintro ⟨n, rfl, a, ha, h1, h2⟩
    refine ⟨a.raw, List.mem_map.mpr ⟨a, ha, rfl⟩, ?_, ?_⟩ <;>
      simp only [htm_range.raw] <;> omega
/-! ## Coverage along the walk -/

theorem div_pow_succ (x d : Nat) : x / 4 ^ (d + 1) = x / 4 ^ d / 4 := by
  rw [pow_succ, Nat.div_div_eq_div_mul]

theorem specVisit_disjoint (cov : Nat → htm_cov) (d a x : Nat) (h : cov a = .HTM_DISJOINT) :
    ¬ specVisit cov d a x := by
  cases d with
  | zero => simp [specVisit, h]
  | succ d => simp [specVisit, h]

theorem specVisit_inside (cov : Nat → htm_cov) (d a x : Nat) (h : cov a = .HTM_INSIDE) :
    specVisit cov d a x := by
  cases d with
  | zero => simp [specVisit, h]
  | succ d => simp [specVisit, h]

theorem specVisit_leaf (cov : Nat → htm_cov) (a x : Nat) (h : cov a ≠ .HTM_DISJOINT) :
    specVisit cov 0 a x := h

theorem specVisit_split (cov : Nat → htm_cov) (d a x : Nat)
    (h : cov a = .HTM_INTERSECT ∨ cov a = .HTM_CONTAINS) (hx : x / 4 ^ (d + 1) = a) :
    specVisit cov (d + 1) a x ↔ pendChild cov d a 0 x := by
  simp only [specVisit, pendChild, hx, Nat.zero_le, true_and]
  constructor
  · rintro (h1 | ⟨-, h2⟩)
    · rcases h with h | h <;> simp [h] at h1
    · exact h2
  · intro h2
    exact Or.inr ⟨h, h2⟩

theorem pendChild_four (cov : Nat → htm_cov) (d a x : Nat) : ¬ pendChild cov d a 4 x := by
  rintro ⟨-, h, -⟩
  have := Nat.mod_lt (x / 4 ^ d) (show 0 < 4 by omega)
  omega

/-- The ids still to come below the children `j` and on of `a`: those below child `j`, and,
unless child `j` is `HTM_CONTAINS`, those still to come below the children after it. -/
theorem pendChild_step (cov : Nat → htm_cov) (d a j x : Nat) :
    pendChild cov d a j x ↔
      (x / 4 ^ d = 4 * a + j ∧ j < 4 ∧ specVisit cov d (4 * a + j) x) ∨
      (cov (4 * a + j) ≠ .HTM_CONTAINS ∧ pendChild cov d a (j + 1) x) := by
  simp only [pendChild, div_pow_succ]
  have hm := Nat.mod_lt (x / 4 ^ d) (show 0 < 4 by omega)
  constructor
  · rintro ⟨h1, h2, h3, h4⟩
    by_cases hj : x / 4 ^ d % 4 = j
    · left
      have e : x / 4 ^ d = 4 * a + j := by omega
      rw [← e]
      exact ⟨rfl, by omega, h4⟩
    · right
      refine ⟨h3 j (le_refl _) (by omega), h1, by omega, fun i hi1 hi2 => h3 i (by omega) hi2, h4⟩
  · rintro (⟨h1, h2, h3⟩ | ⟨h0, h1, h2, h3, h4⟩)
    · refine ⟨by omega, by omega, fun i hi1 hi2 => by omega, ?_⟩
      rw [h1]; exact h3
    · refine ⟨h1, by omega, fun i hi1 hi2 => ?_, h4⟩
      by_cases hij : i = j
      · subst hij; exact h0
      · exact h3 i (by omega) hi2

theorem pendRoots_seven (cov : Nat → htm_cov) (L root x : Nat) (h : 7 ≤ root) :
    ¬ pendRoots cov L root x := by
  rintro ⟨h1, h2, -⟩
  omega

/-- The ids still to come below the roots after `root`: those below the next root, and, unless
it is `HTM_CONTAINS`, those still to come below the roots after it. -/
theorem pendRoots_step (cov : Nat → htm_cov) (L root x : Nat) :
    pendRoots cov L root x ↔
      (x / 4 ^ L = 8 + (root + 1) ∧ root + 1 ≤ 7 ∧ specVisit cov L (8 + (root + 1)) x) ∨
      (cov (8 + (root + 1)) ≠ .HTM_CONTAINS ∧ pendRoots cov L (root + 1) x) := by
  simp only [pendRoots]
  constructor
  · rintro ⟨h1, h2, h3, h4⟩
    by_cases hj : x / 4 ^ L = 8 + (root + 1)
    · left
      rw [← hj]
      exact ⟨rfl, by omega, h4⟩
    · right
      refine ⟨h3 (root + 1) (le_refl _) (by omega), by omega, h2,
        fun i hi1 hi2 => h3 i (by omega) hi2, h4⟩
  · rintro (⟨h1, h2, h3⟩ | ⟨h0, h1, h2, h3, h4⟩)
    · refine ⟨by omega, by omega, fun i hi1 hi2 => by omega, ?_⟩
      rw [h1]; exact h3
    · refine ⟨by omega, h2, fun i hi1 hi2 => ?_, h4⟩
      by_cases hij : i = root + 1
      · subst hij; exact h0
      · exact h3 i (by omega) hi2

theorem pendRest_top (cov : Nat → htm_cov) (L : Nat) (n : _htm_node) (up : List _htm_node)
    (x : Nat) :
    pendRest cov L (⟨n.id, n.child⟩ :: up) x ↔ pendRest cov L (n :: up) x := Iff.rfl

theorem pendRest_done (cov : Nat → htm_cov) (L : Nat) (p : _htm_node) (up : List _htm_node)
    (x : Nat) (h : p.child = 4) : pendRest cov L (p :: up) x ↔ pendRest cov L up x := by
  simp only [pendRest, h]
  constructor
  · rintro (h1 | h1)
    · exact absurd h1 (pendChild_four cov _ _ _)
    · exact h1
  · exact Or.inr

theorem pendRest_popDone (cov : Nat → htm_cov) (L : Nat) (x : Nat) :
    ∀ rest : List _htm_node, pendRest cov L (popDone rest) x ↔ pendRest cov L rest x
  | [] => Iff.rfl
  | p :: up => by
      simp only [popDone]
      split_ifs with h
      · rw [pendRest_popDone cov L x up, pendRest_done cov L p up x h]
      · exact Iff.rfl

/-- The ids still to come at the head of the loop, just after child `j` of `n` is made: those
that were to come from `n` at `child = j`. -/
theorem headPending_make (cov : Nat → htm_cov) (L root j : Nat) (n : _htm_node)
    (up : List _htm_node) (x : Nat) (hj : j < 4) :
    headPending cov L root (_htm_node_make j n ++ up) x ↔
      pendChild cov (L - up.length - 1) n.id j x ∨ pendRest cov L up x ∨
        pendRoots cov L root x := by
  rw [make_append, pendChild_step]
  have e2 : n.id <<< 2 + j = 4 * n.id + j := by rw [Nat.shiftLeft_eq]; omega
  have e3 : L - (up.length + 1) = L - up.length - 1 := by omega
  simp only [headPending, inSub, List.length_cons, prune, pendRest, e2, e3]
  by_cases hc : cov (4 * n.id + j) = .HTM_CONTAINS
  · simp only [hc, if_true, ne_eq, not_true_eq_false, false_and, false_or]
    have h4 := pendChild_four cov (L - up.length - 1) n.id x
    tauto
  · simp only [hc, if_false, ne_eq, not_false_eq_true, true_and]
    tauto


/-- The ids still to come at the head of the loop, just after the walk starts on the root after
`root`: those that were to come from the roots after `root`. -/
theorem headPending_root (cov : Nat → htm_cov) (L root : Nat) (x : Nat) (hr : root + 1 ≤ 7) :
    headPending cov L (root + 1) (_htm_path_root (root + 1)) x ↔ pendRoots cov L root x := by
  rw [pendRoots_step]
  simp only [_htm_path_root, headPending, inSub, List.length_nil, Nat.sub_zero, prune, pendRest,
    HTM_N3, false_or]
  have h7 := pendRoots_seven cov L 7 x (le_refl _)
  by_cases hc : cov (8 + (root + 1)) = .HTM_CONTAINS
  · simp only [hc, if_true, ne_eq, not_true_eq_false, false_and, or_false]
    tauto
  · simp only [hc, if_false, ne_eq, not_false_eq_true, true_and]
    tauto

/-- The ascent neither covers nor drops an id: what is covered or still to come is the same
before and after. -/
theorem ascend_cover (cov : Nat → htm_cov) (L root e : Nat) (path : List _htm_node)
    (ids : List htm_range) (hroot : root ≤ 7) (hpath : PathInv root path)
    (hlev : path.length ≤ L + 1) (x : Nat) :
    (ascend root path e ids).holds
      (fun w1 => w1.efflevel = e ∧ (headCover cov L w1 x ↔ postCover cov L root path ids x))
      (fun out => covers out x ↔ postCover cov L root path ids x) := by
  cases path with
  | nil => exact absurd hpath (by simp [PathInv])
  | cons c rest =>
    simp only [List.length_cons] at hlev
    obtain ⟨hlen, -, hpop⟩ := popDone_spec root L c rest hpath
    have hpd := pendRest_popDone cov L x rest
    simp only [ascend, List.tail_cons, postCover]
    cases hp : popDone rest with
    | nil =>
        rw [hp] at hpd
        simp only [pendRest, false_iff] at hpd
        simp only []
        split_ifs with hr
        · simp only [Next.holds, headCover, HTM_N3] at hr ⊢
          rw [headPending_root cov L root x hr]
          exact ⟨trivial, by tauto⟩
        · simp only [Next.holds, HTM_N3] at hr ⊢
          have h7 := pendRoots_seven cov L root x (by omega)
          tauto
    | cons n up =>
        rw [hp] at hpd hlen
        simp only [List.length_cons] at hlen
        obtain ⟨-, hc1, hc3⟩ := hpop n up hp
        simp only []
        have key : ∀ j, n.child = j →
            (e = e ∧ (headCover cov L ⟨root, _htm_node_make j n ++ up, e, ids⟩ x ↔
              covers ids x ∨ pendRest cov L rest x ∨ pendRoots cov L root x)) := by
          intro j hj
          refine ⟨rfl, ?_⟩
          simp only [headCover]
          rw [headPending_make cov L root j n up x (by omega), ← hpd]
          simp only [pendRest, hj]
          tauto
        split_ifs with h1 h2
        · exact key 1 h1
        · exact key 2 h2
        · exact key 3 (by omega)

theorem covers_cons (r : htm_range) (ids : List htm_range) (x : Nat) :
    covers (r :: ids) x ↔ (r.min ≤ x ∧ x ≤ r.max) ∨ covers ids x := by
  simp only [covers, List.mem_cons]
  constructor
  · rintro ⟨q, hq | hq, hx⟩
    · subst hq; exact Or.inl hx
    · exact Or.inr ⟨q, hq, hx⟩
  · rintro (hx | ⟨q, hq, hx⟩)
    · exact ⟨r, Or.inl rfl, hx⟩
    · exact ⟨q, Or.inr hq, hx⟩

/-- The merge pass drops no id. -/
theorem covers_merge (x : Nat) : ∀ (rest : List htm_range) (cur : htm_range),
    rest.Pairwise (fun a b => a.min ≤ b.min) → (∀ r ∈ rest, cur.min ≤ r.min) →
    covers (cur :: rest) x → covers (ids_merge cur rest) x
  | [], cur, _, _, h => by simpa [ids_merge] using h
  | r :: rest, cur, hp, hm, h => by
      rw [List.pairwise_cons] at hp
      simp only [ids_merge]
      rw [covers_cons, covers_cons] at h
      have hcr := hm r (by simp)
      split_ifs with hadj
      · apply covers_merge x rest ⟨cur.min, max cur.max r.max⟩ hp.2
          (fun q hq => hm q (by simp [hq]))
        rw [covers_cons]
        rcases h with h | h | h
        · exact Or.inl ⟨h.1, le_trans h.2 (le_max_left _ _)⟩
        · exact Or.inl ⟨by simp only; omega, le_trans h.2 (le_max_right _ _)⟩
        · exact Or.inr h
      · rw [covers_cons]
        rcases h with h | h | h
        · exact Or.inl h
        · exact Or.inr (covers_merge x rest r hp.2 hp.1 (by rw [covers_cons]; exact Or.inl h))
        · exact Or.inr (covers_merge x rest r hp.2 hp.1 (by rw [covers_cons]; exact Or.inr h))

/-- Coarsening by `n` levels covers the whole block of `4 ^ n` ids of every id covered. -/
theorem covers_simplify (n : Nat) (ids : List htm_range)
    (hs : ids.Pairwise (fun a b => a.max + 1 < b.min)) (he : ∀ r ∈ ids, r.min ≤ r.max)
    (x y : Nat) (hy : covers ids y) (hxy : y / 4 ^ n = x / 4 ^ n) :
    covers (_htm_simplify_ids ids n) x := by
  have hB : 0 < 4 ^ n := by positivity
  have hmap : covers (ids.map (range_coarsen n)) x := by
    obtain ⟨r, hr, h1, h2⟩ := hy
    refine ⟨range_coarsen n r, List.mem_map_of_mem _ hr, ?_⟩
    rw [range_coarsen_eq]
    simp only
    have e1 : r.min / 4 ^ n ≤ x / 4 ^ n := by rw [← hxy]; exact Nat.div_le_div_right h1
    have e2 : x / 4 ^ n ≤ r.max / 4 ^ n := by rw [← hxy]; exact Nat.div_le_div_right h2
    have e3 : x / 4 ^ n * 4 ^ n ≤ x := Nat.div_mul_le_self _ _
    have e4 : x < x / 4 ^ n * 4 ^ n + 4 ^ n := Nat.lt_div_mul_add hB
    have e5 : r.min / 4 ^ n * 4 ^ n ≤ x / 4 ^ n * 4 ^ n := Nat.mul_le_mul_right _ e1
    have e6 : (x / 4 ^ n + 1) * 4 ^ n ≤ (r.max / 4 ^ n + 1) * 4 ^ n :=
      Nat.mul_le_mul_right _ (by omega)
    rw [Nat.add_mul, Nat.one_mul] at e6
    constructor
    · omega
    · omega
  cases ids with
  | nil => simpa [_htm_simplify_ids] using hmap
  | cons r rest =>
      simp only [_htm_simplify_ids, List.map_cons] at hmap ⊢
      have hmono : ∀ a ∈ r :: rest, ∀ b ∈ r :: rest, a.max + 1 < b.min →
          (range_coarsen n a).min ≤ (range_coarsen n b).min := by
        intro a ha b _ hab
        rw [range_coarsen_eq, range_coarsen_eq]
        simp only
        have := he a ha
        exact Nat.mul_le_mul_right _ (Nat.div_le_div_right (by omega))
      rw [List.pairwise_cons] at hs
      refine covers_merge x _ _ ?_ ?_ hmap
      · rw [List.pairwise_map]
        exact hs.2.imp_of_mem (fun {a b} ha hb hab =>
          hmono a (by simp [ha]) b (by simp [hb]) hab)
      · intro q hq
        rw [List.mem_map] at hq
        obtain ⟨z, hz, rfl⟩ := hq
        exact hmono r (by simp) z (by simp [hz]) (hs.1 z hz)

theorem inSub_tail {root L : Nat} {c p : _htm_node} {up : List _htm_node} {x : Nat}
    (h : PathInv root (c :: p :: up)) (hL : up.length + 1 ≤ L)
    (hx : inSub L (c :: p :: up) x) : inSub L (p :: up) x := by
  simp only [inSub, List.length_cons] at hx ⊢
  have e1 : L - up.length = (L - (up.length + 1)) + 1 := by omega
  rw [e1, div_pow_succ, hx]
  exact h.1

theorem inSub_drop {root L : Nat} {x : Nat} : ∀ (m : Nat) (path : List _htm_node),
    PathInv root path → path.length ≤ L + 1 → m < path.length →
    inSub L path x → inSub L (path.drop m) x
  | 0, path, _, _, _, hx => by simpa using hx
  | m + 1, [], _, _, hm, _ => by simp at hm
  | m + 1, [_], _, _, hm, _ => by simp at hm
  | m + 1, c :: p :: up, h, hl, hm, hx => by
      simp only [List.drop_succ_cons]
      simp only [List.length_cons] at hl hm
      exact @inSub_drop root L _ m (p :: up) (PathInv_tail h)
        (by simp only [List.length_cons]; omega) (by simp only [List.length_cons]; omega)
        (inSub_tail h (by omega) hx)

theorem inSub_startPos (L : Nat) (c : _htm_node) (rest : List _htm_node) :
    inSub L (c :: rest) (startPos L (c :: rest)) := by
  simp only [inSub, startPos]
  exact Nat.mul_div_cancel _ (by positivity)

theorem inSub_iff (L : Nat) (c : _htm_node) (rest : List _htm_node) (x : Nat) :
    inSub L (c :: rest) x ↔
      startPos L (c :: rest) ≤ x ∧ x ≤ startPos L (c :: rest) + 4 ^ (L - rest.length) - 1 := by
  simp only [inSub, startPos]
  have hB : 0 < 4 ^ (L - rest.length) := by positivity
  generalize 4 ^ (L - rest.length) = B at hB
  constructor
  · intro h
    have e3 : x / B * B ≤ x := Nat.div_mul_le_self _ _
    have e4 : x < x / B * B + B := Nat.lt_div_mul_add hB
    rw [h] at e3 e4
    omega
  · rintro ⟨h1, h2⟩
    apply Nat.le_antisymm
    · have : x < (c.id + 1) * B := by rw [Nat.add_mul, Nat.one_mul]; omega
      have := (Nat.div_lt_iff_lt_mul hB).mpr this
      omega
    · exact (Nat.le_div_iff_mul_le hB).mpr h1

/-- Popping the path drops no id still to come, except below the node popped to. -/
theorem pendRest_drop (cov : Nat → htm_cov) {root L : Nat} {x : Nat} :
    ∀ (m : Nat) (path : List _htm_node),
    PathInv root path → path.length ≤ L + 1 → m < path.length →
    pendRest cov L path.tail x →
    pendRest cov L (path.drop m).tail x ∨ inSub L (path.drop m) x
  | 0, path, _, _, _, hx => by simpa using Or.inl hx
  | m + 1, [], _, _, hm, _ => by simp at hm
  | m + 1, [_], _, _, hm, _ => by simp at hm
  | m + 1, c :: p :: up, h, hl, hm, hx => by
      simp only [List.drop_succ_cons]
      simp only [List.length_cons] at hl hm
      have hl1 : (p :: up).length ≤ L + 1 := by simp only [List.length_cons]; omega
      have hm1 : m < (p :: up).length := by simp only [List.length_cons]; omega
      simp only [List.tail_cons, pendRest] at hx
      rcases hx with hx | hx
      · right
        apply @inSub_drop root L _ m (p :: up) (PathInv_tail h) hl1 hm1
        simp only [inSub]
        have e1 : L - up.length = (L - up.length - 1) + 1 := by omega
        rw [e1]
        exact hx.1
      · exact @pendRest_drop cov root L _ m (p :: up) (PathInv_tail h) hl1 hm1
          (by simpa using hx)

theorem simplify_step_inv (L e : Nat) (path path1 : List _htm_node) (ids : List htm_range)
    (hids : IdsInv L (e + 1) (endPos L path) ids) (hl1 : path1.length ≤ e + 1)
    (hle : endPos L path ≤ endPos L path1) :
    IdsInv L e (endPos L path1) (_htm_simplify_ids ids (L - e)) := by
  obtain ⟨s1, s2⟩ := simplify_inv (L - e) (8 * 4 ^ L) (endPos L path) (endPos L path1) ids
    (pow_dvd_first_root L e) (pow_dvd_endPos L e path1 hl1) hle hids.sorted
    (fun r hr => by
      obtain ⟨r1, -, -, r4, r5⟩ := hids.each r hr
      exact ⟨r1, r4, r5⟩)
  exact ⟨s1, s2⟩

/-- The loop of lines 109-118 drops no id: what was covered or still to come stays so, given
that the list covers everything below the top of the path. -/
theorem reduce_cover (cov : Nat → htm_cov) (L K root x : Nat) :
    ∀ (e : Nat) (path : List _htm_node) (ids : List htm_range),
    PathInv root path → path.length ≤ e + 1 → e ≤ L → IdsInv L e (endPos L path) ids →
    (∀ y, inSub L path y → covers ids y) →
    (covers ids x ∨ pendRest cov L path.tail x) →
    covers (reduce L K e path ids).2.2 x ∨ pendRest cov L (reduce L K e path ids).2.1.tail x
  | 0, path, ids, _, _, _, _, _, hx => by simpa [reduce] using hx
  | e + 1, path, ids, hpath, hlen, he, hids, htop, hx => by
      have hne := PathInv_ne_nil hpath
      have hpos : 0 < path.length := List.length_pos.mpr hne
      have hmin : ∀ r ∈ ids, r.min ≤ r.max := fun r hr => (hids.each r hr).1
      have hsup : ∀ y z, covers ids y → y / 4 ^ (L - e) = z / 4 ^ (L - e) →
          covers (_htm_simplify_ids ids (L - e)) z :=
        fun y z hy hyz => covers_simplify (L - e) ids hids.sorted hmin z y hy hyz
      simp only [reduce]
      split_ifs with hK hpop
      · have hm : path.length - 1 - e < path.length := by omega
        have hl1 : (path.drop (path.length - 1 - e)).length = e + 1 := by
          simp only [List.length_drop]; omega
        have hp1 : PathInv root (path.drop (path.length - 1 - e)) := PathInv_drop _ hpath hm
        have hle := @endPos_drop_le root L (path.length - 1 - e) path hpath
          (by omega) hm
        have htop1 : ∀ y, inSub L (path.drop (path.length - 1 - e)) y →
            covers (_htm_simplify_ids ids (L - e)) y := by
          intro y hy
          cases path with
          | nil => exact absurd rfl hne
          | cons c rest =>
            have h0 := @inSub_drop root L (startPos L (c :: rest))
              ((c :: rest).length - 1 - e) (c :: rest) hpath (by omega) hm
              (inSub_startPos L c rest)
            generalize List.drop ((c :: rest).length - 1 - e) (c :: rest) = path1 at hl1 hy h0
            cases path1 with
            | nil => simp at hl1
            | cons c1 rest1 =>
              simp only [List.length_cons, Nat.add_right_cancel_iff] at hl1
              simp only [inSub, hl1] at hy h0
              exact hsup _ _ (htop _ (inSub_startPos L c rest)) (by rw [h0, hy])
        apply reduce_cover cov L K root x e _ _ hp1 (by omega) (by omega)
          (simplify_step_inv L e path _ ids hids (by omega) hle) htop1
        rcases hx with hx | hx
        · exact Or.inl (hsup x x hx rfl)
        · rcases @pendRest_drop cov root L _ _ path hpath (by omega) hm hx
            with h1 | h1
          · exact Or.inr h1
          · exact Or.inl (htop1 x h1)
      · apply reduce_cover cov L K root x e path _ hpath (by omega) (by omega)
          (simplify_step_inv L e path path ids hids (by omega) (le_refl _))
          (fun y hy => hsup y y (htop y hy) rfl)
        rcases hx with hx | hx
        · exact Or.inl (hsup x x hx rfl)
        · exact Or.inr hx
      · exact hx

theorem reduce_id (L K e : Nat) (path : List _htm_node) (ids : List htm_range)
    (h : ids.length ≤ K) : reduce L K e path ids = (e, path, ids) := by
  cases e with
  | zero => rfl
  | succ e =>
      simp only [reduce]
      rw [if_neg (by omega)]

/-- What the list covers once the range of `curnode` is added: what it covered, and all the
ids below `curnode`. -/
theorem covers_emit (L e : Nat) (cur : _htm_node) (rest : List _htm_node)
    (ids : List htm_range) (hids : IdsInv L e (startPos L (cur :: rest)) ids) (x : Nat) :
    covers (ids_push ids (startPos L (cur :: rest))
        (startPos L (cur :: rest) + 4 ^ (L - rest.length) - 1)) x ↔
      covers ids x ∨ inSub L (cur :: rest) x := by
  have hB : 0 < 4 ^ (L - rest.length) := by positivity
  rw [covers_ids_push ids _ _ (fun r hr => (hids.each r hr).1) (by omega) x, inSub_iff]

/-- Emitting drops no id: what was covered or still to come, and everything below `curnode`,
is covered or still to come at the next turn. -/
theorem emit_cover (cov : Nat → htm_cov) (alloc : Alloc) (L K root e : Nat) (cur : _htm_node)
    (rest : List _htm_node) (ids : List htm_range) (hroot : root ≤ 7)
    (hpath : PathInv root (cur :: rest)) (hlev : rest.length ≤ e) (he : e ≤ L)
    (hids : IdsInv L e (startPos L (cur :: rest)) ids) (x : Nat) :
    (emit alloc L K root (cur :: rest) cur.id e ids).holds
      (fun w1 => (covers ids x ∨ inSub L (cur :: rest) x ∨ pendRest cov L rest x ∨
          pendRoots cov L root x) → headCover cov L w1 x)
      (fun out => (covers ids x ∨ inSub L (cur :: rest) x ∨ pendRest cov L rest x ∨
          pendRoots cov L root x) → covers out x) := by
  simp only [emit]
  obtain ⟨b1, b2⟩ := emit_bounds L cur rest
  rw [b1, b2]
  split
  · trivial
  · rename_i ids1 hadd
    have h1 := ids_add_some _ _ _ _ _ hadd
    have hc1 := covers_emit L e cur rest ids hids
    rw [← h1] at hc1
    have hi1 : IdsInv L e (endPos L (cur :: rest)) ids1 := by
      rw [h1]
      exact IdsInv_push _ _ hids (le_refl _) (emit_range_ok L e root cur rest hroot hpath hlev he)
    have hlen : (cur :: rest).length ≤ e + 1 := by simpa using hlev
    obtain ⟨m, r1, r2, r3, r4⟩ :=
      reduce_struct L K e (cur :: rest) ids1 (by simp) hlen
    have hrc := reduce_cover cov L K root x e (cur :: rest) ids1 hpath hlen he hi1
      (fun y hy => (hc1 y).mpr (Or.inr hy))
    generalize reduce L K e (cur :: rest) ids1 = r at r1 r3 r4 hrc
    obtain ⟨e1, path1, ids2⟩ := r
    simp only at r1 r3 r4 hrc ⊢
    have hp1 : PathInv root path1 := by rw [r1]; exact PathInv_drop m hpath r2
    have ha := ascend_cover cov L root e1 path1 ids2 hroot hp1 (by omega) x
    have hpre : (covers ids x ∨ inSub L (cur :: rest) x ∨ pendRest cov L rest x ∨
        pendRoots cov L root x) → postCover cov L root path1 ids2 x := by
      intro h
      simp only [postCover]
      rcases h with h | h | h | h
      · rcases hrc (Or.inl ((hc1 x).mpr (Or.inl h))) with h2 | h2
        · exact Or.inl h2
        · exact Or.inr (Or.inl h2)
      · rcases hrc (Or.inl ((hc1 x).mpr (Or.inr h))) with h2 | h2
        · exact Or.inl h2
        · exact Or.inr (Or.inl h2)
      · rcases hrc (Or.inr (by simpa using h)) with h2 | h2
        · exact Or.inl h2
        · exact Or.inr (Or.inl h2)
      · exact Or.inr (Or.inr h)
    cases hasc : ascend root path1 e1 ids2 with
    | loop w1 =>
        rw [hasc] at ha
        exact fun h => ha.2.mpr (hpre h)
    | ret out =>
        rw [hasc] at ha
        exact fun h => ha.mpr (hpre h)
    | nomem => trivial

/-- Emitting without coarsening covers exactly the ids below `curnode` more. -/
theorem emit_exact (cov : Nat → htm_cov) (alloc : Alloc) (L K root e : Nat) (cur : _htm_node)
    (rest : List _htm_node) (ids : List htm_range) (hroot : root ≤ 7)
    (hpath : PathInv root (cur :: rest)) (hlev : rest.length ≤ e) (he : e ≤ L)
    (hids : IdsInv L e (startPos L (cur :: rest)) ids)
    (hK : ∀ ids1, IdsInv L e (endPos L (cur :: rest)) ids1 → ids1.length ≤ K) (x : Nat) :
    (emit alloc L K root (cur :: rest) cur.id e ids).holds
      (fun w1 => w1.efflevel = e ∧ (headCover cov L w1 x → (covers ids x ∨
          inSub L (cur :: rest) x ∨ pendRest cov L rest x ∨ pendRoots cov L root x)))
      (fun out => covers out x → (covers ids x ∨ inSub L (cur :: rest) x ∨
          pendRest cov L rest x ∨ pendRoots cov L root x)) := by
  simp only [emit]
  obtain ⟨b1, b2⟩ := emit_bounds L cur rest
  rw [b1, b2]
  split
  · trivial
  · rename_i ids1 hadd
    have h1 := ids_add_some _ _ _ _ _ hadd
    have hc1 := covers_emit L e cur rest ids hids
    rw [← h1] at hc1
    have hi1 : IdsInv L e (endPos L (cur :: rest)) ids1 := by
      rw [h1]
      exact IdsInv_push _ _ hids (le_refl _) (emit_range_ok L e root cur rest hroot hpath hlev he)
    rw [reduce_id L K e (cur :: rest) ids1 (hK ids1 hi1)]
    simp only
    have ha := ascend_cover cov L root e (cur :: rest) ids1 hroot hpath
      (by simp only [List.length_cons]; omega) x
    have hpost : postCover cov L root (cur :: rest) ids1 x → (covers ids x ∨
        inSub L (cur :: rest) x ∨ pendRest cov L rest x ∨ pendRoots cov L root x) := by
      intro h
      simp only [postCover, List.tail_cons] at h
      rcases h with h | h | h
      · rcases (hc1 x).mp h with h2 | h2
        · exact Or.inl h2
        · exact Or.inr (Or.inl h2)
      · exact Or.inr (Or.inr (Or.inl h))
      · exact Or.inr (Or.inr (Or.inr h))
    cases hasc : ascend root (cur :: rest) e ids1 with
    | loop w1 =>
        rw [hasc] at ha
        exact ⟨ha.1, fun h => hpost (ha.2.mp h)⟩
    | ret out =>
        rw [hasc] at ha
        exact fun h => hpost (ha.mp h)
    | nomem => trivial

theorem endPos_le (L root : Nat) (hroot : root ≤ 7) (c : _htm_node) (rest : List _htm_node)
    (hpath : PathInv root (c :: rest)) (hl : rest.length ≤ L) :
    endPos L (c :: rest) ≤ 16 * 4 ^ L := by
  obtain ⟨-, b2⟩ := level_bound hroot c rest hpath
  simp only [endPos]
  have e1 : 4 ^ L = 4 ^ rest.length * 4 ^ (L - rest.length) := by
    rw [← pow_add]; congr 1; omega
  rw [e1, ← Nat.mul_assoc]
  exact Nat.mul_le_mul_right _ (by omega)

theorem inSub_specVisit_split (cov : Nat → htm_cov) (L : Nat) (cur : _htm_node)
    (rest : List _htm_node) (x : Nat) (hl : rest.length < L)
    (h : cov cur.id = .HTM_INTERSECT ∨ cov cur.id = .HTM_CONTAINS) :
    (inSub L (cur :: rest) x ∧ specVisit cov (L - rest.length) cur.id x) ↔
      pendChild cov (L - rest.length - 1) cur.id 0 x := by
  have e1 : L - rest.length = (L - rest.length - 1) + 1 := by omega
  simp only [inSub]
  rw [e1]
  simp only [Nat.add_sub_cancel]
  constructor
  · rintro ⟨h1, h2⟩
    exact (specVisit_split cov _ _ x h h1).mp h2
  · intro h1
    exact ⟨h1.1, (specVisit_split cov _ _ x h h1.1).mpr h1⟩

/-- Subdividing adds and drops no id; emitting drops none. -/
theorem intersect_cover (cov : Nat → htm_cov) (alloc : Alloc) (L K root e : Nat)
    (cur : _htm_node) (rest : List _htm_node) (ids : List htm_range) (hroot : root ≤ 7)
    (hpath : PathInv root (cur :: rest)) (hlev : rest.length ≤ e) (he : e ≤ L)
    (hids : IdsInv L e (startPos L (cur :: rest)) ids)
    (hcov : cov cur.id = .HTM_INTERSECT ∨ cov cur.id = .HTM_CONTAINS) (x : Nat) :
    (intersect alloc L K root cur rest e ids).holds
      (fun w1 => (covers ids x ∨ (inSub L (cur :: rest) x ∧
          specVisit cov (L - rest.length) cur.id x) ∨ pendRest cov L rest x ∨
          pendRoots cov L root x) → headCover cov L w1 x)
      (fun out => (covers ids x ∨ (inSub L (cur :: rest) x ∧
          specVisit cov (L - rest.length) cur.id x) ∨ pendRest cov L rest x ∨
          pendRoots cov L root x) → covers out x) := by
  simp only [intersect]
  split_ifs with hlt
  · simp only [Next.holds, headCover]
    rw [headPending_make cov L root 0 cur rest x (by omega),
      inSub_specVisit_split cov L cur rest x (by omega) hcov]
    exact fun h => h
  · have h := emit_cover cov alloc L K root e cur rest ids hroot hpath hlev he hids x
    cases hem : emit alloc L K root (cur :: rest) cur.id e ids with
    | loop w1 =>
        rw [hem] at h
        exact fun hx => h (by tauto)
    | ret out =>
        rw [hem] at h
        exact fun hx => h (by tauto)
    | nomem => trivial

/-- Without a cap, subdividing and emitting at level `L` add no id that the walk without a cap
does not emit. -/
theorem intersect_exact (cov : Nat → htm_cov) (alloc : Alloc) (L K root : Nat)
    (cur : _htm_node) (rest : List _htm_node) (ids : List htm_range) (hroot : root ≤ 7)
    (hpath : PathInv root (cur :: rest)) (hlev : rest.length ≤ L)
    (hids : IdsInv L L (startPos L (cur :: rest)) ids)
    (hK : ∀ F ids1, F ≤ 16 * 4 ^ L → IdsInv L L F ids1 → ids1.length ≤ K)
    (hcov : cov cur.id = .HTM_INTERSECT ∨ cov cur.id = .HTM_CONTAINS) (x : Nat) :
    (intersect alloc L K root cur rest L ids).holds
      (fun w1 => w1.efflevel = L ∧ (headCover cov L w1 x → (covers ids x ∨
          (inSub L (cur :: rest) x ∧ specVisit cov (L - rest.length) cur.id x) ∨
          pendRest cov L rest x ∨ pendRoots cov L root x)))
      (fun out => covers out x → (covers ids x ∨ (inSub L (cur :: rest) x ∧
          specVisit cov (L - rest.length) cur.id x) ∨ pendRest cov L rest x ∨
          pendRoots cov L root x)) := by
  simp only [intersect]
  split_ifs with hlt
  · simp only [Next.holds, headCover]
    rw [headPending_make cov L root 0 cur rest x (by omega),
      inSub_specVisit_split cov L cur rest x (by omega) hcov]
    exact ⟨trivial, fun h => h⟩
  · have h := emit_exact cov alloc L K root L cur rest ids hroot hpath hlev (le_refl _) hids
      (fun ids1 h1 => hK _ ids1 (endPos_le L root hroot cur rest hpath hlev) h1) x
    have hd : L - rest.length = 0 := by omega
    have hsv : specVisit cov (L - rest.length) cur.id x := by
      rw [hd]
      apply specVisit_leaf
      rcases hcov with hc | hc <;> simp [hc]
    cases hem : emit alloc L K root (cur :: rest) cur.id L ids with
    | loop w1 =>
        rw [hem] at h
        exact ⟨h.1, fun hx => by have := h.2 hx; tauto⟩
    | ret out =>
        rw [hem] at h
        exact fun hx => by have := h hx; tauto
    | nomem => trivial

theorem inSub_length (L : Nat) (cur : _htm_node) (rest rest1 : List _htm_node) (x : Nat)
    (h : rest1.length = rest.length) : inSub L (cur :: rest1) x ↔ inSub L (cur :: rest) x := by
  simp only [inSub, h]

/-- One turn of the loop drops no id: what is covered or still to come stays so. -/
theorem step_cover (cov : Nat → htm_cov) (alloc : Alloc) (L K : Nat) (w : Walk)
    (hw : StructInv L w) (hi : IdsWalkInv L K w) (x : Nat) :
    (step cov alloc L K w).holds (fun w1 => headCover cov L w x → headCover cov L w1 x)
      (fun out => headCover cov L w x → covers out x) := by
  obtain ⟨root, path, e, ids⟩ := w
  obtain ⟨hroot, hpath, hlev, he⟩ := hw
  obtain ⟨hids, hcap⟩ := hi
  simp only at hroot hpath hlev he hids hcap
  cases path with
  | nil => exact absurd hpath (by simp [PathInv])
  | cons cur rest =>
    simp only [List.length_cons, Nat.add_le_add_iff_right] at hlev
    cases hc : cov cur.id with
    | HTM_CONTAINS =>
      simp only [step, headCover, headPending, hc, if_true]
      obtain ⟨p1, p2, p3, p4, -⟩ := prune_struct L root cur rest hroot hpath
      have h := intersect_cover cov alloc L K _ e cur _ ids p1 p3 (by omega) he
        (by rw [startPos_length L cur rest _ p4]; exact hids) (Or.inr hc) x
      rw [p4, inSub_length L cur rest _ x p4] at h
      exact h
    | HTM_INTERSECT =>
      simp only [step, headCover, headPending, hc, if_false, reduceCtorEq]
      exact intersect_cover cov alloc L K root e cur rest ids hroot hpath hlev he hids
        (Or.inl hc) x
    | HTM_INSIDE =>
      simp only [step, headCover, headPending, hc, if_false, reduceCtorEq]
      have h := emit_cover cov alloc L K root e cur rest ids hroot hpath hlev he hids x
      cases hem : emit alloc L K root (cur :: rest) cur.id e ids with
      | loop w1 =>
          rw [hem] at h
          exact fun hx => h (by tauto)
      | ret out =>
          rw [hem] at h
          exact fun hx => h (by tauto)
      | nomem => trivial
    | HTM_DISJOINT =>
      simp only [step, headCover, headPending, hc, if_false, reduceCtorEq]
      have h := ascend_cover cov L root e (cur :: rest) ids hroot hpath
        (by simp only [List.length_cons]; omega) x
      have hsv := specVisit_disjoint cov (L - rest.length) cur.id x hc
      simp only [postCover, List.tail_cons] at h
      cases hasc : ascend root (cur :: rest) e ids with
      | loop w1 =>
          rw [hasc] at h
          exact fun hx => h.2.mpr (by tauto)
      | ret out =>
          rw [hasc] at h
          exact fun hx => h.mpr (by tauto)
      | nomem => trivial

/-- Without a cap, one turn of the loop adds no id that the walk without a cap does not emit,
and `efflevel` stays at `L`. -/
theorem step_exact (cov : Nat → htm_cov) (alloc : Alloc) (L K : Nat) (w : Walk)
    (hw : StructInv L w) (hi : IdsWalkInv L K w) (heff : w.efflevel = L)
    (hK : ∀ F ids1, F ≤ 16 * 4 ^ L → IdsInv L L F ids1 → ids1.length ≤ K) (x : Nat) :
    (step cov alloc L K w).holds
      (fun w1 => w1.efflevel = L ∧ (headCover cov L w1 x → headCover cov L w x))
      (fun out => covers out x → headCover cov L w x) := by
  obtain ⟨root, path, e, ids⟩ := w
  simp only at heff
  subst heff
  obtain ⟨hroot, hpath, hlev, he⟩ := hw
  obtain ⟨hids, hcap⟩ := hi
  simp only at hroot hpath hlev he hids hcap
  cases path with
  | nil => exact absurd hpath (by simp [PathInv])
  | cons cur rest =>
    simp only [List.length_cons, Nat.add_le_add_iff_right] at hlev
    cases hc : cov cur.id with
    | HTM_CONTAINS =>
      simp only [step, headCover, headPending, hc, if_true]
      obtain ⟨p1, p2, p3, p4, -⟩ := prune_struct e root cur rest hroot hpath
      have h := intersect_exact cov alloc e K _ cur _ ids p1 p3 (by omega)
        (by rw [startPos_length e cur rest _ p4]; exact hids) hK (Or.inr hc) x
      rw [p4, inSub_length e cur rest _ x p4] at h
      exact h
    | HTM_INTERSECT =>
      simp only [step, headCover, headPending, hc, if_false, reduceCtorEq]
      exact intersect_exact cov alloc e K root cur rest ids hroot hpath hlev hids hK
        (Or.inl hc) x
    | HTM_INSIDE =>
      simp only [step, headCover, headPending, hc, if_false, reduceCtorEq]
      have h := emit_exact cov alloc e K root e cur rest ids hroot hpath hlev (le_refl _) hids
        (fun ids1 h1 => hK _ ids1 (endPos_le e root hroot cur rest hpath hlev) h1) x
      have hsv := specVisit_inside cov (e - rest.length) cur.id x hc
      cases hem : emit alloc e K root (cur :: rest) cur.id e ids with
      | loop w1 =>
          rw [hem] at h
          exact ⟨h.1, fun hx => by have := h.2 hx; tauto⟩
      | ret out =>
          rw [hem] at h
          exact fun hx => by have := h hx; tauto
      | nomem => trivial
    | HTM_DISJOINT =>
      simp only [step, headCover, headPending, hc, if_false, reduceCtorEq]
      have h := ascend_cover cov e root e (cur :: rest) ids hroot hpath
        (by simp only [List.length_cons]; omega) x
      simp only [postCover, List.tail_cons] at h
      cases hasc : ascend root (cur :: rest) e ids with
      | loop w1 =>
          rw [hasc] at h
          exact ⟨h.1, fun hx => by have := h.2.mp hx; tauto⟩
      | ret out =>
          rw [hasc] at h
          exact fun hx => by have := h.mp hx; tauto
      | nomem => trivial

/-! ## The claims on `htm_s2circle_ids` -/

/-- Every id covered or still to come at a state is covered by the list `run` returns. -/
theorem run_cover (cov : Nat → htm_cov) (alloc : Alloc) (L K : Nat) (x : Nat) :
    ∀ (fuel : Nat) (w : Walk), StructInv L w → IdsWalkInv L K w → headCover cov L w x →
      ∀ out, run cov alloc L K fuel w = some (.ok out) → covers out x
  | 0, _, _, _, _, out, h => by simp [run] at h
  | fuel + 1, w, hw, hi, hx, out, h => by
      have hs := step_ids cov alloc L K w hw hi
      have hc := step_cover cov alloc L K w hw hi x
      simp only [run] at h
      split at h
      · rename_i w1 hstep
        rw [hstep] at hs hc
        exact run_cover cov alloc L K x fuel w1 (step_struct cov alloc L K w w1 hw hstep).1 hs
          (hc hx) out h
      · rename_i ids1 hstep
        rw [hstep] at hc
        simp only [Option.some.injEq, Except.ok.injEq] at h
        subst h
        exact hc hx
      · simp at h

/-- Without a cap, every id of the list `run` returns was covered or still to come. -/
theorem run_exact (cov : Nat → htm_cov) (alloc : Alloc) (L K : Nat)
    (hK : ∀ F ids1, F ≤ 16 * 4 ^ L → IdsInv L L F ids1 → ids1.length ≤ K) (x : Nat) :
    ∀ (fuel : Nat) (w : Walk), StructInv L w → IdsWalkInv L K w → w.efflevel = L →
      ∀ out, run cov alloc L K fuel w = some (.ok out) → covers out x → headCover cov L w x
  | 0, _, _, _, _, out, h, _ => by simp [run] at h
  | fuel + 1, w, hw, hi, he, out, h, hx => by
      have hs := step_ids cov alloc L K w hw hi
      have hc := step_exact cov alloc L K w hw hi he hK x
      simp only [run] at h
      split at h
      · rename_i w1 hstep
        rw [hstep] at hs hc
        exact hc.2 (run_exact cov alloc L K hK x fuel w1
          (step_struct cov alloc L K w w1 hw hstep).1 hs hc.1 out h hx)
      · rename_i ids1 hstep
        rw [hstep] at hc
        simp only [Option.some.injEq, Except.ok.injEq] at h
        subst h
        exact hc hx
      · simp at h

theorem headCover_init (cov : Nat → htm_cov) (L x : Nat) :
    headCover cov L ⟨HTM_S0, _htm_path_root HTM_S0, L, []⟩ x ↔ specCover cov L x := by
  have h7 := pendRoots_seven cov L 7 x (le_refl _)
  have hnil : ¬ covers [] x := by simp [covers]
  simp only [headCover, HTM_S0, _htm_path_root, headPending, inSub, List.length_nil,
    Nat.sub_zero, prune, pendRest, HTM_N3, false_or, specCover, Nat.add_zero]
  by_cases hc : cov 8 = .HTM_CONTAINS
  · simp only [hc, if_true]
    constructor
    · rintro (h | ⟨h1, h2⟩ | h)
      · exact absurd h hnil
      · rw [h1]; exact ⟨le_refl _, by omega, fun i _ hi => by omega, h2⟩
      · exact absurd h h7
    · rintro ⟨h1, h2, h3, h4⟩
      by_cases h8 : x / 4 ^ L = 8
      · rw [h8] at h4; exact Or.inr (Or.inl ⟨h8, h4⟩)
      · exact absurd hc (by simpa using h3 0 (le_refl _) (by omega))
  · simp only [hc, if_false, pendRoots]
    constructor
    · rintro (h | ⟨h1, h2⟩ | ⟨h1, h2, h3, h4⟩)
      · exact absurd h hnil
      · rw [h1]; exact ⟨le_refl _, by omega, fun i _ hi => by omega, h2⟩
      · refine ⟨by omega, h2, fun i _ hi => ?_, h4⟩
        by_cases h0 : i = 0
        · subst h0; simpa using hc
        · exact h3 i (by omega) hi
    · rintro ⟨h1, h2, h3, h4⟩
      by_cases h8 : x / 4 ^ L = 8
      · rw [h8] at h4; exact Or.inr (Or.inl ⟨h8, h4⟩)
      · exact Or.inr (Or.inr ⟨by omega, h2, fun i hi1 hi2 => h3 i (by omega) hi2, h4⟩)

theorem size_max_bound (L : Nat) (hL : L ≤ HTM_MAX_LEVEL) (F : Nat) (ids1 : List htm_range)
    (hF : F ≤ 16 * 4 ^ L) (h : IdsInv L L F ids1) : ids1.length ≤ SIZE_MAX := by
  have h1 := gap_length (16 * 4 ^ L) ids1 (8 * 4 ^ L) h.sorted (fun r hr => by
    obtain ⟨r1, -, -, r4, r5⟩ := h.each r hr
    exact ⟨r1, r4, by omega⟩)
  have h2 : 4 ^ L ≤ 4 ^ 20 := Nat.pow_le_pow_right (by omega) hL
  simp only [SIZE_MAX]
  omega

/-- Where the `int` shift does not overflow, `int_shl` is the shift. -/
theorem int_shl_fit (ovf : Nat → Nat → Int) (a s : Nat) (hs : s < 32)
    (h : a * 2 ^ s ≤ 2 ^ 31 - 1) : int_shl ovf a s = ((a * 2 ^ s : Nat) : Int) := by
  simp only [int_shl]
  rw [if_pos ⟨hs, h⟩, Nat.shiftLeft_eq]

/-- The whole-sky range at a level of at most 13, where nothing overflows. -/
theorem whole_sky_fit (ovf : Nat → Nat → Int) (L : Nat) (hL : L ≤ 13) :
    int_shl ovf (8 + HTM_S0) (L * 2) = ((8 * 2 ^ (L * 2) : Nat) : Int) ∧
    int_sub (int_shl ovf (8 + HTM_NROOTS) (L * 2)) 1 = ((16 * 2 ^ (L * 2) - 1 : Nat) : Int) := by
  have hp : 2 ^ (L * 2) ≤ 2 ^ (13 * 2) := Nat.pow_le_pow_right (by omega) (by omega)
  have hpos : 0 < 2 ^ (L * 2) := by positivity
  simp only [HTM_S0, HTM_NROOTS, Nat.add_zero]
  rw [int_shl_fit ovf 8 (L * 2) (by omega) (by omega),
    int_shl_fit ovf (8 + 8) (L * 2) (by omega) (by omega)]
  refine ⟨rfl, ?_⟩
  simp only [int_sub, toInt32]
  omega

/-- C1: capping never loses coverage. For every classification, centre, radius, level and cap
`maxranges`, every id that lies in some range of the list returned with the cap `SIZE_MAX`
lies in some range of the list returned with the cap `maxranges`. -/
theorem htm_s2circle_ids_cap_covers (ovf : Nat → Nat → Int)
    (cov : htm_v3 → Dbl → Nat → htm_cov) (alloc1 alloc2 : Alloc)
    (ids1 ids2 : Option (List raw_range)) (center : Option htm_v3)
    (radius : Dbl) (level : Int) (maxranges : Nat) (outU outK : List raw_range)
    (hu : htm_s2circle_ids ovf cov alloc1 ids1 center radius level SIZE_MAX = some (.ok outU))
    (hk : htm_s2circle_ids ovf cov alloc2 ids2 center radius level maxranges
      = some (.ok outK)) :
    ∀ x, rawCovers outU x → rawCovers outK x := by
  obtain ⟨c, L, hc, hl, hL, hU⟩ := htm_s2circle_ids_ok_inv _ _ _ _ _ _ _ _ _ hu
  obtain ⟨c2, L2, hc2, hl2, -, hKK⟩ := htm_s2circle_ids_ok_inv _ _ _ _ _ _ _ _ _ hk
  have ecc : c2 = c := by rw [hc] at hc2; exact (Option.some.inj hc2).symm
  have eLL : L2 = L := by omega
  subst ecc eLL
  intro x hx
  rcases hU with ⟨u1, u2⟩ | ⟨u1, u2, u4⟩ | ⟨u1, u2, outUN, u3, u4⟩
  · subst u2; simp [rawCovers] at hx
  · rcases hKK with ⟨k1, k2⟩ | ⟨k1, k2, k4⟩ | ⟨k1, k2, outKN, k3, k4⟩
    · rw [u1] at k1; simp at k1
    · rw [k4, ← u4]; exact hx
    · rw [u2] at k2; simp at k2
  · rcases hKK with ⟨k1, k2⟩ | ⟨k1, k2, k4⟩ | ⟨k1, k2, outKN, k3, k4⟩
    · rw [u1] at k1; simp at k1
    · rw [u2] at k2; simp at k2
    · subst u4 k4
      obtain ⟨n, hn, hxn⟩ := (rawCovers_map outUN x).mp hx
      have hspec := run_exact (cov c2 radius) alloc1 L2 SIZE_MAX
        (fun F i hF hi => size_max_bound L2 hL F i hF hi) n _ _ (StructInv_init L2)
        (IdsWalkInv_init L2 SIZE_MAX) rfl outUN u3 hxn
      exact (rawCovers_map outKN x).mpr ⟨n, hn,
        run_cover (cov c2 radius) alloc2 L2 maxranges n _ _ (StructInv_init L2)
          (IdsWalkInv_init L2 maxranges) hspec outKN k3⟩

theorem htm_s2circle_ids_cap_covers_witness :
    htm_s2circle_ids wrapShl sampleCov sampleAlloc none (some sampleCenter) (.fin 1 0) 2 SIZE_MAX
        = some (.ok [⟨128, 131⟩, ⟨160, 175⟩, ⟨214, 214⟩]) ∧
    htm_s2circle_ids wrapShl sampleCov sampleAlloc none (some sampleCenter) (.fin 1 0) 2 2
        = some (.ok [⟨128, 143⟩, ⟨160, 175⟩, ⟨208, 223⟩]) ∧
    ∀ x, rawCovers [⟨128, 131⟩, ⟨160, 175⟩, ⟨214, 214⟩] x →
      rawCovers [⟨128, 143⟩, ⟨160, 175⟩, ⟨208, 223⟩] x :=
  ⟨rfl, rfl, htm_s2circle_ids_cap_covers wrapShl sampleCov sampleAlloc sampleAlloc none none
    (some sampleCenter) (.fin 1 0) 2 2 _ _ rfl rfl⟩

/-- Away from the overflow of the whole-sky branch (a radius below 180 degrees, or a level of
at most 13), the list `htm_s2circle_ids` returns is sorted and maximally coalesced: every range
has `min ≤ max` and starts after the end of the previous one plus 1. -/
theorem htm_s2circle_ids_sorted_of_fit (ovf : Nat → Nat → Int)
    (cov : htm_v3 → Dbl → Nat → htm_cov) (alloc : Alloc) (ids0 : Option (List raw_range))
    (center : Option htm_v3) (radius : Dbl) (level : Int) (maxranges : Nat)
    (hfit : radius.ge180 = false ∨ level ≤ 13) (out : List raw_range)
    (h : htm_s2circle_ids ovf cov alloc ids0 center radius level maxranges = some (.ok out)) :
    out.Chain' (fun a b => a.max + 1 < b.min) ∧ ∀ r ∈ out, r.min ≤ r.max := by
  obtain ⟨c, L, hc, hl, hL, hU⟩ := htm_s2circle_ids_ok_inv _ _ _ _ _ _ _ _ _ h
  rcases hU with ⟨u1, u2⟩ | ⟨u1, u2, u4⟩ | ⟨u1, u2, outN, u3, u4⟩
  · subst u2; simp
  · have hL13 : L ≤ 13 := by
      rcases hfit with hf | hf
      · rw [u2] at hf; simp at hf
      · omega
    obtain ⟨e1, e2⟩ := whole_sky_fit ovf L hL13
    rw [e1, e2] at u4
    subst u4
    refine ⟨List.chain'_singleton _, fun r hr => ?_⟩
    simp only [List.mem_singleton] at hr
    subst hr
    have hpos : 0 < 2 ^ (L * 2) := by positivity
    simp only
    omega
  · subst u4
    obtain ⟨s1, s2⟩ := IdsFinal_sorted (run_ids (cov c radius) alloc L maxranges _ _
      (StructInv_init L) (IdsWalkInv_init L maxranges) outN u3)
    constructor
    · rw [List.chain'_map]
      refine List.Chain'.imp ?_ s1
      intro a b hab
      simp only [htm_range.raw]
      omega
    · intro r hr
      obtain ⟨a, ha, rfl⟩ := List.mem_map.mp hr
      have := s2 a ha
      simp only [htm_range.raw]
      omega

/-- C2, the code at the failing input: for a radius of 180 degrees at level 15, on a machine
whose `int` shift keeps the low 32 bits, both shifts of lines 52-53 give 0 and
`htm_s2circle_ids` returns the list of the one range `[0, -1]`, whose `min` is above its
`max`. -/
theorem htm_s2circle_ids_whole_sky_level_15 :
    htm_s2circle_ids wrapShl sampleCov sampleAlloc none (some sampleCenter) (.fin 180 0) 15 100
      = some (.ok [⟨0, -1⟩]) ∧
    ¬ ∀ r ∈ ([⟨0, -1⟩] : List raw_range), r.min ≤ r.max :=
  ⟨rfl, by decide⟩

/-- C3: for every cap `maxranges ≥ 4`, `htm_s2circle_ids` has a result, and the list it
returns has at most `maxranges` ranges, for every classification, centre, radius and level,
whatever an overflowing `int` shift of the whole-sky branch gives. -/
theorem htm_s2circle_ids_length_le (ovf : Nat → Nat → Int)
    (cov : htm_v3 → Dbl → Nat → htm_cov) (alloc : Alloc) (ids0 : Option (List raw_range))
    (center : Option htm_v3) (radius : Dbl) (level : Int) (maxranges : Nat)
    (hK : 4 ≤ maxranges) :
    htm_s2circle_ids ovf cov alloc ids0 center radius level maxranges ≠ none ∧
    ∀ out, htm_s2circle_ids ovf cov alloc ids0 center radius level maxranges = some (.ok out) →
      out.length ≤ maxranges := by
  refine ⟨htm_s2circle_ids_defined _ _ _ _ _ _ _ _, fun out h => ?_⟩
  obtain ⟨c, L, hc, hl, hL, hU⟩ := htm_s2circle_ids_ok_inv _ _ _ _ _ _ _ _ _ h
  rcases hU with ⟨u1, u2⟩ | ⟨u1, u2, u4⟩ | ⟨u1, u2, outN, u3, u4⟩
  · subst u2; simp
  · subst u4; simp only [List.length_singleton]; omega
  · subst u4
    rw [List.length_map]
    exact IdsFinal_length (run_ids (cov c radius) alloc L maxranges _ _ (StructInv_init L)
      (IdsWalkInv_init L maxranges) outN u3) hK

theorem htm_s2circle_ids_length_le_witness :
    4 ≤ 4 ∧
    (htm_s2circle_ids wrapShl manyCov sampleAlloc none (some sampleCenter) (.fin 1 0) 20 4
        = some (.ok [⟨8796093022208, 9895604649983⟩, ⟨10995116277760, 12094627905535⟩,
            ⟨13194139533312, 14293651161087⟩, ⟨15393162788864, 16492674416639⟩]) ∧
      List.length ([⟨8796093022208, 9895604649983⟩, ⟨10995116277760, 12094627905535⟩,
            ⟨13194139533312, 14293651161087⟩, ⟨15393162788864, 16492674416639⟩]
              : List raw_range) ≤ 4) ∧
    (htm_s2circle_ids wrapShl manyCov sampleAlloc none (some sampleCenter) (.fin 180 0) 20 4
        = some (.ok [⟨2048, 4095⟩]) ∧
      List.length ([⟨2048, 4095⟩] : List raw_range) ≤ 4) :=
  ⟨le_refl _,
    ⟨rfl, (htm_s2circle_ids_length_le wrapShl manyCov sampleAlloc none (some sampleCenter)
      (.fin 1 0) 20 4 (le_refl _)).2 _ rfl⟩,
    ⟨rfl, (htm_s2circle_ids_length_le wrapShl manyCov sampleAlloc none (some sampleCenter)
      (.fin 180 0) 20 4 (le_refl _)).2 _ rfl⟩⟩
/-- C4, the claim as stated fails: at level 6 the list returned for a radius of 180 degrees
holds one range, `[8 << 12, (16 << 12) - 1]`, not the eight ranges of the roots. -/
theorem htm_s2circle_ids_full_sky_counterexample :
    Dbl.ge180 (.fin 180 0) = true ∧
    htm_s2circle_ids wrapShl sampleCov sampleAlloc none (some sampleCenter) (.fin 180 0) 6 100
      = some (.ok [⟨32768, 65535⟩]) ∧
    ([⟨32768, 65535⟩] : List raw_range) ≠
      (List.range 8).map
        (fun r => htm_range.raw ⟨(8 + r) <<< 12, ((8 + r + 1) <<< 12) - 1⟩) :=
  ⟨by decide, rfl, by decide⟩

/-- C4 (amended): for a radius of 180 degrees or more and a level `L` in 0..13, with storage
for one range, `htm_s2circle_ids` returns the single range `[8 << 2L, (16 << 2L) - 1]`, which
is the union of the eight ranges `[(8+r) << 2L, ((8+r+1) << 2L) - 1]` of the roots. -/
theorem htm_s2circle_ids_full_sky (ovf : Nat → Nat → Int)
    (cov : htm_v3 → Dbl → Nat → htm_cov) (alloc : Alloc)
    (ids0 : Option (List raw_range)) (center : htm_v3) (radius : Dbl) (L : Nat)
    (maxranges : Nat) (hr : radius.ge180 = true) (hL : L ≤ 13)
    (hinit : ids0.isSome = true ∨ alloc.initOk = true) (hlim : 1 ≤ alloc.limit) :
    htm_s2circle_ids ovf cov alloc ids0 (some center) radius L maxranges
      = some (.ok [htm_range.raw ⟨8 <<< (2 * L), (16 <<< (2 * L)) - 1⟩]) ∧
    ∀ x, (8 <<< (2 * L) ≤ x ∧ x ≤ (16 <<< (2 * L)) - 1) ↔
      ∃ r, r < 8 ∧ (8 + r) <<< (2 * L) ≤ x ∧ x ≤ ((8 + r + 1) <<< (2 * L)) - 1 := by
  have h0 := ge180_not_ltZero radius hr
  have hp : 2 ^ (L * 2) ≤ 2 ^ (13 * 2) := Nat.pow_le_pow_right (by omega) (by omega)
  have hpos : 0 < 2 ^ (L * 2) := by positivity
  constructor
  · have hi : ¬ (ids0.isNone = true ∧ alloc.initOk = false) := by
      rintro ⟨h1, h2⟩
      rcases hinit with h | h
      · cases ids0 <;> simp at h h1
      · rw [h] at h2; simp at h2
    have hlev : ¬ ((L : Int) < 0 ∨ (L : Int) > (HTM_MAX_LEVEL : Nat)) := by
      simp only [HTM_MAX_LEVEL]; omega
    obtain ⟨e1, e2⟩ := whole_sky_fit ovf L hL
    simp only [htm_s2circle_ids, hlev, hi, h0, hr, if_false, if_true, Int.toNat_ofNat,
      Bool.false_eq_true, e1, e2, _htm_ids_add_first, hlim, htm_range.raw, Nat.shiftLeft_eq,
      Nat.mul_comm 2 L]
  · intro x
    simp only [Nat.shiftLeft_eq, Nat.mul_comm 2 L]
    generalize 2 ^ (L * 2) = B at hpos
    constructor
    · rintro ⟨h1, h2⟩
      refine ⟨x / B - 8, ?_, ?_, ?_⟩
      · have : x / B < 16 := (Nat.div_lt_iff_lt_mul hpos).mpr (by omega)
        omega
      · have h8 : 8 ≤ x / B := (Nat.le_div_iff_mul_le hpos).mpr h1
        have e : 8 + (x / B - 8) = x / B := by omega
        rw [e]
        exact Nat.div_mul_le_self _ _
      · have h8 : 8 ≤ x / B := (Nat.le_div_iff_mul_le hpos).mpr h1
        have e : 8 + (x / B - 8) + 1 = x / B + 1 := by omega
        rw [e, Nat.add_mul, Nat.one_mul]
        have := Nat.lt_div_mul_add hpos (a := x)
        omega
    · rintro ⟨r, hr8, h1, h2⟩
      have e1 : 8 * B ≤ (8 + r) * B := Nat.mul_le_mul_right _ (by omega)
      have e2 : (8 + r + 1) * B ≤ 16 * B := Nat.mul_le_mul_right _ (by omega)
      omega

theorem htm_s2circle_ids_full_sky_witness :
    htm_s2circle_ids wrapShl sampleCov sampleAlloc none (some sampleCenter) (.fin 180 0)
        (6 : Nat) 100
      = some (.ok [htm_range.raw ⟨8 <<< (2 * 6), (16 <<< (2 * 6)) - 1⟩]) ∧
    ∀ x, (8 <<< (2 * 6) ≤ x ∧ x ≤ (16 <<< (2 * 6)) - 1) ↔
      ∃ r, r < 8 ∧ (8 + r) <<< (2 * 6) ≤ x ∧ x ≤ ((8 + r + 1) <<< (2 * 6)) - 1 :=
  htm_s2circle_ids_full_sky wrapShl sampleCov sampleAlloc none sampleCenter (.fin 180 0) 6 100
    (by decide) (by decide) (Or.inr rfl) (by decide)

/-! ## Pruning after `HTM_CONTAINS` -/

theorem Reachable_inv (cov : Nat → htm_cov) (alloc : Alloc) (L K : Nat) (w : Walk)
    (h : Reachable cov alloc L K w) : StructInv L w ∧ IdsWalkInv L K w := by
  induction h with
  | init => exact ⟨StructInv_init L, IdsWalkInv_init L K⟩
  | step _ hs ih =>
      have h1 := step_ids cov alloc L K _ ih.1 ih.2
      rw [hs] at h1
      exact ⟨(step_struct cov alloc L K _ _ ih.1 hs).1, h1⟩

theorem Later_reachable (cov : Nat → htm_cov) (alloc : Alloc) (L K : Nat) (w w2 : Walk)
    (hw : Reachable cov alloc L K w) (h : Later cov alloc L K w w2) :
    Reachable cov alloc L K w2 := by
  induction h with
  | next hs => exact Reachable.step hw hs
  | more _ hs ih => exact Reachable.step ih hs

theorem popDone_suffix : ∀ rest : List _htm_node, popDone rest <:+ rest
  | [] => List.suffix_refl _
  | p :: up => by
      simp only [popDone]
      split_ifs
      · exact (popDone_suffix up).trans (List.suffix_cons _ _)
      · exact List.suffix_refl _

theorem popDone_head : ∀ (rest : List _htm_node) (n : _htm_node) (up : List _htm_node),
    popDone rest = n :: up → n.child ≠ 4
  | [], n, up, h => by simp [popDone] at h
  | p :: rest, n, up, h => by
      simp only [popDone] at h
      split_ifs at h with h4
      · exact popDone_head rest n up h
      · simp only [List.cons.injEq] at h
        rw [← h.1]; exact h4

theorem PathInv_suffix {root : Nat} {S path : List _htm_node} (hp : PathInv root path)
    (hs : S <:+ path) (hne : S ≠ []) : PathInv root S := by
  rw [List.suffix_iff_eq_drop] at hs
  rw [hs]
  apply PathInv_drop _ hp
  have h1 : 0 < S.length := List.length_pos.mpr hne
  have h2 : 0 < path.length := List.length_pos.mpr (PathInv_ne_nil hp)
  have h3 : S.length ≤ path.length := by
    have := congrArg List.length hs
    simp only [List.length_drop] at this
    omega
  omega

/-- Where the ascent lands lies after the end of every node it pops. -/
theorem popDone_frontier_gen (root L : Nat) : ∀ (c : _htm_node) (rest : List _htm_node),
    PathInv root (c :: rest) → rest.length ≤ L →
    ∀ m, (popDone rest).length + m < (c :: rest).length →
      (popDone rest = [] → endPos L ((c :: rest).drop m) ≤ (8 + root + 1) * 4 ^ L) ∧
      ∀ n up, popDone rest = n :: up →
        endPos L ((c :: rest).drop m) ≤ (n.id * 4 + n.child) * 4 ^ (L - (up.length + 1))
  | c, [], h, hl, m, hm => by
      simp only [popDone, List.length_nil, List.length_singleton] at hm
      have : m = 0 := by omega
      subst this
      exact popDone_frontier root L c [] h hl
  | c, p :: up, h, hl, m, hm => by
      simp only [List.length_cons] at hl
      cases m with
      | zero => exact popDone_frontier root L c (p :: up) h (by simpa using hl)
      | succ m =>
          simp only [List.drop_succ_cons]
          simp only [popDone] at hm ⊢
          split_ifs at hm ⊢ with h4
          · exact popDone_frontier_gen root L p up (PathInv_tail h) (by omega) m
              (by simp only [List.length_cons] at hm ⊢; omega)
          · simp only [List.length_cons] at hm
            omega

/-- The state the ascent goes to: its root, its path above the node it lands on, and its
frontier, past the end of every node popped. -/
theorem ascend_frontier (L root e : Nat) (path : List _htm_node) (ids : List htm_range)
    (hpath : PathInv root path) (hlev : path.length ≤ L + 1) (w1 : Walk)
    (h : ascend root path e ids = .loop w1) :
    (∀ m, (popDone path.tail).length + m < path.length →
      endPos L (path.drop m) ≤ startPos L w1.path) ∧
    ((popDone path.tail = [] ∧ root + 1 ≤ 7 ∧ w1.root = root + 1) ∨
     (∃ n up a b, popDone path.tail = n :: up ∧ w1.path = a :: b :: up ∧ w1.root = root)) := by
  cases path with
  | nil => exact absurd hpath (by simp [PathInv])
  | cons c rest =>
    simp only [List.length_cons] at hlev
    have hf := popDone_frontier_gen root L c rest hpath (by omega)
    obtain ⟨-, -, hpop⟩ := popDone_spec root L c rest hpath
    simp only [ascend, List.tail_cons] at h ⊢
    cases hp : popDone rest with
    | nil =>
        rw [hp] at h
        simp only [] at h
        split_ifs at h with hr
        simp only [Next.loop.injEq] at h
        subst h
        simp only [HTM_N3] at hr
        refine ⟨fun m hm => ?_, Or.inl ⟨rfl, hr, rfl⟩⟩
        have := (hf m (by rw [hp]; exact hm)).1 hp
        simp only [_htm_path_root, startPos, List.length_nil, Nat.sub_zero]
        have e1 : 8 + root + 1 = 8 + (root + 1) := by omega
        rw [← e1]; exact this
    | cons n up =>
        rw [hp] at h
        obtain ⟨-, hc1, hc3⟩ := hpop n up hp
        simp only [] at h
        have key : ∀ j, n.child = j → w1 = ⟨root, _htm_node_make j n ++ up, e, ids⟩ →
            (∀ m, (n :: up).length + m < (c :: rest).length →
              endPos L ((c :: rest).drop m) ≤ startPos L w1.path) ∧
            ((n :: up = [] ∧ root + 1 ≤ 7 ∧ w1.root = root + 1) ∨
             (∃ n1 up1 a b, n :: up = n1 :: up1 ∧ w1.path = a :: b :: up1 ∧
               w1.root = root)) := by
          intro j hj hw
          subst hw
          refine ⟨fun m hm => ?_, Or.inr ⟨n, up, _, _, rfl, make_append j n up, rfl⟩⟩
          have := (hf m (by rw [hp]; exact hm)).2 n up hp
          rw [make_append]
          simp only [startPos, List.length_cons, Nat.shiftLeft_eq]
          rw [hj] at this
          exact this
        split_ifs at h with h1 h2
        · exact key 1 h1 (by simpa using h.symm)
        · exact key 2 h2 (by simpa using h.symm)
        · exact key 3 (by omega) (by simpa using h.symm)

theorem endPos_suffix_le {root L : Nat} {S path : List _htm_node} (hS : PathInv root S)
    (hl : S.length ≤ L + 1) (hs : path <:+ S) (hne : path ≠ []) :
    endPos L S ≤ endPos L path := by
  rw [List.suffix_iff_eq_drop] at hs
  rw [hs]
  apply @endPos_drop_le root L _ S hS hl
  have h1 : 0 < path.length := List.length_pos.mpr hne
  have h2 : 0 < S.length := List.length_pos.mpr (PathInv_ne_nil hS)
  omega

/-- After an ascent from a path that ends with `S` or is the end of `S`, the walk is strictly
below the top of `S` or past its end. -/
theorem ascend_phase (L root e pid : Nat) (up0 path : List _htm_node) (ids : List htm_range)
    (hpath : PathInv root path) (hlev : path.length ≤ L + 1)
    (hS : PathInv root (⟨pid, 4⟩ :: up0)) (hSl : (⟨pid, 4⟩ :: up0 : List _htm_node).length ≤ L + 1)
    (hsuf : (⟨pid, 4⟩ :: up0 : List _htm_node) <:+ path ∨ path <:+ ⟨pid, 4⟩ :: up0)
    (w1 : Walk) (h : ascend root path e ids = .loop w1) :
    PhaseInv L (⟨pid, 4⟩ :: up0) w1 := by
  obtain ⟨hf, hland⟩ := ascend_frontier L root e path ids hpath hlev w1 h
  have hne := PathInv_ne_nil hpath
  have hpos : 0 < path.length := List.length_pos.mpr hne
  have hlen : (popDone path.tail).length < path.length := by
    have := (popDone_suffix path.tail).length_le
    simp only [List.length_tail] at this
    omega
  rcases hsuf with hsuf | hsuf
  · have hl2 : (popDone path.tail) <:+ path := (popDone_suffix _).trans (List.tail_suffix _)
    rcases List.suffix_or_suffix_of_suffix hsuf hl2 with h1 | h1
    · -- the ascent lands above `S`
      rcases hland with ⟨h2, -, -⟩ | ⟨n, up, a, b, h2, h3, -⟩
      · rw [h2] at h1
        have := h1.length_le
        simp at this
      · rw [h2] at h1
        rw [List.suffix_cons_iff] at h1
        rcases h1 with h1 | h1
        · have := popDone_head _ n up h2
          simp only [List.cons.injEq] at h1
          rw [← h1.1] at this
          exact absurd rfl this
        · left
          refine ⟨a, b :: up, h3, h1.trans (List.suffix_cons _ _), ?_⟩
          have := h1.length_le
          simp only [List.length_cons] at this ⊢
          omega
    · -- the ascent pops `S`
      right
      have hlt : (popDone path.tail).length < (⟨pid, 4⟩ :: up0 : List _htm_node).length := by
        rcases Nat.lt_or_ge (popDone path.tail).length
          (⟨pid, 4⟩ :: up0 : List _htm_node).length with h2 | h2
        · exact h2
        · have heq := h1.eq_of_length_le h2
          have := popDone_head path.tail ⟨pid, 4⟩ up0 heq
          exact absurd rfl this
      have hSd := List.suffix_iff_eq_drop.mp hsuf
      have := hf (path.length - (⟨pid, 4⟩ :: up0 : List _htm_node).length) (by
        have := hsuf.length_le
        omega)
      rw [← hSd] at this
      exact this
  · right
    exact le_trans (endPos_suffix_le hS hSl hsuf hne) (by simpa using hf 0 (by omega))

/-- After emitting from a path whose end below `curnode` ends with `S`, the walk is strictly
below the top of `S` or past its end. -/
theorem emit_phase (alloc : Alloc) (L K root e pid : Nat) (up0 : List _htm_node)
    (cur : _htm_node) (rest : List _htm_node) (ids : List htm_range)
    (hpath : PathInv root (cur :: rest)) (hlev : rest.length ≤ e) (he : e ≤ L)
    (hsuf : (⟨pid, 4⟩ :: up0 : List _htm_node) <:+ rest) (w1 : Walk)
    (h : emit alloc L K root (cur :: rest) cur.id e ids = .loop w1) :
    PhaseInv L (⟨pid, 4⟩ :: up0) w1 := by
  simp only [emit] at h
  split at h
  · exact absurd h (by simp)
  · rename_i ids1 hadd
    have hlen : (cur :: rest).length ≤ e + 1 := by simpa using hlev
    obtain ⟨m, r1, r2, r3, r4⟩ := reduce_struct L K e (cur :: rest) ids1 (by simp) hlen
    generalize reduce L K e (cur :: rest) ids1 = r at h r1 r3 r4
    obtain ⟨e1, path1, ids2⟩ := r
    simp only at h r1 r3 r4
    have hS1 : (⟨pid, 4⟩ :: up0 : List _htm_node) <:+ cur :: rest :=
      hsuf.trans (List.suffix_cons _ _)
    have hp1 : path1 <:+ cur :: rest := by rw [r1]; exact List.drop_suffix _ _
    have hSl := hsuf.length_le
    exact ascend_phase L root e1 pid up0 path1 ids2
      (by rw [r1]; exact PathInv_drop m hpath r2) (by omega)
      (PathInv_suffix hpath hS1 (by simp)) (by omega)
      (List.suffix_or_suffix_of_suffix hS1 hp1) w1 h

/-- After subdividing or emitting from a path whose end below `curnode` ends with `S`, the
walk is strictly below the top of `S` or past its end. -/
theorem intersect_phase (alloc : Alloc) (L K root e pid : Nat) (up0 : List _htm_node)
    (cur : _htm_node) (rest : List _htm_node) (ids : List htm_range)
    (hpath : PathInv root (cur :: rest)) (hlev : rest.length ≤ e) (he : e ≤ L)
    (hsuf : (⟨pid, 4⟩ :: up0 : List _htm_node) <:+ rest) (w1 : Walk)
    (h : intersect alloc L K root cur rest e ids = .loop w1) :
    PhaseInv L (⟨pid, 4⟩ :: up0) w1 := by
  simp only [intersect] at h
  split_ifs at h with hlt
  · simp only [Next.loop.injEq] at h
    subst h
    left
    refine ⟨_, _, make_append 0 cur rest, hsuf.trans (List.suffix_cons _ _), ?_⟩
    have := hsuf.length_le
    simp only [List.length_cons] at this ⊢
    omega
  · exact emit_phase alloc L K root e pid up0 cur rest ids hpath hlev he hsuf w1 h

theorem startPos_le_endPos (L : Nat) (path : List _htm_node) :
    startPos L path ≤ endPos L path := by
  cases path with
  | nil => simp [startPos, endPos]
  | cons c rest =>
      simp only [startPos, endPos]
      exact Nat.mul_le_mul_right _ (by omega)

theorem emit_frontier (alloc : Alloc) (L K root e : Nat) (cur : _htm_node)
    (rest : List _htm_node) (ids : List htm_range) (hpath : PathInv root (cur :: rest))
    (hlev : rest.length ≤ e) (he : e ≤ L) (w1 : Walk)
    (h : emit alloc L K root (cur :: rest) cur.id e ids = .loop w1) :
    endPos L (cur :: rest) ≤ startPos L w1.path := by
  simp only [emit] at h
  split at h
  · exact absurd h (by simp)
  · rename_i ids1 hadd
    have hlen : (cur :: rest).length ≤ e + 1 := by simpa using hlev
    obtain ⟨m, r1, r2, r3, r4⟩ := reduce_struct L K e (cur :: rest) ids1 (by simp) hlen
    generalize reduce L K e (cur :: rest) ids1 = r at h r1 r3 r4
    obtain ⟨e1, path1, ids2⟩ := r
    simp only at h r1 r3 r4
    have hp1 : PathInv root path1 := by rw [r1]; exact PathInv_drop m hpath r2
    obtain ⟨hf, -⟩ := ascend_frontier L root e1 path1 ids2 hp1 (by omega) w1 h
    have h0 := hf 0 (by
      have := (popDone_suffix path1.tail).length_le
      have := List.length_pos.mpr (PathInv_ne_nil hp1)
      simp only [List.length_tail] at *
      omega)
    have h1 := @endPos_drop_le root L m (cur :: rest) hpath (by omega) r2
    rw [← r1] at h1
    simp only [List.drop_zero] at h0
    omega

/-- The frontier never goes back. -/
theorem step_frontier (cov : Nat → htm_cov) (alloc : Alloc) (L K : Nat) (w w1 : Walk)
    (hw : StructInv L w) (h : step cov alloc L K w = .loop w1) :
    startPos L w.path ≤ startPos L w1.path := by
  obtain ⟨root, path, e, ids⟩ := w
  obtain ⟨hroot, hpath, hlev, he⟩ := hw
  simp only at hroot hpath hlev he ⊢
  cases path with
  | nil => exact absurd hpath (by simp [PathInv])
  | cons cur rest =>
    simp only [List.length_cons, Nat.add_le_add_iff_right] at hlev
    have hse := startPos_le_endPos L (cur :: rest)
    have hint : ∀ root1 rest1, PathInv root1 (cur :: rest1) → rest1.length = rest.length →
        intersect alloc L K root1 cur rest1 e ids = .loop w1 →
        startPos L (cur :: rest) ≤ startPos L w1.path := by
      intro root1 rest1 hp1 hl1 hi
      simp only [intersect] at hi
      split_ifs at hi with hlt
      · simp only [Next.loop.injEq] at hi
        subst hi
        simp only
        rw [startPos_make_zero L cur rest1 (by omega), startPos_length L cur rest rest1 hl1]
      · have := emit_frontier alloc L K root1 e cur rest1 ids hp1 (by omega) he w1 hi
        have e1 : endPos L (cur :: rest1) = endPos L (cur :: rest) := by
          simp only [endPos, hl1]
        omega
    cases hc : cov cur.id with
    | HTM_CONTAINS =>
      simp only [step, hc] at h
      obtain ⟨p1, p2, p3, p4, -⟩ := prune_struct L root cur rest hroot hpath
      exact hint _ _ p3 p4 h
    | HTM_INTERSECT =>
      simp only [step, hc] at h
      exact hint _ _ hpath rfl h
    | HTM_INSIDE =>
      simp only [step, hc] at h
      have := emit_frontier alloc L K root e cur rest ids hpath hlev he w1 h
      omega
    | HTM_DISJOINT =>
      simp only [step, hc] at h
      obtain ⟨hf, -⟩ := ascend_frontier L root e (cur :: rest) ids hpath
        (by simp only [List.length_cons]; omega) w1 h
      have h0 := hf 0 (by
        have := (popDone_suffix rest).length_le
        simp only [List.tail_cons, List.length_cons]
        omega)
      simp only [List.drop_zero] at h0
      omega

/-- Once the children of a node are pruned, every later turn keeps the walk below the child
being visited or past the end of the node. -/
theorem step_phase (cov : Nat → htm_cov) (alloc : Alloc) (L K pid : Nat)
    (up0 : List _htm_node) (w w1 : Walk) (hw : StructInv L w)
    (hph : PhaseInv L (⟨pid, 4⟩ :: up0) w) (h : step cov alloc L K w = .loop w1) :
    PhaseInv L (⟨pid, 4⟩ :: up0) w1 := by
  rcases hph with ⟨t, rest, hp, hsuf, hlt⟩ | hB
  · obtain ⟨root, path, e, ids⟩ := w
    obtain ⟨hroot, hpath, hlev, he⟩ := hw
    simp only at hroot hpath hlev he hp
    subst hp
    simp only [List.length_cons, Nat.add_le_add_iff_right] at hlev hlt
    cases hc : cov t.id with
    | HTM_CONTAINS =>
      simp only [step, hc] at h
      obtain ⟨p1, p2, p3, p4, -⟩ := prune_struct L root t rest hroot hpath
      refine intersect_phase alloc L K _ e pid up0 t _ ids p3 (by omega) he ?_ w1 h
      cases rest with
      | nil => simp at hlt
      | cons q ups =>
          simp only [prune]
          rw [List.suffix_cons_iff] at hsuf
          rcases hsuf with hsuf | hsuf
          · have := congrArg List.length hsuf
            simp only [List.length_cons] at this hlt
            omega
          · exact hsuf.trans (List.suffix_cons _ _)
    | HTM_INTERSECT =>
      simp only [step, hc] at h
      exact intersect_phase alloc L K root e pid up0 t rest ids hpath hlev he hsuf w1 h
    | HTM_INSIDE =>
      simp only [step, hc] at h
      exact emit_phase alloc L K root e pid up0 t rest ids hpath hlev he hsuf w1 h
    | HTM_DISJOINT =>
      simp only [step, hc] at h
      have hS1 : (⟨pid, 4⟩ :: up0 : List _htm_node) <:+ t :: rest :=
        hsuf.trans (List.suffix_cons _ _)
      have hSl := hsuf.length_le
      exact ascend_phase L root e pid up0 (t :: rest) ids hpath
        (by simp only [List.length_cons]; omega) (PathInv_suffix hpath hS1 (by simp))
        (by omega) (Or.inl hS1) w1 h
  · right
    exact le_trans hB (step_frontier cov alloc L K w w1 hw h)

theorem ascend_rootPhase (L e : Nat) (path : List _htm_node) (ids : List htm_range)
    (hpath : PathInv 7 path) (hlev : path.length ≤ L + 1) (w1 : Walk)
    (h : ascend 7 path e ids = .loop w1) : RootPhase w1 := by
  obtain ⟨-, hland⟩ := ascend_frontier L 7 e path ids hpath hlev w1 h
  rcases hland with ⟨-, h2, -⟩ | ⟨n, up, a, b, -, h3, h4⟩
  · omega
  · exact ⟨h4, by rw [h3]; simp⟩

theorem emit_rootPhase (alloc : Alloc) (L K e : Nat) (cur : _htm_node)
    (rest : List _htm_node) (ids : List htm_range) (hpath : PathInv 7 (cur :: rest))
    (hlev : rest.length ≤ e) (he : e ≤ L) (w1 : Walk)
    (h : emit alloc L K 7 (cur :: rest) cur.id e ids = .loop w1) : RootPhase w1 := by
  simp only [emit] at h
  split at h
  · exact absurd h (by simp)
  · rename_i ids1 hadd
    obtain ⟨m, r1, r2, r3, r4⟩ := reduce_struct L K e (cur :: rest) ids1 (by simp)
      (by simp only [List.length_cons]; omega)
    generalize reduce L K e (cur :: rest) ids1 = r at h r1 r3 r4
    obtain ⟨e1, path1, ids2⟩ := r
    simp only at h r1 r3 r4
    exact ascend_rootPhase L e1 path1 ids2 (by rw [r1]; exact PathInv_drop m hpath r2)
      (by omega) w1 h

/-- After subdividing or emitting with the `for` variable at `HTM_N3`, the walk is below the
root (or over). -/
theorem intersect_rootPhase (alloc : Alloc) (L K e : Nat) (cur : _htm_node)
    (rest : List _htm_node) (ids : List htm_range) (hpath : PathInv 7 (cur :: rest))
    (hlev : rest.length ≤ e) (he : e ≤ L) (w1 : Walk)
    (h : intersect alloc L K 7 cur rest e ids = .loop w1) : RootPhase w1 := by
  simp only [intersect] at h
  split_ifs at h with hlt
  · simp only [Next.loop.injEq] at h
    subst h
    exact ⟨rfl, by rw [make_append]; simp⟩
  · exact emit_rootPhase alloc L K e cur rest ids hpath hlev he w1 h

/-- Once the other roots are pruned, every later turn keeps the walk below the root. -/
theorem step_rootPhase (cov : Nat → htm_cov) (alloc : Alloc) (L K : Nat) (w w1 : Walk)
    (hw : StructInv L w) (hph : RootPhase w) (h : step cov alloc L K w = .loop w1) :
    RootPhase w1 := by
  obtain ⟨root, path, e, ids⟩ := w
  obtain ⟨hroot, hpath, hlev, he⟩ := hw
  obtain ⟨hr7, hl2⟩ := hph
  simp only [HTM_N3] at hroot hpath hlev he hr7 hl2
  subst hr7
  cases path with
  | nil => exact absurd hpath (by simp [PathInv])
  | cons cur rest =>
    simp only [List.length_cons, Nat.add_le_add_iff_right] at hlev hl2
    cases hc : cov cur.id with
    | HTM_CONTAINS =>
      simp only [step, hc] at h
      cases rest with
      | nil => simp at hl2
      | cons q ups =>
        obtain ⟨p1, p2, p3, p4, -⟩ := prune_struct L 7 cur (q :: ups) hroot hpath
        simp only [prune] at h p3 p4
        exact intersect_rootPhase alloc L K e cur _ ids p3 (by omega) he w1 h
    | HTM_INTERSECT =>
      simp only [step, hc] at h
      exact intersect_rootPhase alloc L K e cur rest ids hpath hlev he w1 h
    | HTM_INSIDE =>
      simp only [step, hc] at h
      exact emit_rootPhase alloc L K e cur rest ids hpath hlev he w1 h
    | HTM_DISJOINT =>
      simp only [step, hc] at h
      exact ascend_rootPhase L e _ ids hpath (by simp only [List.length_cons]; omega) w1 h

/-- While the walk is below a child of `pid` or past the end of `pid`, `curnode` is not a child
of `pid`. -/
theorem phase_not_child (L pid : Nat) (up0 : List _htm_node) (w : Walk) (hw : StructInv L w)
    (hS : PathInv 7 (⟨pid, 4⟩ :: up0)) (hSl : up0.length + 1 ≤ L)
    (hph : PhaseInv L (⟨pid, 4⟩ :: up0) w) (t : _htm_node) (rest : List _htm_node)
    (hp : w.path = t :: rest) : t.id / 4 ≠ pid := by
  obtain ⟨hroot, hpath, hlev, he⟩ := hw
  rw [hp] at hpath hlev
  simp only [List.length_cons, Nat.add_le_add_iff_right] at hlev
  obtain ⟨b1, b2⟩ := level_bound hroot t rest hpath
  obtain ⟨s1, s2⟩ := level_bound (le_refl 7) ⟨pid, 4⟩ up0 hS
  simp only at s1 s2
  intro hchild
  have hu2 : (4 : Nat) ^ (up0.length + 2) = 16 * 4 ^ up0.length := by
    rw [pow_succ, pow_succ]; omega
  rcases hph with ⟨t1, rest1, hp1, hsuf, hlt⟩ | hB
  · rw [hp] at hp1
    simp only [List.cons.injEq] at hp1
    obtain ⟨-, rfl⟩ := hp1
    simp only [List.length_cons] at hlt
    have : (4 : Nat) ^ (up0.length + 2) ≤ 4 ^ rest.length :=
      Nat.pow_le_pow_right (by omega) (by omega)
    omega
  · rw [hp] at hB
    simp only [endPos, startPos] at hB
    have hj : rest.length = up0.length + 1 := by
      rcases Nat.lt_trichotomy rest.length (up0.length + 1) with h1 | h1 | h1
      · have : (4 : Nat) ^ rest.length ≤ 4 ^ up0.length :=
          Nat.pow_le_pow_right (by omega) (by omega)
        omega
      · exact h1
      · have : (4 : Nat) ^ (up0.length + 2) ≤ 4 ^ rest.length :=
          Nat.pow_le_pow_right (by omega) (by omega)
        omega
    have e1 : L - up0.length = (L - rest.length) + 1 := by omega
    rw [e1, pow_succ] at hB
    have hX : 0 < 4 ^ (L - rest.length) := by positivity
    generalize 4 ^ (L - rest.length) = X at hB hX
    have h4 : (pid + 1) * (X * 4) = (4 * pid + 4) * X := by ring
    rw [h4] at hB
    have := Nat.le_of_mul_le_mul_right hB hX
    omega

theorem rootPhase_not_root (L : Nat) (w : Walk) (hw : StructInv L w) (hph : RootPhase w)
    (t : _htm_node) (rest : List _htm_node) (hp : w.path = t :: rest) : 16 ≤ t.id := by
  obtain ⟨hroot, hpath, hlev, he⟩ := hw
  obtain ⟨-, hl2⟩ := hph
  rw [hp] at hpath hl2
  simp only [List.length_cons] at hl2
  obtain ⟨b1, -⟩ := level_bound hroot t rest hpath
  have : (4 : Nat) ^ 1 ≤ 4 ^ rest.length := Nat.pow_le_pow_right (by omega) (by omega)
  omega

/-- The loop of lines 109-118 keeps everything below the top of the path covered. -/
theorem reduce_top (L K root : Nat) :
    ∀ (e : Nat) (path : List _htm_node) (ids : List htm_range),
    PathInv root path → path.length ≤ e + 1 → e ≤ L → IdsInv L e (endPos L path) ids →
    (∀ y, inSub L path y → covers ids y) →
    ∀ y, inSub L (reduce L K e path ids).2.1 y → covers (reduce L K e path ids).2.2 y
  | 0, path, ids, _, _, _, _, htop => by simpa [reduce] using htop
  | e + 1, path, ids, hpath, hlen, he, hids, htop => by
      have hne := PathInv_ne_nil hpath
      have hpos : 0 < path.length := List.length_pos.mpr hne
      have hmin : ∀ r ∈ ids, r.min ≤ r.max := fun r hr => (hids.each r hr).1
      have hsup : ∀ y z, covers ids y → y / 4 ^ (L - e) = z / 4 ^ (L - e) →
          covers (_htm_simplify_ids ids (L - e)) z :=
        fun y z hy hyz => covers_simplify (L - e) ids hids.sorted hmin z y hy hyz
      simp only [reduce]
      split_ifs with hK hpop
      · have hm : path.length - 1 - e < path.length := by omega
        have hl1 : (path.drop (path.length - 1 - e)).length = e + 1 := by
          simp only [List.length_drop]; omega
        have hp1 : PathInv root (path.drop (path.length - 1 - e)) := PathInv_drop _ hpath hm
        have hle := @endPos_drop_le root L (path.length - 1 - e) path hpath
          (by omega) hm
        have htop1 : ∀ y, inSub L (path.drop (path.length - 1 - e)) y →
            covers (_htm_simplify_ids ids (L - e)) y := by
          intro y hy
          cases path with
          | nil => exact absurd rfl hne
          | cons c rest =>
            have h0 := @inSub_drop root L (startPos L (c :: rest))
              ((c :: rest).length - 1 - e) (c :: rest) hpath (by omega) hm
              (inSub_startPos L c rest)
            generalize List.drop ((c :: rest).length - 1 - e) (c :: rest) = path1 at hl1 hy h0
            cases path1 with
            | nil => simp at hl1
            | cons c1 rest1 =>
              simp only [List.length_cons, Nat.add_right_cancel_iff] at hl1
              simp only [inSub, hl1] at hy h0
              exact hsup _ _ (htop _ (inSub_startPos L c rest)) (by rw [h0, hy])
        exact reduce_top L K root e _ _ hp1 (by omega) (by omega)
          (simplify_step_inv L e path _ ids hids (by omega) hle) htop1
      · exact reduce_top L K root e path _ hpath (by omega) (by omega)
          (simplify_step_inv L e path path ids hids (by omega) (le_refl _))
          (fun y hy => hsup y y (htop y hy) rfl)
      · exact htop

theorem ascend_ret (root e : Nat) (path : List _htm_node) (ids out : List htm_range)
    (h : ascend root path e ids = .ret out) : out = ids := by
  simp only [ascend] at h
  split at h
  · split_ifs at h
    simp only [Next.ret.injEq] at h
    exact h.symm
  · split_ifs at h

/-- After emitting, the list covers every id below `curnode`, and the walk is not below
`curnode`. -/
theorem emit_top (alloc : Alloc) (L K root e : Nat) (cur : _htm_node) (rest : List _htm_node)
    (ids : List htm_range) (hroot : root ≤ 7) (hpath : PathInv root (cur :: rest))
    (hlev : rest.length ≤ e) (he : e ≤ L) (hids : IdsInv L e (startPos L (cur :: rest)) ids) :
    (emit alloc L K root (cur :: rest) cur.id e ids).holds
      (fun w1 => w1.path.length ≤ e + 1 ∧ ∀ x, inSub L (cur :: rest) x → covers w1.ids x)
      (fun out => ∀ x, inSub L (cur :: rest) x → covers out x) := by
  simp only [emit]
  obtain ⟨b1, b2⟩ := emit_bounds L cur rest
  rw [b1, b2]
  split
  · trivial
  · rename_i ids1 hadd
    have h1 := ids_add_some _ _ _ _ _ hadd
    have hc1 := covers_emit L e cur rest ids hids
    rw [← h1] at hc1
    have hi1 : IdsInv L e (endPos L (cur :: rest)) ids1 := by
      rw [h1]
      exact IdsInv_push _ _ hids (le_refl _) (emit_range_ok L e root cur rest hroot hpath hlev he)
    have hlen : (cur :: rest).length ≤ e + 1 := by simpa using hlev
    obtain ⟨m, r1, r2, r3, r4⟩ :=
      reduce_struct L K e (cur :: rest) ids1 (by simp) hlen
    have hrt := reduce_top L K root e (cur :: rest) ids1 hpath hlen he hi1
      (fun y hy => (hc1 y).mpr (Or.inr hy))
    generalize reduce L K e (cur :: rest) ids1 = r at r1 r3 r4 hrt
    obtain ⟨e1, path1, ids2⟩ := r
    simp only at r1 r3 r4 hrt ⊢
    have hp1 : PathInv root path1 := by rw [r1]; exact PathInv_drop m hpath r2
    have hcov : ∀ x, inSub L (cur :: rest) x → covers ids2 x := by
      intro x hx
      apply hrt
      rw [r1]
      exact @inSub_drop root L _ m (cur :: rest) hpath (by omega) r2 hx
    cases hasc : ascend root path1 e1 ids2 with
    | loop w1 =>
        obtain ⟨hs, -, hs3, hs4⟩ := ascend_struct L root e1 path1 ids2 hroot hp1 r3 (by omega)
          w1 hasc
        simp only [Next.holds]
        refine ⟨?_, by rw [hs4]; exact hcov⟩
        have := hs.lev
        omega
    | ret out =>
        simp only [Next.holds]
        rw [ascend_ret root e1 path1 ids2 out hasc]
        exact hcov
    | nomem => trivial

/-- C10, the claim as stated fails: at level 2 with root 8 classified `HTM_CONTAINS` and every
other triangle disjoint, the first turn visits root 8 (level 0) and subdivides it: the next
node is its child 32 and nothing is emitted; the list returned is empty, so the range
`[8 << 4, (9 << 4) - 1]` is never emitted. -/
theorem contains_emits_counterexample :
    containsCov sampleCenter (.fin 1 0) 8 = .HTM_CONTAINS ∧
    step (containsCov sampleCenter (.fin 1 0)) sampleAlloc 2 100
        ⟨HTM_S0, _htm_path_root HTM_S0, 2, []⟩
      = .loop ⟨7, [⟨32, 0⟩, ⟨8, 1⟩], 2, []⟩ ∧
    htm_s2circle_ids wrapShl containsCov sampleAlloc none (some sampleCenter) (.fin 1 0) 2 100
      = some (.ok []) ∧
    ¬ rawCovers [] ((8 <<< 4 : Nat) : Int) :=
  ⟨rfl, rfl, rfl, by simp [rawCovers]⟩

/-- C10 (amended): whenever the node visited, with id `cur.id` at level `k` (the length of the
rest of the path), is classified `HTM_CONTAINS`: below the effective level it is subdivided
(the next node is its child 0 and the list is unchanged); at the effective level its range
`[id << 2(L-k), ((id+1) << 2(L-k)) - 1]` is covered by the list after the turn and the walk
does not go below level `k`; and in both cases its siblings are pruned: no node visited later
is a child of its parent, and when `k = 0` no root is visited later. -/
theorem contains_prunes (cov : Nat → htm_cov) (alloc : Alloc) (L K : Nat) (w : Walk)
    (hw : Reachable cov alloc L K w) (cur : _htm_node) (rest : List _htm_node)
    (hp : w.path = cur :: rest) (hc : cov cur.id = .HTM_CONTAINS) :
    (rest.length < w.efflevel →
      step cov alloc L K w = .loop ⟨(prune w.root rest).1,
        ⟨cur.id <<< 2, 0⟩ :: ⟨cur.id, 1⟩ :: (prune w.root rest).2, w.efflevel, w.ids⟩) ∧
    (rest.length = w.efflevel →
      (step cov alloc L K w).holds
        (fun w1 => w1.path.length ≤ rest.length + 1 ∧
          ∀ x, cur.id <<< ((L - rest.length) * 2) ≤ x →
            x ≤ (cur.id + 1) <<< ((L - rest.length) * 2) - 1 → covers w1.ids x)
        (fun out => ∀ x, cur.id <<< ((L - rest.length) * 2) ≤ x →
            x ≤ (cur.id + 1) <<< ((L - rest.length) * 2) - 1 → covers out x)) ∧
    (∀ w2, Later cov alloc L K w w2 → ∀ t ∈ w2.path.head?,
      (∀ p ∈ rest.head?, t.id / 4 ≠ p.id) ∧ (rest = [] → 16 ≤ t.id)) := by
  obtain ⟨hs, hi⟩ := Reachable_inv cov alloc L K w hw
  obtain ⟨root, path, e, ids⟩ := w
  simp only at hp
  subst hp
  obtain ⟨hroot, hpath, hlev, he⟩ := hs
  obtain ⟨hids, hcap⟩ := hi
  simp only at hroot hpath hlev he hids hcap ⊢
  simp only [List.length_cons, Nat.add_le_add_iff_right] at hlev
  obtain ⟨p1, p2, p3, p4, -⟩ := prune_struct L root cur rest hroot hpath
  have hstep : step cov alloc L K ⟨root, cur :: rest, e, ids⟩
      = intersect alloc L K (prune root rest).1 cur (prune root rest).2 e ids := by
    simp only [step, hc]
  refine ⟨fun hlt => ?_, fun hlt => ?_, fun w2 hl t ht => ?_⟩
  · rw [hstep]
    simp only [intersect, p4, hlt, if_true, make_append, Nat.add_zero]
  · rw [hstep]
    simp only [intersect, p4, hlt, lt_irrefl, if_false]
    have h := emit_top alloc L K _ e cur _ ids p1 p3 (by omega) he
      (by rw [startPos_length L cur rest _ p4]; exact hids)
    have hx : ∀ x, cur.id <<< ((L - e) * 2) ≤ x → x ≤ (cur.id + 1) <<< ((L - e) * 2) - 1 →
        inSub L (cur :: (prune root rest).2) x := by
      intro x h1 h2
      rw [inSub_iff]
      simp only [shl_two_mul] at h1 h2
      simp only [startPos, p4, hlt]
      have hB : 0 < 4 ^ (L - e) := by positivity
      rw [Nat.add_mul, Nat.one_mul] at h2
      exact ⟨h1, h2⟩
    cases hem : emit alloc L K (prune root rest).1 (cur :: (prune root rest).2) cur.id e ids with
    | loop w1 =>
        rw [hem] at h
        exact ⟨h.1, fun x h1 h2 => h.2 x (hx x h1 h2)⟩
    | ret out =>
        rw [hem] at h
        exact fun x h1 h2 => h x (hx x h1 h2)
    | nomem => trivial
  · have hr2 := Later_reachable cov alloc L K _ w2 hw hl
    have hs2 := (Reachable_inv cov alloc L K w2 hr2).1
    obtain ⟨t2, rest2, hp2⟩ : ∃ t2 rest2, w2.path = t2 :: rest2 := by
      cases hpp : w2.path with
      | nil => exact absurd hs2.path (by rw [hpp]; simp [PathInv])
      | cons a b => exact ⟨a, b, rfl⟩
    rw [hp2] at ht
    simp only [List.head?_cons, Option.mem_def, Option.some.injEq] at ht
    subst ht
    cases rest with
    | nil =>
        refine ⟨fun p hp => by simp at hp, fun _ => ?_⟩
        have hph : ∀ w3, Later cov alloc L K ⟨root, [cur], e, ids⟩ w3 → RootPhase w3 := by
          intro w3 hl3
          induction hl3 with
          | next hst =>
              rw [hstep] at hst
              simp only [prune, HTM_N3] at hst p3
              exact intersect_rootPhase alloc L K e cur [] ids p3 (by simp) he _ hst
          | more hl1 hst ih =>
              have hr1 := Later_reachable cov alloc L K _ _ hw hl1
              exact step_rootPhase cov alloc L K _ _ (Reachable_inv cov alloc L K _ hr1).1 ih hst
        exact rootPhase_not_root L w2 hs2 (hph w2 hl) t2 rest2 hp2
    | cons p up =>
        refine ⟨fun q hq => ?_, fun h => by simp at h⟩
        simp only [List.head?_cons, Option.mem_def, Option.some.injEq] at hq
        subst hq
        simp only [prune] at hstep p3
        have hph : ∀ w3, Later cov alloc L K ⟨root, cur :: p :: up, e, ids⟩ w3 →
            PhaseInv L (⟨p.id, 4⟩ :: up) w3 := by
          intro w3 hl3
          induction hl3 with
          | next hst =>
              rw [hstep] at hst
              exact intersect_phase alloc L K root e p.id up cur _ ids p3
                (by simpa using hlev) he (List.suffix_refl _) _ hst
          | more hl1 hst ih =>
              have hr1 := Later_reachable cov alloc L K _ _ hw hl1
              exact step_phase cov alloc L K p.id up _ _
                (Reachable_inv cov alloc L K _ hr1).1 ih hst
        have hS7 : PathInv 7 (⟨p.id, 4⟩ :: up) :=
          PathInv_mono hroot (PathInv_tail p3)
        simp only [List.length_cons] at hlev
        exact phase_not_child L p.id up w2 hs2 hS7 (by omega) (hph w2 hl) t2 rest2 hp2


theorem contains_prunes_witness :
    (([] : List _htm_node).length < 2 →
      step (containsCov sampleCenter (.fin 1 0)) sampleAlloc 2 100
          ⟨HTM_S0, _htm_path_root HTM_S0, 2, []⟩
        = .loop ⟨(prune HTM_S0 []).1,
          ⟨8 <<< 2, 0⟩ :: ⟨8, 1⟩ :: (prune HTM_S0 []).2, 2, []⟩) ∧
    (([] : List _htm_node).length = 2 →
      (step (containsCov sampleCenter (.fin 1 0)) sampleAlloc 2 100
          ⟨HTM_S0, _htm_path_root HTM_S0, 2, []⟩).holds
        (fun w1 => w1.path.length ≤ ([] : List _htm_node).length + 1 ∧
          ∀ x, 8 <<< ((2 - ([] : List _htm_node).length) * 2) ≤ x →
            x ≤ (8 + 1) <<< ((2 - ([] : List _htm_node).length) * 2) - 1 → covers w1.ids x)
        (fun out => ∀ x, 8 <<< ((2 - ([] : List _htm_node).length) * 2) ≤ x →
            x ≤ (8 + 1) <<< ((2 - ([] : List _htm_node).length) * 2) - 1 → covers out x)) ∧
    (∀ w2, Later (containsCov sampleCenter (.fin 1 0)) sampleAlloc 2 100
        ⟨HTM_S0, _htm_path_root HTM_S0, 2, []⟩ w2 → ∀ t ∈ w2.path.head?,
      (∀ p ∈ ([] : List _htm_node).head?, t.id / 4 ≠ p.id) ∧
        (([] : List _htm_node) = [] → 16 ≤ t.id)) :=
  contains_prunes (containsCov sampleCenter (.fin 1 0)) sampleAlloc 2 100
    ⟨HTM_S0, _htm_path_root HTM_S0, 2, []⟩ Reachable.init ⟨8, 0⟩ [] rfl rfl

/-! ## The tree index: `htm_tree_init`, `htm_tree_destroy`, `htm_tree_s2circle_scan` -/

theorem cleanup_ne_ok (err : htm_errcode) (herr : err ≠ .HTM_OK) (tree : htm_tree)
    (acts : List Action) (t : htm_tree) (a : List Action) :
    cleanup err tree acts ≠ some (.HTM_OK, t, a) := by
  intro h
  simp only [cleanup, Option.some.injEq, Prod.mk.injEq] at h
  exact herr h.1

theorem init_header_ok_inv (vi : Varint) (env : Env) (tree : htm_tree) (acts : List Action)
    (count st_size : Nat) (t : htm_tree) (a : List Action)
    (h : init_header vi env tree acts count st_size = some (.HTM_OK, t, a)) :
    t.root = (parseRoots vi env.index env.mmapIndex 8 (rootFieldPos vi env.index 0)).1 ∧
      (parseRoots vi env.index env.mmapIndex 8 (rootFieldPos vi env.index 0)).2 < st_size ∧
      t.index = tree.index ∧ t.indexsz = tree.indexsz := by
  unfold init_header at h
  simp only [] at h
  split_ifs at h with h1 h2
  · exact absurd h (cleanup_ne_ok _ (by decide) _ _ _ _)
  · exact absurd h (cleanup_ne_ok _ (by decide) _ _ _ _)
  · simp only [Option.some.injEq, Prod.mk.injEq, true_and] at h
    obtain ⟨rfl, -⟩ := h
    simp only [rootFieldPos]
    exact ⟨trivial, by omega, trivial, trivial⟩

theorem init_index_ok_inv (vi : Varint) (env : Env) (tree : htm_tree) (acts : List Action)
    (count : Nat) (f : String) (t : htm_tree) (a : List Action)
    (h : init_index vi env tree acts count (some f) = some (.HTM_OK, t, a)) :
    ∃ st_size, env.statIndex = some st_size ∧
      t.root = (parseRoots vi env.index env.mmapIndex 8 (rootFieldPos vi env.index 0)).1 ∧
      (parseRoots vi env.index env.mmapIndex 8 (rootFieldPos vi env.index 0)).2 < st_size ∧
      t.index = env.mmapIndex ∧ t.indexsz = pageRound env.pagesz st_size := by
  unfold init_index at h
  simp only [Option.isNone_some, Bool.false_eq_true, if_false] at h
  cases hs : env.statIndex with
  | none =>
      rw [hs] at h
      exact absurd h (cleanup_ne_ok _ (by decide) _ _ _ _)
  | some st_size =>
      rw [hs] at h
      simp only [] at h
      split_ifs at h <;> first
        | exact absurd h (cleanup_ne_ok _ (by decide) _ _ _ _)
        | exact ⟨st_size, rfl, init_header_ok_inv _ _ _ _ _ _ _ _ h⟩

/-- What a successful `htm_tree_init` with a tree file has done. -/
theorem htm_tree_init_ok_inv (vi : Varint) (env : Env) (t0 : htm_tree) (f : String)
    (datafile : Option String) (t : htm_tree) (acts : List Action)
    (h : htm_tree_init vi env t0 (some f) datafile = some (.HTM_OK, t, acts)) :
    ∃ st_size, env.statIndex = some st_size ∧
      t.root = (parseRoots vi env.index env.mmapIndex 8 (rootFieldPos vi env.index 0)).1 ∧
      (parseRoots vi env.index env.mmapIndex 8 (rootFieldPos vi env.index 0)).2 < st_size ∧
      t.index = env.mmapIndex ∧ t.indexsz = pageRound env.pagesz st_size := by
  unfold htm_tree_init at h
  simp only [] at h
  split_ifs at h <;> first
    | (exfalso; simp only [Option.some.injEq, Prod.mk.injEq] at h; exact absurd h.1 (by decide))
    | skip
  unfold init_data at h
  split_ifs at h <;> first
    | exact absurd h (cleanup_ne_ok _ (by decide) _ _ _ _)
    | exact init_index_ok_inv _ _ _ _ _ _ _ _ h

theorem parseRoots_snd (vi : Varint) (index : List Nat) (base : Int) (n : Nat) :
    ∀ i, (parseRoots vi index base n (rootFieldPos vi index i)).2 = rootFieldPos vi index (i + n) := by
  induction n with
  | zero => intro i; rfl
  | succ n ih =>
      intro i
      simp only [parseRoots]
      have := ih (i + 1)
      simp only [rootFieldPos] at this
      rw [this]
      congr 1
      omega

theorem parseRoots_getD (vi : Varint) (index : List Nat) (base : Int) (n : Nat) :
    ∀ i j, j < n → (parseRoots vi index base n (rootFieldPos vi index i)).1.getD j none =
      if htm_varint_decode vi index (rootFieldPos vi index (i + j)) = 0 then none
      else ptr_add (base + (rootFieldPos vi index (i + j + 1) : Nat))
        (htm_varint_decode vi index (rootFieldPos vi index (i + j)) - 1) := by
  induction n with
  | zero => intro i j hj; omega
  | succ n ih =>
      intro i j hj
      simp only [parseRoots]
      cases j with
      | zero => simp [rootFieldPos]
      | succ j =>
          have := ih (i + 1) j (by omega)
          simp only [rootFieldPos] at this
          simp only [List.getD_cons_succ]
          rw [this]
          have e1 : i + 1 + j = i + (j + 1) := by omega
          rw [e1]
          rfl


theorem le_pageRound (pagesz st_size : Nat) : st_size ≤ pageRound pagesz st_size := by
  simp only [pageRound]
  split_ifs <;> omega

theorem toInt64_of_lt (n : Nat) (h : n < 2 ^ 63) : toInt64 n = (n : Int) := by
  have h1 : n % 2 ^ 64 = n := Nat.mod_eq_of_lt (by omega)
  simp only [toInt64, h1, h, if_true]

/-- C5: on a non-NULL tree and a non-NULL centre `htm_tree_s2circle_scan` returns 0 when
`radius < 0` and `(int64_t) tree->count` when `radius >= 180`, which is the count itself for
every count below `2^63`, whatever the test on the entries gives. -/
theorem htm_tree_s2circle_scan_degenerate (inCircle : htm_v3 → Dbl → Nat → Bool)
    (tree : htm_tree) (center : htm_v3) (radius : Dbl) :
    (radius.ltZero = true →
      (htm_tree_s2circle_scan inCircle (some tree) (some center) radius).1 = 0) ∧
    (radius.ge180 = true →
      (htm_tree_s2circle_scan inCircle (some tree) (some center) radius).1 = toInt64 tree.count ∧
      (tree.count < 2 ^ 63 →
        (htm_tree_s2circle_scan inCircle (some tree) (some center) radius).1 = tree.count)) := by
  constructor
  · intro h
    simp [htm_tree_s2circle_scan, h]
  · intro h
    have h0 := ge180_not_ltZero radius h
    have e : (htm_tree_s2circle_scan inCircle (some tree) (some center) radius).1
        = toInt64 tree.count := by
      simp [htm_tree_s2circle_scan, h, h0]
    exact ⟨e, fun hc => by rw [e, toInt64_of_lt _ hc]⟩

theorem htm_tree_s2circle_scan_degenerate_witness :
    (Dbl.ltZero (.fin (-1) 0) = true ∧
      (htm_tree_s2circle_scan (fun _ _ _ => true) (some { blankTree with count := 4 })
        (some ⟨.fin 1 0, .fin 0 0, .fin 0 0⟩) (.fin (-1) 0)).1 = 0) ∧
    (Dbl.ge180 (.fin 45 2) = true ∧
      (htm_tree_s2circle_scan (fun _ _ _ => false) (some { blankTree with count := 4 })
        (some ⟨.fin 1 0, .fin 0 0, .fin 0 0⟩) (.fin 45 2)).1 = 4) :=
  ⟨⟨by decide, (htm_tree_s2circle_scan_degenerate (fun _ _ _ => true) { blankTree with count := 4 }
      ⟨.fin 1 0, .fin 0 0, .fin 0 0⟩ (.fin (-1) 0)).1 (by decide)⟩,
   ⟨by decide, ((htm_tree_s2circle_scan_degenerate (fun _ _ _ => false)
      { blankTree with count := 4 } ⟨.fin 1 0, .fin 0 0, .fin 0 0⟩ (.fin 45 2)).2
        (by decide)).2 (by decide)⟩⟩

/-- When every call on the data file and on the tree file succeeds, the data size is a
non-zero multiple of `entry_size`, and the count of the header differs from
`datasz / entry_size`, `htm_tree_init` returns `HTM_ETREE`; both descriptors have been closed,
`munmap` has been called on the tree file mapping and, for `datasz` bytes, on the data file
mapping, and the tree has `datafd = -1`, `indexfd = -1`, `entries = index = MAP_FAILED`,
`count = 0` and eight NULL roots. -/
theorem htm_tree_init_count_mismatch (vi : Varint) (env : Env) (t0 : htm_tree)
    (treefile datafile : String) (hok : env.allCallsSucceed = true)
    (hsz : env.entry_size ≠ 0) (hmul : env.datasz % env.entry_size = 0) (hnz : env.datasz ≠ 0)
    (hcount : htm_varint_decode vi env.index (1 + htm_varint_nfollow vi env.index 0)
      ≠ env.datasz / env.entry_size) :
    ∃ t acts, htm_tree_init vi env t0 (some treefile) (some datafile)
        = some (.HTM_ETREE, t, acts) ∧
      t.datafd = -1 ∧ t.indexfd = -1 ∧ t.entries = MAP_FAILED ∧ t.index = MAP_FAILED ∧
      t.count = 0 ∧ t.root = List.replicate 8 none ∧
      Action.close env.openData ∈ acts ∧ Action.close env.openIndex ∈ acts ∧
      Action.munmap env.mmapData env.datasz ∈ acts ∧
      Action.munmap env.mmapIndex (pageRound env.pagesz (env.statIndex.getD 0)) ∈ acts := by
  simp only [Env.allCallsSucceed, Bool.and_eq_true, decide_eq_true_eq] at hok
  obtain ⟨⟨⟨⟨⟨⟨⟨⟨⟨⟨⟨⟨h1, h2⟩, h3⟩, h4⟩, h5⟩, h6⟩, h7⟩, h8⟩, h9⟩, h10⟩, h11⟩, h12⟩, h13⟩ := hok
  obtain ⟨st, hst⟩ := Option.isSome_iff_exists.mp h10
  have h7' : ¬ (env.mmapData + (env.offset : Int) - (env.offset : Int) = MAP_FAILED) := by
    intro h; apply h7; rw [← h]; ring
  simp only [htm_tree_init, init_data, init_index, init_header, cleanup, htm_tree_destroy,
    h1, h2, h3, h4, h5, h6, h7, h7', h8, h9, hst, h11, h12, h13, hsz, hmul, hnz, hcount,
    Option.isNone_some, Bool.not_true, Bool.false_eq_true, if_false, if_true, ne_eq,
    not_true_eq_false, not_false_eq_true, or_self]
  refine ⟨_, _, rfl, rfl, rfl, rfl, rfl, rfl, rfl, ?_, ?_, ?_, ?_⟩
  · simp
  · simp
  · simp
  · simp [hst]

theorem htm_tree_init_count_mismatch_witness :
    ∃ t acts, htm_tree_init sampleVarint (sampleEnv sampleBadIndex) blankTree (some "tree")
        (some "data") = some (.HTM_ETREE, t, acts) ∧
      t.datafd = -1 ∧ t.indexfd = -1 ∧ t.entries = MAP_FAILED ∧ t.index = MAP_FAILED ∧
      t.count = 0 ∧ t.root = List.replicate 8 none ∧
      Action.close 3 ∈ acts ∧ Action.close 4 ∈ acts ∧
      Action.munmap 1048576 96 ∈ acts ∧
      Action.munmap 2097152 4096 ∈ acts :=
  htm_tree_init_count_mismatch sampleVarint (sampleEnv sampleBadIndex) blankTree "tree" "data"
    (by decide) (by decide) (by decide) (by decide) (by decide)


/-- C6, the code at the failing input: with the data set at offset 8192 of its file, the data
file is mapped on `96 + 8192` bytes, three pages of 4096 bytes; after the count mismatch
`htm_tree_init` returns `HTM_ETREE` with the descriptors closed and the fields reset, but the
`munmap` of the data file is for `datasz = 96` bytes from the start of the mapping, one page:
two pages of the data file stay mapped. -/
theorem htm_tree_init_count_mismatch_leaves_pages :
    ∃ t, htm_tree_init sampleVarint sampleFarEnv blankTree (some "tree") (some "data")
        = some (.HTM_ETREE, t,
          [Action.openFd 3, Action.mmap 1048576 8288, Action.openFd 4,
            Action.mmap 2097152 4096, Action.munmap 1048576 96, Action.close 3,
            Action.munmap 2097152 4096, Action.close 4, Action.freeName 0, Action.freeName 1,
            Action.freeName 2, Action.freeNames, Action.freeTypes]) ∧
      t.entries = MAP_FAILED ∧ t.index = MAP_FAILED ∧ t.datafd = -1 ∧ t.indexfd = -1 ∧
      pageRound 4096 96 = 4096 ∧ pageRound 4096 8288 = 12288 :=
  ⟨_, rfl, rfl, rfl, rfl, rfl, rfl, rfl⟩

/-- C7, the claim as stated fails: in the sample tree file the offset of root 7 is the
two-byte varint at position 9, of value 8197, and `root[7]` is not `index + 9 + 1 + (8197 - 1)`. -/
theorem htm_tree_init_root_pointer_counterexample :
    ∃ t acts, htm_tree_init sampleVarint (sampleEnv sampleIndex) blankTree (some "tree")
        (some "data") = some (.HTM_OK, t, acts) ∧
      rootFieldPos sampleVarint sampleIndex 7 = 9 ∧
      htm_varint_decode sampleVarint sampleIndex 9 = 8197 ∧
      t.root.getD 7 none ≠ some (t.index + ((9 + 1 + (8197 - 1) : Nat) : Int)) :=
  ⟨_, _, rfl, by decide, by decide, by decide⟩

/-- The root pointer `htm_tree_init` stores for root `i`: NULL for the offset 0, else the
address after the offset field plus the offset less one, in 64-bit pointer arithmetic. -/
theorem root_getD (vi : Varint) (env : Env) (t0 : htm_tree) (treefile : String)
    (datafile : Option String) (t : htm_tree) (acts : List Action)
    (h : htm_tree_init vi env t0 (some treefile) datafile = some (.HTM_OK, t, acts))
    (i : Nat) (hi : i < 8) :
    t.root.getD i none =
      if htm_varint_decode vi env.index (rootFieldPos vi env.index i) = 0 then none
      else if (t.index + ((rootFieldPos vi env.index i + 1 +
            htm_varint_nfollow vi env.index (rootFieldPos vi env.index i) +
          (htm_varint_decode vi env.index (rootFieldPos vi env.index i) - 1) : Nat) : Int))
            % 2 ^ 64 = 0 then none
      else some ((t.index + ((rootFieldPos vi env.index i + 1 +
            htm_varint_nfollow vi env.index (rootFieldPos vi env.index i) +
          (htm_varint_decode vi env.index (rootFieldPos vi env.index i) - 1) : Nat) : Int))
            % 2 ^ 64) := by
  obtain ⟨st, -, hroot, -, hidx, -⟩ := htm_tree_init_ok_inv vi env t0 treefile datafile t acts h
  have hg := parseRoots_getD vi env.index env.mmapIndex 8 0 i hi
  simp only [Nat.zero_add] at hg
  rw [hroot, hg, hidx]
  have hA : env.mmapIndex + ((rootFieldPos vi env.index (i + 1) : Nat) : Int) +
      ((htm_varint_decode vi env.index (rootFieldPos vi env.index i) - 1 : Nat) : Int)
      = env.mmapIndex + ((rootFieldPos vi env.index i + 1 +
            htm_varint_nfollow vi env.index (rootFieldPos vi env.index i) +
          (htm_varint_decode vi env.index (rootFieldPos vi env.index i) - 1) : Nat) : Int) := by
    simp only [rootFieldPos]
    push_cast
    ring
  simp only [ptr_add, hA]

/-- C7 (amended): after a successful `htm_tree_init` with a tree file, for every root `i` in
0..7 whose offset field starts at position `p`, has `n` bytes after its first and decodes to
`k`: `root[i]` is NULL when `k = 0`; when `k > 0` it is the address
`index + p + 1 + n + (k - 1)` taken modulo `2 ^ 64`, NULL when that is 0; so long as the
sum stays below `2 ^ 64` it is the index position `p + 1 + n + (k - 1)`, the byte after the
last byte of the offset field plus `k - 1`. -/
theorem htm_tree_init_root_pointer (vi : Varint) (env : Env) (t0 : htm_tree) (treefile : String)
    (datafile : Option String) (t : htm_tree) (acts : List Action)
    (h : htm_tree_init vi env t0 (some treefile) datafile = some (.HTM_OK, t, acts))
    (i : Nat) (hi : i < 8) :
    (t.root.getD i none = none ↔
      (htm_varint_decode vi env.index (rootFieldPos vi env.index i) = 0 ∨
        (t.index + ((rootFieldPos vi env.index i + 1 +
            htm_varint_nfollow vi env.index (rootFieldPos vi env.index i) +
          (htm_varint_decode vi env.index (rootFieldPos vi env.index i) - 1) : Nat) : Int))
            % 2 ^ 64 = 0)) ∧
    (∀ a, t.root.getD i none = some a →
      a = (t.index + ((rootFieldPos vi env.index i + 1 +
            htm_varint_nfollow vi env.index (rootFieldPos vi env.index i) +
          (htm_varint_decode vi env.index (rootFieldPos vi env.index i) - 1) : Nat) : Int))
            % 2 ^ 64) ∧
    (0 < htm_varint_decode vi env.index (rootFieldPos vi env.index i) → 0 ≤ t.index →
      t.index + ((rootFieldPos vi env.index i + 1 +
            htm_varint_nfollow vi env.index (rootFieldPos vi env.index i) +
          (htm_varint_decode vi env.index (rootFieldPos vi env.index i) - 1) : Nat) : Int)
            < 2 ^ 64 →
      t.root.getD i none = some (t.index +
        ((rootFieldPos vi env.index i + 1 +
            htm_varint_nfollow vi env.index (rootFieldPos vi env.index i) +
          (htm_varint_decode vi env.index (rootFieldPos vi env.index i) - 1) : Nat) : Int))) := by
  have hg := root_getD vi env t0 treefile datafile t acts h i hi
  rw [hg]
  generalize htm_varint_decode vi env.index (rootFieldPos vi env.index i) = k
  generalize hE : rootFieldPos vi env.index i + 1 +
    htm_varint_nfollow vi env.index (rootFieldPos vi env.index i) = e
  refine ⟨?_, ?_, ?_⟩
  · constructor
    · intro h0
      by_contra hne
      rw [not_or] at hne
      simp only [hne.1, hne.2, if_false] at h0
      exact absurd h0 (by simp)
    · rintro (h0 | h0)
      · simp only [h0, if_true]
      · split_ifs <;> rfl
  · intro a ha
    split_ifs at ha
    simp only [Option.some.injEq] at ha
    exact ha.symm
  · intro hpos hidx hlt
    have hne : k ≠ 0 := by omega
    have hm : (t.index + ((e + (k - 1) : Nat) : Int)) % 2 ^ 64
        = t.index + ((e + (k - 1) : Nat) : Int) := by
      apply Int.emod_eq_of_lt
      · omega
      · exact hlt
    have e1 : 0 < e := by omega
    rw [if_neg hne, hm, if_neg (by omega)]

theorem htm_tree_init_root_pointer_witness :
    List.getD [some (2097163 : Int), none, none, none, none, none, none, some 2105359] 7 none
        = some ((2097152 : Int) +
        ((rootFieldPos sampleVarint sampleIndex 7 + 1 +
            htm_varint_nfollow sampleVarint sampleIndex (rootFieldPos sampleVarint sampleIndex 7) +
          (htm_varint_decode sampleVarint sampleIndex (rootFieldPos sampleVarint sampleIndex 7)
            - 1) : Nat) : Int)) :=
  (htm_tree_init_root_pointer sampleVarint (sampleEnv sampleIndex) blankTree "tree"
    (some "data") _ _ rfl 7 (by decide)).2.2 (by decide) (by decide) (by decide)

/-- C8, the claim as stated fails: the sample tree file has 19 bytes and is mapped on 4096,
`htm_tree_init` returns `HTM_OK`, and `root[7]` is at position 8207 of the index, beyond the
file and beyond the mapping. -/
theorem htm_tree_init_root_in_file_counterexample :
    ∃ t acts, htm_tree_init sampleVarint (sampleEnv sampleIndex) blankTree (some "tree")
        (some "data") = some (.HTM_OK, t, acts) ∧
      (sampleEnv sampleIndex).statIndex = some 19 ∧
      t.indexsz = 4096 ∧
      t.root.getD 7 none = some (t.index + 8207) ∧ ¬ (t.index + 8207 - t.index < 19) ∧
      ¬ (t.index + 8207 - t.index < 4096) :=
  ⟨_, _, rfl, rfl, rfl, by decide, by decide, by decide⟩

/-- C8 (amended): after a successful `htm_tree_init` with a tree file of `st_size` bytes whose
mapping lies within the 64-bit address space, the header ends within the file (the position
after the eighth root offset is below `st_size`); the root offsets are not checked: a non-NULL
`root[i]` lies within the file, `0 ≤ root[i] - index < st_size`, exactly when
`(e + (k - 1)) mod 2 ^ 64 < st_size`, with `k` the offset of root `i` and `e` the position
after its offset field. -/
theorem htm_tree_init_root_in_file (vi : Varint) (env : Env) (t0 : htm_tree) (treefile : String)
    (datafile : Option String) (t : htm_tree) (acts : List Action)
    (h : htm_tree_init vi env t0 (some treefile) datafile = some (.HTM_OK, t, acts))
    (hidx0 : 0 ≤ t.index) (hfit : t.index + (t.indexsz : Int) ≤ 2 ^ 64) :
    ∃ st_size, env.statIndex = some st_size ∧ rootFieldPos vi env.index 8 < st_size ∧
      ∀ i, i < 8 → ∀ a, t.root.getD i none = some a →
        ((0 ≤ a - t.index ∧ a - t.index < st_size) ↔
          (rootFieldPos vi env.index (i + 1) +
            (htm_varint_decode vi env.index (rootFieldPos vi env.index i) - 1)) % 2 ^ 64
              < st_size) := by
  obtain ⟨st, hst, hroot, hend, hidx, hsz⟩ :=
    htm_tree_init_ok_inv vi env t0 treefile datafile t acts h
  have hle := le_pageRound env.pagesz st
  refine ⟨st, hst, ?_, ?_⟩
  · have := parseRoots_snd vi env.index env.mmapIndex 8 0
    simp only [Nat.zero_add] at this
    rw [this] at hend
    exact hend
  · intro i hi a ha
    have hg : a = (t.index + ((rootFieldPos vi env.index i + 1 +
          htm_varint_nfollow vi env.index (rootFieldPos vi env.index i) +
        (htm_varint_decode vi env.index (rootFieldPos vi env.index i) - 1) : Nat) : Int))
          % 2 ^ 64 := by
      rw [root_getD vi env t0 treefile datafile t acts h i hi] at ha
      split_ifs at ha
      simp only [Option.some.injEq] at ha
      exact ha.symm
    have he : rootFieldPos vi env.index (i + 1) = rootFieldPos vi env.index i + 1 +
        htm_varint_nfollow vi env.index (rootFieldPos vi env.index i) := by
      simp only [rootFieldPos]; omega
    rw [he, hg]
    generalize rootFieldPos vi env.index i + 1 +
      htm_varint_nfollow vi env.index (rootFieldPos vi env.index i) +
      (htm_varint_decode vi env.index (rootFieldPos vi env.index i) - 1) = T
    rw [hsz] at hfit
    omega

theorem htm_tree_init_root_in_file_witness :
    ∃ st_size, (sampleEnv wrapIndex).statIndex = some st_size ∧
      rootFieldPos sampleVarint (sampleEnv wrapIndex).index 8 < st_size ∧
      ∀ i, i < 8 → ∀ a,
        List.getD [some (2097142 : Int), none, none, none, none, none, none, none] i none
          = some a →
        ((0 ≤ a - 2097152 ∧ a - 2097152 < st_size) ↔
          (rootFieldPos sampleVarint (sampleEnv wrapIndex).index (i + 1) +
            (htm_varint_decode sampleVarint (sampleEnv wrapIndex).index
              (rootFieldPos sampleVarint (sampleEnv wrapIndex).index i) - 1)) % 2 ^ 64
                < st_size) :=
  htm_tree_init_root_in_file sampleVarint (sampleEnv wrapIndex) blankTree "tree" (some "data")
    _ _ rfl (by decide) (by decide)

/-- C9, the code at the failing input: after a successful `htm_tree_init` on the sample files
and a first `htm_tree_destroy`, a second `htm_tree_destroy` calls `munmap` again (at
`MAP_FAILED - offset`) and frees the three names, the name array and the type array again. -/
theorem htm_tree_destroy_twice_releases_again :
    ∃ t acts, htm_tree_init sampleVarint (sampleEnv sampleIndex) blankTree (some "tree")
        (some "data") = some (.HTM_OK, t, acts) ∧
      (htm_tree_destroy (htm_tree_destroy t).1).2 =
        [Action.munmap (MAP_FAILED - 2048) 0, Action.freeName 0, Action.freeName 1,
          Action.freeName 2, Action.freeNames, Action.freeTypes] :=
  ⟨_, _, rfl, by decide⟩


end TinyHTM
